import Mathlib

/-!
Verification development for the `pos_norm` receipt-normalization module
(`python_pos_module/src/pos_norm`).  The Python sources are embedded
shallowly: dynamic (`Any`-typed) JSON-like data becomes the inductive type
`PyVal`, dataclasses become structures, floats become exact rationals `ℚ`,
and the stateful cache becomes explicit state passing.  Python `bool` is a
separate constructor from `int`, and the places where the source relies on
`isinstance(x, int)` accepting booleans are modelled by `pyAsInt?`, while
the places that explicitly exclude booleans match only `vint`.
-/

/-- Dynamic Python value as it appears in the LLM structured payloads and
audit events: `None`, `bool`, `int`, `float` (modelled as an exact
rational), `str`, `list`, and `dict` with string-convertible keys
(modelled as an association list in insertion order). -/
inductive PyVal where
  | vnull
  | vbool (b : Bool)
  | vint (n : Int)
  | vrat (q : ℚ)
  | vstr (s : String)
  | vlist (xs : List PyVal)
  | vobj (kvs : List (String × PyVal))

namespace PyVal

end PyVal

open PyVal

/-- Characters treated as whitespace by Python's `str.strip()` /
`str.isspace()` (the ASCII whitespace plus the common Unicode spaces that
occur in receipt text, notably the ideographic space). -/
def isPySpace (c : Char) : Bool :=
  c = ' ' || c = '\t' || c = '\n' || c = '\r' || c = '\x0b' || c = '\x0c' ||
    c = '\x1c' || c = '\x1d' || c = '\x1e' || c = '\x1f' || c = '\x85' ||
    c = '\xa0' || c = ' ' || c = ' ' || c = ' ' || c = ' ' ||
    c = ' ' || c = ' ' || c = ' ' || c = ' ' || c = ' ' ||
    c = ' ' || c = ' ' || c = ' ' || c = ' ' || c = ' ' ||
    c = ' ' || c = '　'

/-- Python `str.strip()` on the character list. -/
def stripChars (cs : List Char) : List Char :=
  ((cs.dropWhile isPySpace).reverse.dropWhile isPySpace).reverse

/-- Python `str.strip()`. -/
def pyStrip (s : String) : String :=
  String.mk (stripChars s.data)

/-- `s.strip() != ""`, the pervasive non-blank test of the sources. -/
def isNonBlank (s : String) : Bool :=
  pyStrip s ≠ ""

namespace PyVal

/-- First-match association-list lookup; models `dict.get` (Python dict
keys are unique, so first match is the match). -/
def lookup (kvs : List (String × PyVal)) (k : String) : Option PyVal :=
  match kvs with
  | [] => none
  | (k', v) :: rest => if k' = k then some v else lookup rest k

/-- `dict[k] = v` update: replaces the value in place if the key exists,
appends otherwise.  Models `dict.__setitem__` / `dict.update` per key. -/
def objSet (kvs : List (String × PyVal)) (k : String) (v : PyVal) : List (String × PyVal) :=
  match kvs with
  | [] => [(k, v)]
  | (k', v') :: rest => if k' = k then (k', v) :: rest else (k', v') :: objSet rest k v

/-- `merge_validate._read(source, key, default)`: mapping lookup with
default; non-mapping values have no such attribute in the structured
payloads, so the default is returned. -/
def read (source : PyVal) (k : String) (d : PyVal) : PyVal :=
  match source with
  | vobj kvs => (lookup kvs k).getD d
  | _ => d

/-- `merge_validate._as_dict`: keep mappings, everything else becomes `{}`. -/
def asDict (v : PyVal) : List (String × PyVal) :=
  match v with
  | vobj kvs => kvs
  | _ => []

/-- Python truthiness `bool(value)` on the modelled values. -/
def truthy : PyVal → Bool
  | vnull => false
  | vbool b => b
  | vint n => n ≠ 0
  | vrat q => q ≠ 0
  | vstr s => s ≠ ""
  | vlist xs => !xs.isEmpty
  | vobj kvs => !kvs.isEmpty

/-- `isinstance(x, int)` with its value: in Python `bool` is a subclass of
`int` (`True == 1`, `False == 0`), so both constructors qualify. -/
def pyAsInt? : PyVal → Option Int
  | vint n => some n
  | vbool b => some (if b then 1 else 0)
  | _ => none

/-- `isinstance(x, int) and not isinstance(x, bool)`: a genuine integer. -/
def strictInt? : PyVal → Option Int
  | vint n => some n
  | _ => none

/-- `isinstance(x, str)`. -/
def str? : PyVal → Option String
  | vstr s => some s
  | _ => none

/-- Decimal string accepted by Python's `float(...)` constructor
(simplified to optionally signed decimal literals, the shapes confidences
take in the payloads). -/
def parseDecimal (s : String) : Option ℚ :=
  let cs := stripChars s.data
  let (sign, body) : ℚ × List Char :=
    match cs with
    | '-' :: rest => (-1, rest)
    | '+' :: rest => (1, rest)
    | _ => (1, cs)
  let intPart := body.takeWhile Char.isDigit
  let rest := body.dropWhile Char.isDigit
  let digitsVal (l : List Char) : ℚ :=
    l.foldl (fun acc c => acc * 10 + (c.toNat - '0'.toNat : ℕ)) (0 : ℚ)
  match rest with
  | [] =>
      if intPart = [] then none
      else some (sign * digitsVal intPart)
  | '.' :: fracs =>
      if fracs.all Char.isDigit ∧ ¬(intPart = [] ∧ fracs = []) then
        some (sign * (digitsVal intPart + digitsVal fracs / (10 : ℚ) ^ fracs.length))
      else none
  | _ => none

/-- Python `float(value)`: succeeds on `bool`, `int`, `float` and numeric
strings, raises (here: `none`) otherwise. -/
def pyFloat? : PyVal → Option ℚ
  | vbool b => some (if b then 1 else 0)
  | vint n => some (n : ℚ)
  | vrat q => some q
  | vstr s => parseDecimal s
  | _ => none

/-- Python `str(value)` for the scalar values that reach it in the sources
(version fields); containers get a placeholder repr, which no claim
touches. -/
def pyToStr : PyVal → String
  | vnull => "None"
  | vbool b => if b then "True" else "False"
  | vint n => toString n
  | vrat q => toString q
  | vstr s => s
  | vlist _ => "[...]"
  | vobj _ => "{...}"

end PyVal

/-- Set of strings modelled as a duplicate-free insertion list (Python
`set[str]`: only membership, emptiness and `add` are used). -/
def addStr (xs : List String) (s : String) : List String :=
  if s ∈ xs then xs else xs ++ [s]

/-- Python `set.add` over `int` elements. -/
def addInt (xs : List Int) (n : Int) : List Int :=
  if n ∈ xs then xs else xs ++ [n]

/-! ## Contracts (`contracts.py`) -/

def CONTRACT_VERSION : String := "1.0.0"

/-- `contracts.RawLine`. -/
structure RawLine where
  line_index : Int
  raw_line : String
  name_raw : String
  qty : Int
  note_raw : Option String := none
  needs_review : Bool := false
  metadata : List (String × PyVal) := []
  version : String := CONTRACT_VERSION

/-- `contracts.Mod` (named `ModEntry` here because `Mod` is taken by the
arithmetic typeclass); `mod_name`/`mod_value` receive unvalidated payload
values, hence `PyVal`. -/
structure ModEntry where
  mod_raw : String
  mod_name : PyVal := PyVal.vnull
  mod_value : PyVal := PyVal.vnull
  confidence : Option ℚ := none
  needs_review : Bool := false
  metadata : List (String × PyVal) := []
  version : String := CONTRACT_VERSION

/-- `contracts.CandidateItem` (fields the pipeline constructs). -/
structure CandidateItem where
  line_index : Int
  raw_line : String
  name_raw : String
  qty : Int
  candidate_name : String
  candidate_code : Option String := none
  note_raw : Option String := none
  confidence_item : Option ℚ := none
  needs_review : Bool := false
  metadata : List (String × PyVal) := []
  version : String := CONTRACT_VERSION

/-- `contracts.AuditEvent`. -/
structure AuditEvent where
  event_type : String
  message : String
  line_index : Option Int := none
  item_index : Option Int := none
  metadata : List (String × PyVal) := []
  version : String := CONTRACT_VERSION

/-- `contracts.OrderRawParsed`. -/
structure OrderRawParsed where
  source_text : String
  lines : List RawLine
  order_id : Option String := none
  parse_warnings : List String := []
  needs_review : Bool := false
  metadata : List (String × PyVal) := []
  version : String := CONTRACT_VERSION

/-- `contracts.NormalizedItem`; `group_id` receives the raw LLM value. -/
structure NormalizedItem where
  line_index : Int
  raw_line : String
  name_raw : String
  qty : Int
  name_normalized : String
  item_code : Option String := none
  note_raw : Option String := none
  mods : List ModEntry := []
  group_id : PyVal := PyVal.vnull
  confidence_item : Option ℚ := none
  confidence_mods : Option ℚ := none
  needs_review : Bool := false
  metadata : List (String × PyVal) := []
  version : String := CONTRACT_VERSION

/-- `contracts.GroupResult`. -/
structure GroupResult where
  group_id : String
  type : String
  label : String
  line_indices : List Int
  confidence_group : Option ℚ := none
  needs_review : Bool := false
  metadata : List (String × PyVal) := []
  version : String := CONTRACT_VERSION

/-- `contracts.OrderNormalized`. -/
structure OrderNormalized where
  source_text : String
  items : List NormalizedItem
  groups : List GroupResult
  order_id : Option String := none
  lines : List RawLine := []
  audit_events : List AuditEvent := []
  overall_needs_review : Bool := false
  order_confidence : Option ℚ := none
  metadata : List (String × PyVal) := []
  version : String := CONTRACT_VERSION

/-- `contracts.MenuCatalog`: either a mapping (keys of any value type) or
a list of entry payloads. -/
inductive MenuCatalog where
  | cmap (kvs : List (PyVal × PyVal))
  | clist (entries : List PyVal)

/-- `contracts.CandidatesByLine = dict[int, list[CandidateItem]]`. -/
def CandidatesByLine := List (Int × List CandidateItem)

/-- `candidates.get(line_index, [])`. -/
def candidatesGet (c : CandidatesByLine) (i : Int) : List CandidateItem :=
  match c with
  | [] => []
  | (j, cs) :: rest => if j = i then cs else candidatesGet rest i

/-! ## Merge & validate (`merge_validate.py`) -/

namespace MergeValidate

def DEFAULT_THRESHOLD : ℚ := 85 / 100

def VALID_GROUP_TYPES : List String := ["pack_together", "separate", "other"]

/-- `_copy_raw_line` (pure model: a field-for-field rebuild). -/
def copyRawLine (line : RawLine) : RawLine :=
  { line_index := line.line_index
    raw_line := line.raw_line
    name_raw := line.name_raw
    qty := line.qty
    note_raw := line.note_raw
    needs_review := line.needs_review
    metadata := line.metadata
    version := line.version }

/-- `_audit`: helper constructing a merge-stage audit event. -/
def audit (event_type message : String) (line_index : Option Int := none)
    (metadata : List (String × PyVal) := []) : AuditEvent :=
  { event_type := event_type
    message := message
    line_index := line_index
    item_index := none
    metadata := metadata
    version := CONTRACT_VERSION }

/-- `_copy_audit_events`: sanitize the structured stage's audit events. -/
def copyAuditEvents (rawEvents : PyVal) : List AuditEvent :=
  match rawEvents with
  | vlist raws =>
      raws.map (fun raw =>
        let et := PyVal.read raw "event_type" (vstr "")
        let msg := PyVal.read raw "message" (vstr "")
        let event_type :=
          match et.str? with
          | some s => if isNonBlank s then s else "merge_validate_info"
          | none => "merge_validate_info"
        let message :=
          match msg.str? with
          | some s => if isNonBlank s then s else "merge_validate_event"
          | none => "merge_validate_event"
        { event_type := event_type
          message := message
          line_index := (PyVal.read raw "line_index" vnull).pyAsInt?
          item_index := (PyVal.read raw "item_index" vnull).pyAsInt?
          metadata := (PyVal.read raw "metadata" (vobj [])).asDict
          version := (PyVal.read raw "version" (vstr CONTRACT_VERSION)).pyToStr })
  | _ => []

/-- `_normalize_threshold` (the `float | int | None` argument is modelled
as the rational it parses to; `None`/unparseable yield the default before
clamping in the source, and the in-range behaviour is the clamp). -/
def normalizeThreshold (q : ℚ) : ℚ :=
  if q < 0 then 0 else if q > 1 then 1 else q

/-- `_normalize_confidence`. -/
def normalizeConfidence (v : PyVal) : Option ℚ :=
  match v.pyFloat? with
  | none => none
  | some q =>
      if q < 0 then none
      else if q ≤ 1 then some q
      else if q ≤ 100 then some (q / 100)
      else none

/-- `_catalog_ids`: mapping keys first, then list entries' ids, then the
candidates' non-null codes. -/
def catalogIds (menuCatalog : Option MenuCatalog) (candidates : CandidatesByLine) :
    List String :=
  let fromCandidates : List String :=
    (candidates.map Prod.snd).flatten.foldl
      (fun acc cand =>
        match cand.candidate_code with
        | some code => if code ≠ "" then addStr acc code else acc
        | none => acc) []
  match menuCatalog with
  | some (MenuCatalog.cmap kvs) =>
      kvs.foldl
        (fun acc kv =>
          let id := pyStrip kv.1.pyToStr
          if id ≠ "" then addStr acc id else acc) []
  | some (MenuCatalog.clist entries) =>
      let ids := entries.foldl
        (fun acc entry =>
          match entry with
          | vobj kvs =>
              let rawId :=
                match PyVal.lookup kvs "item_id" with
                | some vnull => PyVal.lookup kvs "item_code"
                | some v => some v
                | none => PyVal.lookup kvs "item_code"
              match rawId with
              | none => acc
              | some vnull => acc
              | some v =>
                  let id := pyStrip v.pyToStr
                  if id ≠ "" then addStr acc id else acc
          | _ => acc) []
      if ids ≠ [] then ids else fromCandidates
  | none => fromCandidates

/-- `_find_candidate_by_code`. -/
def findCandidateByCode (lineCandidates : List CandidateItem) (itemCode : Option String) :
    Option CandidateItem :=
  match itemCode with
  | none => none
  | some code =>
      if code = "" then none
      else lineCandidates.find? (fun cand => cand.candidate_code = some code)

/-- `_normalize_mod`. -/
def normalizeMod (rawMod : PyVal) (defaultConfidence : Option ℚ) : Option ModEntry :=
  match rawMod with
  | vstr s =>
      let token := pyStrip s
      if token = "" then none
      else some { mod_raw := token, mod_name := vstr token, confidence := defaultConfidence }
  | _ =>
      let pick (v : PyVal) : Option String :=
        match v.str? with
        | some s => if isNonBlank s then some s else none
        | none => none
      let token :=
        match pick (PyVal.read rawMod "mod_raw" vnull) with
        | some s => some s
        | none =>
            match pick (PyVal.read rawMod "mod_name" vnull) with
            | some s => some s
            | none => pick (PyVal.read rawMod "mod_value" vnull)
      match token with
      | none => none
      | some tok =>
          let confidence :=
            match normalizeConfidence (PyVal.read rawMod "confidence" vnull) with
            | some q => some q
            | none => defaultConfidence
          some
            { mod_raw := pyStrip tok
              mod_name := PyVal.read rawMod "mod_name" vnull
              mod_value := PyVal.read rawMod "mod_value" vnull
              confidence := confidence
              needs_review := (PyVal.read rawMod "needs_review" (vbool false)).truthy
              metadata := (PyVal.read rawMod "metadata" (vobj [])).asDict
              version := (PyVal.read rawMod "version" (vstr CONTRACT_VERSION)).pyToStr }

/-- `_collect_llm_items`: index LLM items by `line_index`, first one wins,
auditing invalid or duplicate indices. -/
def collectLlmItems (rawItems : PyVal) (validLineIndices : List Int) :
    List (Int × PyVal) × List AuditEvent :=
  match rawItems with
  | vlist raws =>
      raws.foldl
        (fun acc raw =>
          let (byLine, events) := acc
          match (PyVal.read raw "line_index" vnull).pyAsInt? with
          | none =>
              (byLine,
               events ++ [audit "item_invalid_line_index"
                 "LLM item line_index not found in parser lines" none])
          | some li =>
              if li ∉ validLineIndices then
                (byLine,
                 events ++ [audit "item_invalid_line_index"
                   "LLM item line_index not found in parser lines" (some li)])
              else if (byLine.lookup li).isSome then
                (byLine,
                 events ++ [audit "item_duplicate_line_index"
                   "Duplicate LLM item for the same line_index; first one is kept" (some li)])
              else (byLine ++ [(li, raw)], events))
        ([], [])
  | _ => ([], [])

end MergeValidate

namespace MergeValidate

/-- Result of the qty-reconciliation step of `_merge_one_item`
(`merge_validate.py` lines 239–274). -/
structure QtyStep where
  qty : Int
  review : Bool
  events : List AuditEvent

/-- Qty merge: accept a strictly positive genuine integer from the LLM
(`isinstance(int)` and not `bool`); otherwise keep the raw qty and flag
review with a `qty_invalid` audit; a final non-positive qty is audited
again. -/
def qtyStep (line : RawLine) (llmItem : Option PyVal) : QtyStep :=
  let start : QtyStep := { qty := line.qty, review := false, events := [] }
  let afterLlm : QtyStep :=
    match llmItem with
    | none => start
    | some item =>
        let llmQty := PyVal.read item "qty" vnull
        match llmQty.strictInt? with
        | some n =>
            if n > 0 then { start with qty := n }
            else
              { start with
                review := true
                events := [audit "qty_invalid"
                  "LLM qty must be positive integer; raw qty is kept"
                  (some line.line_index) [("qty", llmQty)]] }
        | none =>
            match llmQty with
            | vnull => start
            | _ =>
              { start with
                review := true
                events := [audit "qty_invalid"
                  "LLM qty is not an integer; raw qty is kept"
                  (some line.line_index) [("qty", llmQty)]] }
  if afterLlm.qty ≤ 0 then
    { afterLlm with
      review := true
      events := afterLlm.events ++ [audit "qty_invalid"
        "Final qty must be positive integer"
        (some line.line_index) [("qty", vint afterLlm.qty)]] }
  else afterLlm

/-- Result of the item-code resolution step of `_merge_one_item`
(`merge_validate.py` lines 284–328). -/
structure CodeStep where
  itemCode : Option String
  selected : Option CandidateItem
  review : Bool
  fallbackReason : Option String
  events : List AuditEvent

/-- Initial item code of `_merge_one_item`: LLM `item_code` when it is a
non-blank string, else `item_id`, stripped; `None` otherwise. -/
def codeInit (llmItem : Option PyVal) : CodeStep :=
  let itemCodeRaw0 :=
    match llmItem with
    | some item => PyVal.read item "item_code" vnull
    | none => vnull
  let itemCodeRaw :=
    match itemCodeRaw0.str? with
    | some s => if isNonBlank s then itemCodeRaw0 else
        (match llmItem with
         | some item => PyVal.read item "item_id" vnull
         | none => vnull)
    | none =>
        match llmItem with
        | some item => PyVal.read item "item_id" vnull
        | none => vnull
  { itemCode :=
      (match itemCodeRaw.str? with
       | some s => if isNonBlank s then some (pyStrip s) else none
       | none => none)
    selected := none, review := false, fallbackReason := none, events := [] }

/-- Catalog check of `_merge_one_item`: a code outside the catalog id set
is audited and dropped. -/
def codeStageCatalog (validCatalogIds : List String) (lineIndex : Int)
    (st : CodeStep) : CodeStep :=
  match st.itemCode with
  | some code =>
      if code ∈ validCatalogIds then st
      else
        { st with
          itemCode := none
          review := true
          events := st.events ++ [audit "item_code_not_in_catalog"
            "LLM item_code not found in menu_catalog; fallback is applied"
            (some lineIndex) [("item_code", vstr code)]] }
  | none => st

/-- Line-candidate check of `_merge_one_item`: a code with no matching
candidate on this line is audited and dropped. -/
def codeStageLine (lineCandidates : List CandidateItem) (lineIndex : Int)
    (st : CodeStep) : CodeStep :=
  match st.itemCode with
  | some code =>
      match findCandidateByCode lineCandidates (some code) with
      | some cand => { st with selected := some cand }
      | none =>
          { st with
            itemCode := none
            review := true
            fallbackReason := some "item_code_not_in_line_candidates"
            events := st.events ++ [audit "item_code_not_in_line_candidates"
              "LLM item_code is not in this line's candidates; fallback is applied when possible"
              (some lineIndex) [("item_code", vstr code)]] }
  | none => st

/-- Top-candidate fallback of `_merge_one_item`: when no code survived,
adopt the first candidate's code provided it is non-empty and in the
catalog. -/
def codeStageFallback (primary : Option CandidateItem) (validCatalogIds : List String)
    (lineIndex : Int) (st : CodeStep) : CodeStep :=
  match st.itemCode, primary with
  | none, some cand =>
      (match cand.candidate_code with
       | some code =>
           if code ≠ "" ∧ code ∈ validCatalogIds then
             { st with
               itemCode := some code
               selected := some cand
               review := true
               fallbackReason := st.fallbackReason.getD "candidate_fallback"
               events := st.events ++ [audit "item_fallback_to_candidate"
                 "LLM item_code missing/invalid; using top candidate"
                 (some lineIndex) [("item_code", vstr code)]] }
           else st
       | none => st)
  | _, _ => st

/-- Item-code resolution of `_merge_one_item` (`merge_validate.py` lines
284–328): take the LLM `item_code` (else `item_id`) when it is a
non-blank string; reject codes outside the catalog id set, then codes not
among this line's candidates; finally fall back to the top candidate when
its code is in the catalog. -/
def codeStep (llmItem : Option PyVal) (lineCandidates : List CandidateItem)
    (validCatalogIds : List String) (lineIndex : Int) : CodeStep :=
  codeStageFallback lineCandidates.head? validCatalogIds lineIndex
    (codeStageLine lineCandidates lineIndex
      (codeStageCatalog validCatalogIds lineIndex (codeInit llmItem)))

/-- `_merge_one_item`: reconcile one parser line with its LLM item and
candidate list, producing a `NormalizedItem` and its appended audit
events. -/
def mergeOneItem (line : RawLine) (llmItem : Option PyVal)
    (lineCandidates : List CandidateItem) (validCatalogIds : List String)
    (itemThreshold modsThreshold : ℚ) : NormalizedItem × List AuditEvent :=
  let sourceMetadata :=
    match llmItem with
    | some item => (PyVal.read item "metadata" (vobj [])).asDict
    | none => []
  let q := qtyStep line llmItem
  let confidenceItem :=
    match llmItem with
    | some item => normalizeConfidence (PyVal.read item "confidence_item" vnull)
    | none => none
  let confidenceMods :=
    match llmItem with
    | some item => normalizeConfidence (PyVal.read item "confidence_mods" vnull)
    | none => none
  let confReview :=
    (confidenceItem.isNone || decide (confidenceItem.getD 0 < itemThreshold)) ||
      (confidenceMods.isNone || decide (confidenceMods.getD 0 < modsThreshold))
  let c := codeStep llmItem lineCandidates validCatalogIds line.line_index
  let nameRaw0 :=
    match llmItem with
    | some item => PyVal.read item "name_normalized" vnull
    | none => vnull
  let nameNormalized0 : Option String :=
    match nameRaw0.str? with
    | some s => if isNonBlank s then some s else none
    | none => none
  let (nameNormalized1, nameReview1, nameReason1) :
      Option String × Bool × Option String :=
    match nameNormalized0, c.selected with
    | none, some cand =>
        (some cand.candidate_name,
         llmItem.isSome,
         if llmItem.isSome then some (c.fallbackReason.getD "name_from_candidate") else c.fallbackReason)
    | v, _ => (v, false, c.fallbackReason)
  let (nameNormalized, nameReview, nameReason) : String × Bool × Option String :=
    match nameNormalized1 with
    | none => (line.name_raw, true, some (nameReason1.getD "name_from_raw"))
    | some s => (s, nameReview1, nameReason1)
  let rawMods0 :=
    match llmItem with
    | some item => PyVal.read item "mods" (vlist [])
    | none => vlist []
  let (rawMods, modsShapeReview, modsShapeEvents) :
      List PyVal × Bool × List AuditEvent :=
    match rawMods0 with
    | vlist xs => (xs, false, [])
    | _ =>
        ([], true,
         [audit "mods_invalid_shape" "LLM mods must be a list" (some line.line_index)])
  let (mods, modsDropReview) :=
    rawMods.foldl
      (fun (acc : List ModEntry × Bool) rawMod =>
        match normalizeMod rawMod confidenceMods with
        | none => (acc.1, true)
        | some nm =>
            let low := nm.confidence.isNone || decide (nm.confidence.getD 0 < modsThreshold)
            (acc.1 ++ [{ nm with needs_review := nm.needs_review || low }], acc.2))
      ([], false)
  let llmItemNeedsReview :=
    match llmItem with
    | some item => (PyVal.read item "needs_review" (vbool false)).truthy
    | none => true
  let (missingReview, missingReason, missingEvents) : Bool × Option String × List AuditEvent :=
    match llmItem with
    | none =>
        (true, some (nameReason.getD "llm_item_missing"),
         [audit "llm_item_missing" "No LLM item for parser line; using fallback fields"
           (some line.line_index)])
    | some _ => (false, nameReason, [])
  let needsReview :=
    line.needs_review || q.review || confReview || c.review || nameReview ||
      modsShapeReview || modsDropReview || missingReview || llmItemNeedsReview
  let itemMetadata :=
    let m1 := PyVal.objSet sourceMetadata "merge_source"
      (vstr (if llmItem.isSome then "llm" else "fallback"))
    let m2 := PyVal.objSet m1 "fallback_reason"
      (match missingReason with
       | some r => vstr r
       | none => vnull)
    PyVal.objSet m2 "catalog_valid"
      (vbool (match c.itemCode with
              | some code => decide (code ∈ validCatalogIds)
              | none => false))
  let item : NormalizedItem :=
    { line_index := line.line_index
      raw_line := line.raw_line
      name_raw := line.name_raw
      qty := q.qty
      name_normalized := nameNormalized
      item_code := c.itemCode
      note_raw := line.note_raw
      mods := mods
      group_id :=
        (match llmItem with
         | some item => PyVal.read item "group_id" vnull
         | none => vnull)
      confidence_item := confidenceItem
      confidence_mods := confidenceMods
      needs_review := needsReview
      metadata := itemMetadata
      version :=
        (match llmItem with
         | some item => (PyVal.read item "version" (vstr CONTRACT_VERSION)).pyToStr
         | none => CONTRACT_VERSION) }
  (item, q.events ++ c.events ++ modsShapeEvents ++ missingEvents)

end MergeValidate

namespace MergeValidate

/-- Per-group cleanup loop of `_merge_groups`: filter the raw
`line_indices` (`isinstance(int)` — booleans coerce — and membership in
the parser indices), deduplicate keeping first occurrences (`seen_local`
always equals the set of entries of `cleaned`, so membership is tested
against the accumulator), and record whether out-of-range values or
duplicates were seen; returns `(cleaned, out_of_range_found,
duplicated_found)`. -/
def cleanIndicesAux (validLineIndices : List Int) (cleaned : List Int) :
    List PyVal → List Int × Bool × Bool
  | [] => (cleaned, false, false)
  | rawIdx :: rest =>
      match rawIdx.pyAsInt? with
      | none =>
          let r := cleanIndicesAux validLineIndices cleaned rest
          (r.1, true, r.2.2)
      | some li =>
          if li ∉ validLineIndices then
            let r := cleanIndicesAux validLineIndices cleaned rest
            (r.1, true, r.2.2)
          else if li ∈ cleaned then
            let r := cleanIndicesAux validLineIndices cleaned rest
            (r.1, r.2.1, true)
          else cleanIndicesAux validLineIndices (cleaned ++ [li]) rest

/-- Entry to the cleanup loop with an empty accumulator. -/
def cleanIndices (validLineIndices : List Int) (rawIndices : List PyVal) :
    List Int × Bool × Bool :=
  cleanIndicesAux validLineIndices [] rawIndices

/-- Global first-wins claim loop of `_merge_groups`: indices already owned
by an earlier group are dropped from this one; returns the updated
occupied set, this group's final indices, and the conflict flag. -/
def claimIndices (occupied : List Int) : List Int → List Int × List Int × Bool
  | [] => (occupied, [], false)
  | li :: rest =>
      if li ∈ occupied then
        let r := claimIndices occupied rest
        (r.1, r.2.1, true)
      else
        let r := claimIndices (occupied ++ [li]) rest
        (r.1, li :: r.2.1, r.2.2)

/-- One group of `_merge_groups` (loop body for index `idx`, carrying the
`occupied` map's key set). -/
def mergeOneGroup (validLineIndices : List Int) (groupThreshold : ℚ)
    (occupied : List Int) (idx : Nat) (raw : PyVal) :
    GroupResult × List Int × List AuditEvent :=
  let groupIdRaw := PyVal.read raw "group_id" vnull
  let groupId :=
    match groupIdRaw.str? with
    | some s => if isNonBlank s then s else "G" ++ toString (idx + 1)
    | none => "G" ++ toString (idx + 1)
  let groupTypeRaw := PyVal.read raw "type" (vstr "other")
  let groupType :=
    match groupTypeRaw.str? with
    | some s => if s ∈ VALID_GROUP_TYPES then s else "other"
    | none => "other"
  let typeCoerced : Bool :=
    match groupTypeRaw.str? with
    | some s => s ≠ groupType
    | none => true
  let labelRaw := PyVal.read raw "label" vnull
  let label :=
    match labelRaw.str? with
    | some s => if isNonBlank s then s else "group"
    | none => "group"
  let rawIndicesValue := PyVal.read raw "line_indices" (vlist [])
  let rawIndices :=
    match rawIndicesValue with
    | vlist xs => xs
    | _ => ([] : List PyVal)
  let invalidShape :=
    match rawIndicesValue with
    | vlist _ => false
    | _ => true
  let cleanedR := cleanIndices validLineIndices rawIndices
  let cleaned := cleanedR.1
  let outOfRange := cleanedR.2.1
  let dup := cleanedR.2.2
  let claimedR := claimIndices occupied cleaned
  let occupied' := claimedR.1
  let finalIndices := claimedR.2.1
  let conflict := claimedR.2.2
  let confidenceGroup := normalizeConfidence (PyVal.read raw "confidence_group" vnull)
  let lowConfidence := confidenceGroup.isNone || decide (confidenceGroup.getD 0 < groupThreshold)
  let tooFewLines := finalIndices.length < 2
  let needsReview :=
    (PyVal.read raw "needs_review" (vbool false)).truthy || invalidShape || outOfRange ||
      dup || conflict || decide tooFewLines || lowConfidence || typeCoerced
  let events :=
    (if invalidShape then
      [audit "group_line_indices_invalid_shape"
        "Group line_indices must be a list of line index integers" none
        [("group_id", vstr groupId), ("line_indices", rawIndicesValue)]]
     else []) ++
    (if outOfRange then
      [audit "group_line_index_out_of_range"
        "Group contains line_indices outside parser lines" none
        [("group_id", vstr groupId), ("line_indices", vlist rawIndices)]]
     else []) ++
    (if dup then
      [audit "group_line_index_duplicated" "Group line_indices contain duplicates" none
        [("group_id", vstr groupId)]]
     else []) ++
    (if conflict then
      [audit "group_line_conflict"
        "Group conflicts with previous group; conflicting lines removed (first group wins)"
        none [("group_id", vstr groupId)]]
     else []) ++
    (if tooFewLines then
      [audit "group_too_few_lines" "Group must contain at least 2 valid line_indices" none
        [("group_id", vstr groupId), ("line_indices", vlist (finalIndices.map vint))]]
     else [])
  let group : GroupResult :=
    { group_id := groupId
      type := groupType
      label := label
      line_indices := finalIndices
      confidence_group := confidenceGroup
      needs_review := needsReview
      metadata :=
        ((PyVal.read raw "metadata" (vobj [])).asDict.foldl
          (fun acc kv => PyVal.objSet acc kv.1 kv.2)
          [("source", vstr "llm"),
           ("group_membership_rule", vstr "single_group_per_line_first_wins")])
      version := (PyVal.read raw "version" (vstr CONTRACT_VERSION)).pyToStr }
  (group, occupied', events)

/-- Loop of `_merge_groups` over the raw group payloads. -/
def mergeGroupsAux (validLineIndices : List Int) (groupThreshold : ℚ) :
    List PyVal → Nat → List Int → List GroupResult × List AuditEvent
  | [], _, _ => ([], [])
  | raw :: raws, idx, occupied =>
      let r := mergeOneGroup validLineIndices groupThreshold occupied idx raw
      let rest := mergeGroupsAux validLineIndices groupThreshold raws (idx + 1) r.2.1
      (r.1 :: rest.1, r.2.2 ++ rest.2)

/-- `_merge_groups`. -/
def mergeGroups (rawGroups : PyVal) (validLineIndices : List Int)
    (groupThreshold : ℚ) : List GroupResult × List AuditEvent :=
  match rawGroups with
  | vlist raws => mergeGroupsAux validLineIndices groupThreshold raws 0 []
  | _ => ([], [])

/-- The integer entries of a raw group's `line_indices` payload, in the
order the payload lists them (non-list payloads and non-integer entries
contribute nothing). -/
def rawIndexInts (raw : PyVal) : List Int :=
  (match PyVal.read raw "line_indices" (vlist []) with
   | vlist xs => xs
   | _ => ([] : List PyVal)).filterMap PyVal.pyAsInt?

/-- The list of raw group payloads `merge_and_validate` iterates over:
`structured_result.get("groups")` when it is a list, nothing otherwise. -/
def groupsList (structuredResult : PyVal) : List PyVal :=
  match (PyVal.lookup (match structuredResult with
      | vobj kvs => kvs
      | _ => []) "groups").getD vnull with
  | vlist raws => raws
  | _ => []

/-- Item loop of `merge_and_validate`: one `NormalizedItem` per copied
parser line, audit events accumulated in line order. -/
def mergeItemsAux (candidates : CandidatesByLine) (validCatalogIds : List String)
    (llmItemsByLine : List (Int × PyVal)) (itemThreshold modsThreshold : ℚ) :
    List RawLine → List NormalizedItem × List AuditEvent
  | [] => ([], [])
  | line :: rest =>
      let r := mergeOneItem line (llmItemsByLine.lookup line.line_index)
        (candidatesGet candidates line.line_index) validCatalogIds
        itemThreshold modsThreshold
      let restR := mergeItemsAux candidates validCatalogIds llmItemsByLine
        itemThreshold modsThreshold rest
      (r.1 :: restR.1, r.2 ++ restR.2)

/-- `_build_dispatch_decision`. -/
def buildDispatchDecision (orderRaw : OrderRawParsed) (items : List NormalizedItem)
    (groups : List GroupResult) (overallNeedsReview : Bool) : List (String × PyVal) :=
  let reasons :=
    (if orderRaw.needs_review then ["order_raw_needs_review"] else []) ++
    (if items.any (·.needs_review) then ["item_needs_review"] else []) ++
    (if groups.any (·.needs_review) then ["group_needs_review"] else []) ++
    (if items.any (fun item => item.item_code.isNone) then ["missing_item_code"] else []) ++
    (if items.any (fun item => item.qty ≤ 0) then ["invalid_qty"] else [])
  let shouldReview := overallNeedsReview || decide (reasons ≠ [])
  [("route", vstr (if shouldReview then "review-queue" else "auto-dispatch")),
   ("should_auto_dispatch", vbool (!shouldReview)),
   ("reasons", vlist (reasons.map vstr))]

/-- `merge_and_validate`: the stage entry point. -/
def mergeAndValidate (orderRaw : OrderRawParsed) (candidates : CandidatesByLine)
    (structuredResult : PyVal) (menuCatalog : Option MenuCatalog := none)
    (allowedMods : Option (List PyVal) := none)
    (itemThreshold : ℚ := DEFAULT_THRESHOLD) (modsThreshold : ℚ := DEFAULT_THRESHOLD)
    (groupThreshold : ℚ := DEFAULT_THRESHOLD) : OrderNormalized :=
  let normalizedItemThreshold := normalizeThreshold itemThreshold
  let normalizedModsThreshold := normalizeThreshold modsThreshold
  let normalizedGroupThreshold := normalizeThreshold groupThreshold
  let copiedLines := orderRaw.lines.map copyRawLine
  let validLineIndices := copiedLines.foldl (fun acc line => addInt acc line.line_index) []
  let validCatalogIds := catalogIds menuCatalog candidates
  let structuredMap :=
    match structuredResult with
    | vobj kvs => kvs
    | _ => []
  let events0 := copyAuditEvents ((PyVal.lookup structuredMap "audit_events").getD vnull)
  let collected :=
    collectLlmItems ((PyVal.lookup structuredMap "items").getD vnull) validLineIndices
  let llmItemsByLine := collected.1
  let collectEvents := collected.2
  let itemsR := mergeItemsAux candidates validCatalogIds llmItemsByLine
    normalizedItemThreshold normalizedModsThreshold copiedLines
  let items := itemsR.1
  let itemEvents := itemsR.2
  let groupsR :=
    mergeGroups ((PyVal.lookup structuredMap "groups").getD vnull) validLineIndices
      normalizedGroupThreshold
  let groups := groupsR.1
  let groupEvents := groupsR.2
  let auditEvents := events0 ++ collectEvents ++ itemEvents ++ groupEvents
  let overallNeedsReview :=
    orderRaw.needs_review || items.any (·.needs_review) || groups.any (·.needs_review)
  let dispatchDecision := buildDispatchDecision orderRaw items groups overallNeedsReview
  let mergedMetadata :=
    let m0 := orderRaw.metadata
    let m1 := PyVal.objSet m0 "structured_result_metadata"
      (vobj (((PyVal.lookup structuredMap "metadata").getD (vobj [])).asDict))
    let m2 := PyVal.objSet m1 "thresholds"
      (vobj [("item_threshold", vrat normalizedItemThreshold),
             ("mods_threshold", vrat normalizedModsThreshold),
             ("group_threshold", vrat normalizedGroupThreshold)])
    let m3 := PyVal.objSet m2 "validation_rules"
      (vobj [("group_membership_rule", vstr "single_group_per_line_first_wins"),
             ("mods_filter_mode", vstr "open")])
    PyVal.objSet m3 "dispatch_decision" (vobj dispatchDecision)
  let confidenceValues :=
    (items.foldl
      (fun acc item =>
        (acc ++ (match item.confidence_item with | some q => [q] | none => [])) ++
          (match item.confidence_mods with | some q => [q] | none => []))
      []) ++
    (groups.foldl
      (fun acc group =>
        acc ++ (match group.confidence_group with | some q => [q] | none => []))
      [])
  let orderConfidence : Option ℚ :=
    match confidenceValues with
    | [] => none
    | q :: qs => some (qs.foldl min q)
  { source_text := orderRaw.source_text
    items := items
    groups := groups
    order_id := orderRaw.order_id
    lines := copiedLines
    audit_events := auditEvents
    overall_needs_review := overallNeedsReview
    order_confidence := orderConfidence
    metadata := mergedMetadata
    version := CONTRACT_VERSION }

end MergeValidate

/-- Concrete two-line parsed order used to exercise the merge stage. -/
def exLine0 : RawLine := { line_index := 0, raw_line := "a x1", name_raw := "a", qty := 1 }

def exLine1 : RawLine := { line_index := 1, raw_line := "b x1", name_raw := "b", qty := 1 }

def exOrderRaw : OrderRawParsed := { source_text := "a x1\nb x1", lines := [exLine0, exLine1] }

/-- Concrete candidates: one catalog candidate per line. -/
def exCands : CandidatesByLine :=
  [(0, [{ line_index := 0, raw_line := "a x1", name_raw := "a", qty := 1,
          candidate_name := "Alpha", candidate_code := some "I001" }]),
   (1, [{ line_index := 1, raw_line := "b x1", name_raw := "b", qty := 1,
          candidate_name := "Beta", candidate_code := some "I002" }])]

/-- Concrete structured result: two LLM groups, the first listing lines in
descending order, the second repeating both already-claimed lines. -/
def exStructured : PyVal :=
  PyVal.vobj [("groups", PyVal.vlist
    [PyVal.vobj [("line_indices", PyVal.vlist [PyVal.vint 1, PyVal.vint 0])],
     PyVal.vobj [("line_indices", PyVal.vlist [PyVal.vint 0, PyVal.vint 1])]])]

/-- The concrete merged order for the fixtures above (thresholds at the
default 0.85). -/
def exMerged : OrderNormalized :=
  MergeValidate.mergeAndValidate exOrderRaw exCands exStructured none none
    ((85 : ℚ) / 100) ((85 : ℚ) / 100) ((85 : ℚ) / 100)

/-- LLM item carrying a boolean `qty`. -/
def exBoolQtyItem : PyVal :=
  PyVal.vobj [("line_index", PyVal.vint 0), ("qty", PyVal.vbool true)]


/-! ## Cache (`cache.py`)

The cache key payloads are JSON-like Python values: `None`, `bool`, `int`,
`str`, `list`, `dict` (string keys), plus `tuple` and `set`/`frozenset`
which the canonicalizer coerces.  Floats are left out of this model (cache
key payloads are names and version strings).  `json.dumps` is modelled
exactly for these shapes; the SHA-256 digest is an opaque parameter, since
every property proved here only needs that equal canonical strings digest
equally. -/
inductive CVal where
  | cnull
  | cbool (b : Bool)
  | cint (n : Int)
  | cstr (s : String)
  | clist (xs : List CVal)
  | cobj (kvs : List (String × CVal))
  | cset (xs : List CVal)
  | ctup (xs : List CVal)

namespace Cache

open CVal

/-- Stable insertion into an ascending list: `x` is placed before the
first element `y` with `le x y`, so equal elements keep their relative
order. -/
def insertLe {α : Type} (le : α → α → Bool) (x : α) : List α → List α
  | [] => [x]
  | y :: ys => if le x y then x :: y :: ys else y :: insertLe le x ys

/-- Stable ascending sort (the semantics of Python's `sorted`, which is
also a stable ascending sort; stable sorts agree on every input). -/
def sortByBool {α : Type} (le : α → α → Bool) : List α → List α
  | [] => []
  | x :: xs => insertLe le x (sortByBool le xs)

/-- Decimal digits of a natural number (fuel-based so that the kernel can
evaluate it). -/
def natDigitsAux : Nat → Nat → List Char
  | 0, _ => []
  | fuel + 1, n =>
      if n < 10 then [Char.ofNat (48 + n)]
      else natDigitsAux fuel (n / 10) ++ [Char.ofNat (48 + n % 10)]

def natDigits (n : Nat) : List Char := natDigitsAux (n + 1) n

/-- Python's decimal `repr` of an `int`, as emitted by `json.dumps`. -/
def intDigits : Int → List Char
  | .ofNat n => natDigits n
  | .negSucc m => '-' :: natDigits (m + 1)

def hexDigit (n : Nat) : Char := Char.ofNat (if n < 10 then 48 + n else 87 + n)

/-- One character as `json.dumps(..., ensure_ascii=False)` emits it inside
a string literal: `"` and backslash escaped, the usual control-character
short escapes, `\u00XX` for the remaining control characters, everything
else verbatim. -/
def escapeChar (c : Char) : List Char :=
  if c = '"' then ['\\', '"']
  else if c = '\\' then ['\\', '\\']
  else if c = '\n' then ['\\', 'n']
  else if c = '\t' then ['\\', 't']
  else if c = '\r' then ['\\', 'r']
  else if c = '\x08' then ['\\', 'b']
  else if c = '\x0c' then ['\\', 'f']
  else if c.toNat < 32 then ['\\', 'u', '0', '0', hexDigit (c.toNat / 16), hexDigit (c.toNat % 16)]
  else [c]

def escapeList : List Char → List Char
  | [] => []
  | c :: cs => escapeChar c ++ escapeList cs

/-- A JSON string literal: quote, escaped text, quote. -/
def quoteStr (s : String) : List Char :=
  '"' :: (escapeList s.data ++ ['"'])

/-- Code-point lexicographic comparison of character lists: the order
Python uses on `str`. -/
def charsLe : List Char → List Char → Bool
  | [], _ => true
  | _ :: _, [] => false
  | a :: as, b :: bs =>
      if a.toNat < b.toNat then true
      else if b.toNat < a.toNat then false
      else charsLe as bs

/-- Ordering on pairs by their string key (Python compares `str` by code
points). -/
def keyLe (a b : String × CVal) : Bool := charsLe a.1.data b.1.data

mutual
/-- Sort every object's entries by key, at every depth.  `json.dumps`
with `sort_keys=True` prints objects in key order; pre-sorting and then
printing in order is the same function. -/
def sortKeysRec : CVal → CVal
  | cobj kvs => cobj (sortByBool keyLe (sortKeysFields kvs))
  | clist xs => clist (sortKeysList xs)
  | ctup xs => ctup (sortKeysList xs)
  | cset xs => cset (sortKeysList xs)
  | v => v

def sortKeysList : List CVal → List CVal
  | [] => []
  | x :: xs => sortKeysRec x :: sortKeysList xs

def sortKeysFields : List (String × CVal) → List (String × CVal)
  | [] => []
  | (k, v) :: kvs => (k, sortKeysRec v) :: sortKeysFields kvs
end

mutual
/-- Serialization of a key-sorted value; `tight` selects the separators
`(",", ":")` (the canonical dump) against json's defaults `(", ", ": ")`
(the sort-key dump).  `none` models the `TypeError` `json.dumps` raises
on a `set`. -/
def dumpVal (tight : Bool) : CVal → Option (List Char)
  | cnull => some ['n', 'u', 'l', 'l']
  | cbool b => some (if b then ['t', 'r', 'u', 'e'] else ['f', 'a', 'l', 's', 'e'])
  | cint n => some (intDigits n)
  | cstr s => some (quoteStr s)
  | clist xs =>
      match dumpItems tight xs with
      | some ds => some ('[' :: (ds ++ [']']))
      | none => none
  | ctup xs =>
      match dumpItems tight xs with
      | some ds => some ('[' :: (ds ++ [']']))
      | none => none
  | cobj kvs =>
      match dumpFields tight kvs with
      | some ds => some ('{' :: (ds ++ ['}']))
      | none => none
  | cset _ => none

def dumpItems (tight : Bool) : List CVal → Option (List Char)
  | [] => some []
  | [x] => dumpVal tight x
  | x :: xs =>
      match dumpVal tight x, dumpItems tight xs with
      | some d, some ds => some (d ++ (if tight then [','] else [',', ' ']) ++ ds)
      | _, _ => none

def dumpFields (tight : Bool) : List (String × CVal) → Option (List Char)
  | [] => some []
  | [(k, v)] =>
      match dumpVal tight v with
      | some d => some (quoteStr k ++ (if tight then [':'] else [':', ' ']) ++ d)
      | none => none
  | (k, v) :: kvs =>
      match dumpVal tight v, dumpFields tight kvs with
      | some d, some ds =>
          some (quoteStr k ++ (if tight then [':'] else [':', ' ']) ++ d ++
            (if tight then [','] else [',', ' ']) ++ ds)
      | _, _ => none
end

/-- `json.dumps(value, ensure_ascii=False, sort_keys=True)` with the given
separators. -/
def jsonDumps (tight : Bool) (v : CVal) : Option (List Char) :=
  dumpVal tight (sortKeysRec v)

/-- The sort key `_normalize_value` uses for set elements:
`json.dumps(item, ensure_ascii=False, sort_keys=True)` (default
separators).  The `getD []` branch corresponds to inputs on which Python
would raise `TypeError`; normalized set elements always serialize. -/
def setSortKey (v : CVal) : List Char :=
  (jsonDumps false v).getD []

/-- Code-point lexicographic comparison of the serialized sort keys. -/
def setKeyLe (a b : CVal) : Bool :=
  charsLe (setSortKey a) (setSortKey b)

mutual
/-- `POSNormCache._normalize_value`: strings stripped, mapping keys
sorted, lists kept in order, tuples coerced to lists, sets sorted by
their JSON representation, scalars unchanged. -/
def normalizeValue : CVal → CVal
  | cstr s => cstr (pyStrip s)
  | cobj kvs => cobj (sortByBool keyLe (normalizeFields kvs))
  | clist xs => clist (normalizeList xs)
  | ctup xs => clist (normalizeList xs)
  | cset xs => clist (sortByBool setKeyLe (normalizeList xs))
  | v => v

def normalizeList : List CVal → List CVal
  | [] => []
  | x :: xs => normalizeValue x :: normalizeList xs

def normalizeFields : List (String × CVal) → List (String × CVal)
  | [] => []
  | (k, v) :: kvs => (k, normalizeValue v) :: normalizeFields kvs
end

/-- `POSNormCache._normalize_payload`: the payload's keys sorted, each
value normalized. -/
def normalizePayload (payload : List (String × CVal)) : List (String × CVal) :=
  sortByBool keyLe (normalizeFields payload)

def ITEM_MAPPING_CACHE : String := "item_mapping_cache"

def NOTE_MODS_CACHE : String := "note_mods_cache"

def GROUP_PATTERN_CACHE : String := "group_pattern_cache"

def CACHE_NAMESPACES : List String :=
  [ITEM_MAPPING_CACHE, NOTE_MODS_CACHE, GROUP_PATTERN_CACHE]

/-- `_NAMESPACE_KEY_REQUIREMENTS`. -/
def namespaceKeyRequirements (ns : String) : List String :=
  if ns = ITEM_MAPPING_CACHE then ["name_raw", "menu_catalog_version"]
  else if ns = NOTE_MODS_CACHE then ["note_raw", "allowed_mods_version"]
  else if ns = GROUP_PATTERN_CACHE then ["group_pattern", "menu_catalog_version", "allowed_mods_version"]
  else []

/-- `key_payload.get(field)` over the payload mapping. -/
def payloadGet (payload : List (String × CVal)) (k : String) : Option CVal :=
  match payload with
  | [] => none
  | (k', v) :: rest => if k' = k then some v else payloadGet rest k

/-- `_is_missing_required` applied to a `dict.get` result: absent or
`None` or a blank string. -/
def isMissingRequired : Option CVal → Bool
  | none => true
  | some cnull => true
  | some (cstr s) => pyStrip s = ""
  | some _ => false

/-- `POSNormCache._make_key`, with the SHA-256 hex digest abstracted into
the `digest` parameter: the key is the namespace, a colon, and the digest
of the canonical serialization; unsupported namespaces and missing
required fields raise `ValueError` (`Except.error`). -/
def makeKeyWith (digest : List Char → String) (ns : String)
    (payload : List (String × CVal)) : Except String String :=
  if ns ∉ CACHE_NAMESPACES then
    Except.error ("Unsupported namespace: " ++ ns)
  else
    let missing := (namespaceKeyRequirements ns).filter
      (fun f => isMissingRequired (payloadGet payload f))
    if missing ≠ [] then
      Except.error ("Missing key fields for " ++ ns)
    else
      match jsonDumps true (cobj (normalizePayload payload)) with
      | some canonical => Except.ok (ns ++ ":" ++ digest canonical)
      | none => Except.error "TypeError: not JSON serializable"

/-- `cache.CacheEntry`, the stored value left opaque. -/
structure CacheEntry (A : Type) where
  value : A
  confidence : ℚ
  meta : List (String × CVal) := []
  created_at : ℚ
  expires_at : Option ℚ := none

/-- `CacheEntry.is_expired` with the clock passed explicitly. -/
def CacheEntry.isExpired {A : Type} (e : CacheEntry A) (now : ℚ) : Bool :=
  match e.expires_at with
  | none => false
  | some t => decide (now ≥ t)

/-- The in-memory backend: a two-level mapping, modelled as a function. -/
def Store (A : Type) : Type := String → String → Option (CacheEntry A)

def storePut {A : Type} (s : Store A) (ns key : String) (e : CacheEntry A) : Store A :=
  fun ns' key' => if ns' = ns ∧ key' = key then some e else s ns' key'

def storeDelete {A : Type} (s : Store A) (ns key : String) : Store A :=
  fun ns' key' => if ns' = ns ∧ key' = key then none else s ns' key'

/-- `POSNormCache.get`: derive the key, look it up, drop and miss on an
expired entry. -/
def cacheGet {A : Type} (digest : List Char → String) (store : Store A)
    (ns : String) (payload : List (String × CVal)) (now : ℚ) :
    Except String (Option (CacheEntry A) × Store A) :=
  match makeKeyWith digest ns payload with
  | Except.error e => Except.error e
  | Except.ok key =>
      match store ns key with
      | none => Except.ok (none, store)
      | some entry =>
          if entry.isExpired now then Except.ok (none, storeDelete store ns key)
          else Except.ok (some entry, store)

/-- `POSNormCache.set`: derive the key and store a fresh entry whose
`expires_at` is `now + ttl` for a positive namespace TTL and `None`
otherwise (no expiry). -/
def cacheSet {A : Type} (digest : List Char → String) (store : Store A)
    (namespaceTtls : String → Option Int) (ns : String)
    (payload : List (String × CVal)) (value : A) (confidence : ℚ)
    (meta : List (String × CVal)) (now : ℚ) :
    Except String (CacheEntry A × Store A) :=
  match makeKeyWith digest ns payload with
  | Except.error e => Except.error e
  | Except.ok key =>
      let expiresAt : Option ℚ :=
        match namespaceTtls ns with
        | some ttl => if ttl > 0 then some (now + (ttl : ℚ)) else none
        | none => none
      let entry : CacheEntry A :=
        { value := value
          confidence := max 0 (min 1 confidence)
          meta := meta
          created_at := now
          expires_at := expiresAt }
      Except.ok (entry, storePut store ns key entry)

end Cache

namespace Cache

open CVal

mutual
/-- Hashable Python values (what a `set` can contain): scalars, tuples and
frozensets of hashables; never lists or dicts. -/
def hashable : CVal → Bool
  | cnull => true
  | cbool _ => true
  | cint _ => true
  | cstr _ => true
  | ctup xs => hashableList xs
  | cset xs => hashableList xs
  | clist _ => false
  | cobj _ => false

def hashableList : List CVal → Bool
  | [] => true
  | x :: xs => hashable x && hashableList xs
end

mutual
/-- Python-representable key payload values: every mapping has distinct
keys (Python dicts cannot repeat a key) and every set's elements are
hashable (Python sets cannot contain lists or dicts). -/
def wfVal : CVal → Bool
  | cobj kvs => decide ((kvs.map Prod.fst).Nodup) && wfFields kvs
  | clist xs => wfList xs
  | ctup xs => wfList xs
  | cset xs => hashableList xs && wfList xs
  | _ => true

def wfList : List CVal → Bool
  | [] => true
  | x :: xs => wfVal x && wfList xs

def wfFields : List (String × CVal) → Bool
  | [] => true
  | (_, v) :: kvs => wfVal v && wfFields kvs
end

mutual
/-- The normal forms of hashable values: scalars and lists thereof (what
`_normalize_value` produces from a set element). -/
def hashNorm : CVal → Bool
  | cnull => true
  | cbool _ => true
  | cint _ => true
  | cstr _ => true
  | clist xs => hashNormList xs
  | _ => false

def hashNormList : List CVal → Bool
  | [] => true
  | x :: xs => hashNorm x && hashNormList xs
end

mutual
/-- Two payload values equal up to reordering mapping entries and set
elements, at any depth: the reorderings `_make_key` is claimed to be
invariant under. -/
inductive VEquiv : CVal → CVal → Prop where
  | null : VEquiv cnull cnull
  | bool (b : Bool) : VEquiv (cbool b) (cbool b)
  | int (n : Int) : VEquiv (cint n) (cint n)
  | str (s : String) : VEquiv (cstr s) (cstr s)
  | list {xs ys : List CVal} : LEquiv xs ys → VEquiv (clist xs) (clist ys)
  | tup {xs ys : List CVal} : LEquiv xs ys → VEquiv (ctup xs) (ctup ys)
  | set {xs zs ys : List CVal} : LEquiv xs zs → List.Perm zs ys →
      VEquiv (cset xs) (cset ys)
  | obj {kvs zs kvs2 : List (String × CVal)} : FEquiv kvs zs → List.Perm zs kvs2 →
      VEquiv (cobj kvs) (cobj kvs2)

/-- Pointwise equivalence of lists. -/
inductive LEquiv : List CVal → List CVal → Prop where
  | nil : LEquiv [] []
  | cons {x y : CVal} {xs ys : List CVal} :
      VEquiv x y → LEquiv xs ys → LEquiv (x :: xs) (y :: ys)

/-- Pointwise equivalence of mapping entries (keys equal, values
equivalent). -/
inductive FEquiv : List (String × CVal) → List (String × CVal) → Prop where
  | nil : FEquiv [] []
  | cons (k : String) {v w : CVal} {kvs kws : List (String × CVal)} :
      VEquiv v w → FEquiv kvs kws → FEquiv ((k, v) :: kvs) ((k, w) :: kws)
end

/-- Numeric value of a decimal digit string (verification helper used to
invert `natDigits`). -/
def digitsVal (ds : List Char) : Nat :=
  ds.foldl (fun a c => 10 * a + (c.toNat - 48)) 0

/-- A decimal digit character. -/
def isDigitCh (c : Char) : Bool :=
  48 ≤ c.toNat && c.toNat ≤ 57

/-- What may legally follow a serialized value inside a serialized
composite: nothing, an item separator, or a closing bracket (verification
helper for the unique-readability of `dumpVal`). -/
def DumpBnd : List Char → Prop
  | [] => True
  | c :: _ => c = ',' ∨ c = ']'

/-- Constructor tag of a serialized value (verification helper). -/
def kindOf : CVal → Nat
  | CVal.cnull => 0
  | CVal.cbool _ => 1
  | CVal.cint _ => 2
  | CVal.cstr _ => 3
  | CVal.clist _ => 4
  | _ => 9

/-- Constructor tag recoverable from the first character of a serialized
value (verification helper). -/
def headKind (c : Char) : Nat :=
  if c = 'n' then 0
  else if c = 't' ∨ c = 'f' then 1
  else if c = '-' ∨ isDigitCh c then 2
  else if c = '"' then 3
  else if c = '[' then 4
  else 9

/-- Two payloads equal up to a permutation of their keys and the
reorderings of `VEquiv` inside their values. -/
def PEquiv (p q : List (String × CVal)) : Prop :=
  ∃ z, FEquiv p z ∧ List.Perm z q

/-- A key payload for `item_mapping_cache`, with a set-valued extra field. -/
def exPayloadA : List (String × CVal) :=
  [("name_raw", cstr "  Latte "),
   ("menu_catalog_version", cstr "v1"),
   ("opts", cset [cint 2, cint 1])]

/-- The same payload with its top-level keys permuted and the set listed in
the other order. -/
def exPayloadB : List (String × CVal) :=
  [("menu_catalog_version", cstr "v1"),
   ("name_raw", cstr "  Latte "),
   ("opts", cset [cint 1, cint 2])]

/-- A concrete stand-in for the SHA-256 hex digest. -/
def exDigest : List Char → String := fun cs => String.mk cs

/-- The default per-namespace TTLs of `POSNormCache.__init__`. -/
def defaultNamespaceTtls : String → Option Int := fun ns =>
  if ns = ITEM_MAPPING_CACHE then some 3600
  else if ns = NOTE_MODS_CACHE then some 3600
  else if ns = GROUP_PATTERN_CACHE then some 1800
  else none

/-- The key `_make_key` derives for `exPayloadA` under `exDigest`. -/
def exKeyA : String :=
  match makeKeyWith exDigest ITEM_MAPPING_CACHE exPayloadA with
  | Except.ok k => k
  | Except.error _ => ""

/-- The entry `cacheSet` builds for `exPayloadA` at time 100 under the
default `item_mapping_cache` TTL of 3600. -/
def exEntry : CacheEntry String :=
  { value := "mapped", confidence := max 0 (min 1 (1/2)), meta := [], created_at := 100,
    expires_at := some (100 + ((3600 : Int) : ℚ)) }

/-- The backend after storing `exEntry` into the empty store. -/
def exStore1 : Store String :=
  storePut (fun _ _ => none) ITEM_MAPPING_CACHE exKeyA exEntry

end Cache

namespace Candidates

/-- Python's two-argument `max` on floats, modeled on ℚ. -/
def pyMax (a b : ℚ) : ℚ := if a ≥ b then a else b

/-- Python's two-argument `min` on floats, modeled on ℚ. -/
def pyMin (a b : ℚ) : ℚ := if a ≤ b then a else b

/-- ASCII lowercasing; `str.lower` restricted to the ASCII fragment on which
NFKC normalization is the identity (the fragment this model covers). -/
def asciiLower (c : Char) : Char :=
  if 65 ≤ c.toNat ∧ c.toNat ≤ 90 then Char.ofNat (c.toNat + 32) else c

/-- The code points of `_COMMON_SYMBOLS_RE`'s character class. -/
def commonSymbolCodes : List Nat :=
  [33, 34, 35, 36, 37, 38, 39, 40, 41, 42, 43, 44, 45, 46, 47, 58, 59, 60,
   61, 62, 63, 64, 91, 92, 93, 94, 95, 96, 123, 124, 125, 126,
   65292, 12290, 65281, 65311, 12289, 65307, 65306, 65295, 65288, 65289,
   12304, 12305, 12300, 12301, 12302, 12303, 12298, 12299, 12296, 12297,
   183, 65294]

def isCommonSymbol (c : Char) : Bool := commonSymbolCodes.contains c.toNat

/-- `_MULTI_SPACE_RE.sub(" ", ·)`: collapse every whitespace run to one
space.  The flag records whether the previous character was whitespace. -/
def collapseSp : Bool → List Char → List Char
  | _, [] => []
  | prevSp, c :: rest =>
      if isPySpace c then
        if prevSp then collapseSp true rest else ' ' :: collapseSp true rest
      else c :: collapseSp false rest

/-- `_normalize_text`: lowercase (NFKC modeled as the identity on the
covered fragment), common symbols replaced by spaces, whitespace runs
collapsed, ends stripped. -/
def normalizeText (s : String) : String :=
  String.mk (stripChars (collapseSp false
    (s.data.map (fun ch =>
      if isCommonSymbol (asciiLower ch) then ' ' else asciiLower ch))))

/-- `_compact_text`: `text.replace(" ", "")`. -/
def compactText (s : String) : String :=
  String.mk (s.data.filter (fun c => c ≠ ' '))

/-- `text.split(" ")` keeping only the non-empty parts; the accumulator
holds the current word reversed. -/
def splitSp : List Char → List Char → List (List Char)
  | acc, [] => if acc.isEmpty then [] else [acc.reverse]
  | acc, c :: rest =>
      if c = ' ' then
        if acc.isEmpty then splitSp [] rest else acc.reverse :: splitSp [] rest
      else splitSp (c :: acc) rest

/-- Set insertion: Python `set.add`, as a duplicate-free list. -/
def addTok (ts : List (List Char)) (t : List Char) : List (List Char) :=
  if ts.contains t then ts else ts ++ [t]

/-- The two-character windows of a compact text. -/
def bigrams : List Char → List (List Char)
  | a :: b :: rest => [a, b] :: bigrams (b :: rest)
  | _ => []

/-- `_tokenize`: the words of the normalized text plus, for compact texts
longer than one character, all their two-character windows; a
single-character compact text contributes itself. -/
def tokenize (t : String) : List (List Char) :=
  let n := (normalizeText t).data
  let c := n.filter (fun ch => ch ≠ ' ')
  if c.isEmpty then []
  else
    let words := (splitSp [] n).foldl addTok []
    if c.length = 1 then addTok words c
    else (bigrams c).foldl addTok words

/-- `_token_similarity` on duplicate-free token lists. -/
def tokenSim (A B : List (List Char)) : ℚ :=
  if A.isEmpty || B.isEmpty then 0
  else
    let inter := (A.filter (fun x => B.contains x)).length
    let union := A.length + B.length - inter
    if union = 0 then 0 else (inter : ℚ) / (union : ℚ) * 100

/-- Substring test (Python `short in long`). -/
def isSubstr (n hay : List Char) : Bool :=
  n.isPrefixOf hay ||
    match hay with
    | [] => false
    | _ :: t => isSubstr n t

/-- `difflib.SequenceMatcher.find_longest_match` over the whole strings
(no junk: the inputs are far below the autojunk threshold): the inner loop
carries the previous row of `j2len` and the running best block
`(besti, bestj, bestsize)`, updated on a strictly larger size. -/
def lmBest (a b : List Char) : Nat × Nat × Nat :=
  ((List.range a.length).foldl
    (fun (st : (Nat → Nat) × (Nat × Nat × Nat)) (i : Nat) =>
      let j2len := st.1
      let inner := (List.range b.length).foldl
        (fun (st2 : (Nat → Nat) × (Nat × Nat × Nat)) (j : Nat) =>
          if b.getD j (Char.ofNat 0) = a.getD i (Char.ofNat 0) then
            let k := (if j = 0 then 0 else j2len (j - 1)) + 1
            (fun x => if x = j then k else st2.1 x,
             if k > st2.2.2.2 then (i + 1 - k, j + 1 - k, k) else st2.2)
          else st2)
        ((fun _ => 0), st.2)
      (inner.1, inner.2))
    ((fun _ => 0), (0, 0, 0))).2

/-- The total matched size of `get_matching_blocks`: recursively take the
longest match and recurse on what is left of it on either side.  The fuel
only bounds the recursion depth; `matchTotal` supplies enough for any
input. -/
def matchTotalAux : Nat → List Char → List Char → Nat
  | 0, _, _ => 0
  | fuel + 1, a, b =>
      let ijk := lmBest a b
      if ijk.2.2 = 0 then 0
      else
        matchTotalAux fuel (a.take ijk.1) (b.take ijk.2.1) + ijk.2.2 +
          matchTotalAux fuel (a.drop (ijk.1 + ijk.2.2)) (b.drop (ijk.2.1 + ijk.2.2))

def matchTotal (a b : List Char) : Nat :=
  matchTotalAux (a.length + b.length + 1) a b

/-- `_ratio` (the `SequenceMatcher` fallback): `2M/T` scaled to 0–100. -/
def ratio (a b : List Char) : ℚ :=
  if a.isEmpty || b.isEmpty then 0
  else 200 * (matchTotal a b : ℚ) / ((a.length : ℚ) + (b.length : ℚ))

/-- `_partial_ratio` (the fallback): containment scores 100, equal lengths
fall back to `_ratio`, otherwise the best window of the longer string. -/
def partialRatio (a b : List Char) : ℚ :=
  if a.isEmpty || b.isEmpty then 0
  else
    let p := if a.length ≤ b.length then (a, b) else (b, a)
    if isSubstr p.1 p.2 then 100
    else if p.1.length = p.2.length then ratio p.1 p.2
    else
      (List.range (p.2.length - p.1.length + 1)).foldl
        (fun best s =>
          let sc := 200 * (matchTotal p.1 ((p.2.drop s).take p.1.length) : ℚ) /
            ((p.1.length : ℚ) + (p.1.length : ℚ))
          if sc > best then sc else best) 0

/-- `char_score` of `_score_match`. -/
def charScoreOf (q c : String) : ℚ :=
  ratio (compactText (normalizeText q)).data (compactText (normalizeText c)).data

/-- `partial_score` of `_score_match`. -/
def partialScoreOf (q c : String) : ℚ :=
  partialRatio (compactText (normalizeText q)).data (compactText (normalizeText c)).data

/-- `token_score` of `_score_match`. -/
def tokenScoreOf (q c : String) : ℚ :=
  tokenSim (tokenize (normalizeText q)) (tokenize (normalizeText c))

/-- `_score_match`: the weighted score with the containment bonus, clamped
to 0–100, and the reported basis. -/
def scoreMatch (q c : String) : ℚ × String :=
  let qc := (compactText (normalizeText q)).data
  let cc := (compactText (normalizeText c)).data
  let charScore := charScoreOf q c
  let partialScore := partialScoreOf q c
  let tokenScore := tokenScoreOf q c
  let score := (1/2 : ℚ) * charScore + (3/10 : ℚ) * partialScore +
    (1/5 : ℚ) * tokenScore
  let score2 := if qc ≠ [] ∧ cc ≠ [] ∧ (isSubstr qc cc || isSubstr cc qc) then
    score + 5 else score
  (pyMax 0 (pyMin 100 score2),
   if tokenScore ≥ pyMax charScore partialScore + 5 then "token" else "string")

/-- `_CatalogEntry`. -/
structure CatEntry where
  item_id : String
  canonical_name : String
  aliases : List String

/-- The per-entry scoring loop of `generate_candidates` (lines 216–234):
start from the canonical name, then let each alias take over on a strictly
better score; the basis becomes `token` when the winning `_score_match`
reported `token`, otherwise `canonical` or `alias` by the origin of the
winning text.  Returns `(best_score, best_basis, matched_text)`. -/
def aliasStep (name_raw : String) (best : ℚ × String × String)
    (al : String) : ℚ × String × String :=
  let ares := scoreMatch name_raw al
  if ares.1 > best.1 then
    (ares.1, if ares.2 = "token" then "token" else "alias", al)
  else best

def scoreEntry (name_raw : String) (e : CatEntry) : ℚ × String × String :=
  let best0 : ℚ × String × String := (-1, "canonical", e.canonical_name)
  let cres := scoreMatch name_raw e.canonical_name
  let best1 := if cres.1 > best0.1 then
    (cres.1, if cres.2 = "token" then "token" else "canonical", e.canonical_name)
    else best0
  e.aliases.foldl (aliasStep name_raw) best1

/-- The relation between a running best row and its provenance: a `token`
basis came from a `token`-reporting `_score_match`, a `canonical` basis
from the canonical name, an `alias` basis from one of the aliases
(verification helper). -/
def EntryInv (q : String) (e : CatEntry) (best : ℚ × String × String) : Prop :=
  (best.2.1 = "token" → (scoreMatch q best.2.2).2 = "token") ∧
  (best.2.1 = "canonical" → best.2.2 = e.canonical_name ∧
    (scoreMatch q best.2.2).2 ≠ "token") ∧
  (best.2.1 = "alias" → best.2.2 ∈ e.aliases ∧
    (scoreMatch q best.2.2).2 ≠ "token")

end Candidates

namespace Parser

open Cache Candidates

/-- `_SYMBOL_MAP`: fullwidth punctuation folded to ASCII, the multiply
sign and fullwidth x to `x`, the ideographic space to a plain space. -/
def symbolMap (c : Char) : Char :=
  if c.toNat = 65306 then ':'
  else if c.toNat = 65288 then '('
  else if c.toNat = 65289 then ')'
  else if c.toNat = 65290 then '*'
  else if c.toNat = 65121 then '*'
  else if c.toNat = 65284 then '$'
  else if c.toNat = 65336 then 'x'
  else if c.toNat = 65368 then 'x'
  else if c.toNat = 215 then 'x'
  else if c.toNat = 12288 then ' '
  else c

/-- `_normalize_for_parse`: translate the symbol map, collapse whitespace
runs to single spaces, strip the ends. -/
def normalizeForParse (s : String) : String :=
  String.mk (stripChars (Candidates.collapseSp false (s.data.map symbolMap)))

/-- `str.splitlines()`: split at `\n`, `\r`, `\r\n` and the other
Unicode line boundaries, no trailing empty line. -/
def isLineBreak (c : Char) : Bool :=
  c.toNat = 10 || c.toNat = 11 || c.toNat = 12 || c.toNat = 13 ||
    c.toNat = 28 || c.toNat = 29 || c.toNat = 30 || c.toNat = 133 ||
    c.toNat = 8232 || c.toNat = 8233

def splitLinesAux : List Char → List Char → List String
  | acc, [] => if acc.isEmpty then [] else [String.mk acc.reverse]
  | acc, '\r' :: '\n' :: rest2 => String.mk acc.reverse :: splitLinesAux [] rest2
  | acc, '\r' :: rest => String.mk acc.reverse :: splitLinesAux [] rest
  | acc, c :: rest =>
      if isLineBreak c then String.mk acc.reverse :: splitLinesAux [] rest
      else splitLinesAux (c :: acc) rest

def splitLines (s : String) : List String := splitLinesAux [] s.data

/-- `line.rstrip("\r")`. -/
def rstripCR (s : String) : String :=
  String.mk (s.data.reverse.dropWhile (fun c => c = '\r')).reverse

/-- The character class of `_SEPARATOR_RE`, `[\-=~_*#\s]`. -/
def isSepChar (c : Char) : Bool :=
  c = '-' || c = '=' || c = '~' || c = '_' || c = '*' || c = '#' || isPySpace c

/-- `_SEPARATOR_RE`: `^[\-=~_*#\s]{3,}$`. -/
def separatorMatch (cs : List Char) : Bool :=
  decide (3 ≤ cs.length) && cs.all isSepChar

/-- The keyword alternation of `_NOISE_PREFIX_RE`. -/
def NOISE_KEYWORDS : List (List Char) :=
  ["電話".data, "tel".data, "地址".data, "統編".data, "單號".data, "訂單".data,
   "時間".data, "日期".data, "總計".data, "小計".data, "合計".data, "應收".data,
   "找零".data]

/-- One keyword at the head of `after`, case-insensitively, followed by
whitespace, a colon, or the end (`(?:\s|:|$)`). -/
def kwPrefixMatch (kw after : List Char) : Bool :=
  ((after.take kw.length).map Candidates.asciiLower = kw : Bool) &&
    (match after.drop kw.length with
     | [] => true
     | c :: _ => isPySpace c || c = ':')

/-- `_NOISE_PREFIX_RE`: `^\s*(?:電話|tel|…|找零)(?:\s|:|$)`,
case-insensitive. -/
def noisePrefixMatch (cs : List Char) : Bool :=
  NOISE_KEYWORDS.any (fun kw => kwPrefixMatch kw (cs.dropWhile isPySpace))

/-- `[x*]\s*\S+` anchored at this position (`x` case-insensitive via the
two letter forms). -/
def xStarHintAt : List Char → Bool
  | [] => false
  | c :: rest =>
      (c = 'x' || c = 'X' || c = '*') && !(rest.dropWhile isPySpace).isEmpty

/-- `\d+\s*份` anchored at this position. -/
def fenHintAt (cs : List Char) : Bool :=
  let ds := cs.takeWhile isDigitCh
  !ds.isEmpty &&
    (match (cs.drop ds.length).dropWhile isPySpace with
     | c :: _ => c = '份'
     | [] => false)

/-- `re.search`: try the position predicate at every suffix. -/
def suffixAny (p : List Char → Bool) : List Char → Bool
  | [] => p []
  | c :: rest => p (c :: rest) || suffixAny p rest

/-- `_HAS_QTY_HINT_RE.search`: `[x*]\s*\S+|\d+\s*份` anywhere. -/
def hasQtyHint (cs : List Char) : Bool :=
  suffixAny (fun suf => xStarHintAt suf || fenHintAt suf) cs

/-- Nondeterministic anchored matcher: a pattern maps an input to the
list of possible remainders, so alternation and bounded repetition model
regex backtracking exactly; a full match is a match whose remainder is
empty. -/
def MSet := List Char → List (List Char)

def mEmp : MSet := fun cs => [cs]

def mCh (c : Char) : MSet := fun cs =>
  match cs with
  | d :: rest => if d = c then [rest] else []
  | [] => []

def mChCI (c : Char) : MSet := fun cs =>
  match cs with
  | d :: rest => if Candidates.asciiLower d = c then [rest] else []
  | [] => []

def mCls (p : Char → Bool) : MSet := fun cs =>
  match cs with
  | d :: rest => if p d then [rest] else []
  | [] => []

def mSeq (a b : MSet) : MSet := fun cs => (a cs).flatMap b

def mAlt (a b : MSet) : MSet := fun cs => a cs ++ b cs

def mOpt (a : MSet) : MSet := fun cs => cs :: a cs

/-- `p*` for a character class: all ways to consume a prefix of
`p`-characters. -/
def mStarCls (p : Char → Bool) : List Char → List (List Char)
  | [] => [[]]
  | c :: rest => if p c then (c :: rest) :: mStarCls p rest else [c :: rest]

/-- `a{0,n}`. -/
def mRepUp : Nat → MSet → MSet
  | 0, _ => mEmp
  | n + 1, a => fun cs => cs :: (a cs).flatMap (mRepUp n a)

/-- `a{n}`. -/
def mRepEx : Nat → MSet → MSet
  | 0, _ => mEmp
  | n + 1, a => mSeq a (mRepEx n a)

/-- `a{lo,hi}`. -/
def mRep (lo hi : Nat) (a : MSet) : MSet := mSeq (mRepEx lo a) (mRepUp (hi - lo) a)

def mStr : List Char → MSet
  | [] => mEmp
  | c :: rest => mSeq (mCh c) (mStr rest)

def mStrCI : List Char → MSet
  | [] => mEmp
  | c :: rest => mSeq (mChCI c) (mStrCI rest)

def mFull (a : MSet) (cs : List Char) : Bool := (a cs).any List.isEmpty

def mSp : MSet := fun cs => mStarCls isPySpace cs

def mDigit : MSet := mCls isDigitCh

def mDashSp : MSet := mCls (fun c => c = '-' || isPySpace c)

/-- `_PHONE_ONLY_RE`:
`^\s*(?:電話|tel)?\s*:?\s*(?:\+?886[-\s]?)?`
`(?:0\d{1,2}[-\s]?\d{6,8}|09\d{2}[-\s]?\d{3}[-\s]?\d{3})`
`(?:\s*(?:#|ext\.?|轉)\s*\d{1,5})?\s*$`, case-insensitive. -/
def phoneOnly : MSet :=
  mSeq mSp (mSeq (mOpt (mAlt (mStr "電話".data) (mStrCI "tel".data)))
    (mSeq mSp (mSeq (mOpt (mCh ':'))
      (mSeq mSp
        (mSeq (mOpt (mSeq (mOpt (mCh '+')) (mSeq (mStr "886".data) (mOpt mDashSp))))
          (mSeq
            (mAlt
              (mSeq (mCh '0') (mSeq (mRep 1 2 mDigit)
                (mSeq (mOpt mDashSp) (mRep 6 8 mDigit))))
              (mSeq (mStr "09".data) (mSeq (mRepEx 2 mDigit) (mSeq (mOpt mDashSp)
                (mSeq (mRepEx 3 mDigit) (mSeq (mOpt mDashSp) (mRepEx 3 mDigit)))))))
            (mSeq
              (mOpt (mSeq mSp (mSeq
                (mAlt (mCh '#')
                  (mAlt (mSeq (mStrCI "ext".data) (mOpt (mCh '.'))) (mCh '轉')))
                (mSeq mSp (mRep 1 5 mDigit)))))
              mSp)))))))

def phoneMatch (cs : List Char) : Bool := mFull phoneOnly cs

/-- `\d{1,2}:\d{2}(?::\d{2})?`. -/
def timePat : MSet :=
  mSeq (mRep 1 2 mDigit) (mSeq (mCh ':') (mSeq (mRepEx 2 mDigit)
    (mOpt (mSeq (mCh ':') (mRepEx 2 mDigit)))))

/-- `\d{4}`, a slash or dash, `\d{1,2}`, a slash or dash, `\d{1,2}`. -/
def datePat : MSet :=
  mSeq (mRepEx 4 mDigit) (mSeq (mCls (fun c => c = '/' || c = '-'))
    (mSeq (mRep 1 2 mDigit) (mSeq (mCls (fun c => c = '/' || c = '-'))
      (mRep 1 2 mDigit))))

/-- `_DATETIME_ONLY_RE`:
`^\s*(?:date(?:\s+time)?|time)\s*$`. -/
def datetimeOnly : MSet :=
  mSeq mSp (mSeq (mAlt (mSeq datePat (mOpt (mSeq (mSeq (mCls isPySpace) mSp) timePat)))
    timePat) mSp)

def datetimeMatch (cs : List Char) : Bool := mFull datetimeOnly cs

/-- `_is_noise_line` on the normalized line. -/
def isNoiseLine (cs : List Char) : Bool :=
  if cs.isEmpty then true
  else if separatorMatch cs then true
  else if noisePrefixMatch cs then !hasQtyHint cs
  else if phoneMatch cs then true
  else if datetimeMatch cs then true
  else false

/-- The character class `[*\-•●#]` of `_LEADING_MARKER_RE`. -/
def isMarkerCh (c : Char) : Bool :=
  c = '*' || c = '-' || c.toNat = 8226 || c.toNat = 9679 || c = '#'

def isAsciiLetter (c : Char) : Bool :=
  (65 ≤ c.toNat && c.toNat ≤ 90) || (97 ≤ c.toNat && c.toNat ≤ 122)

/-- Digits `{1,3}` followed by one closer from `cl`; greedy digits, so a
run longer than three cannot match. -/
def digitsThenCloser (t : List Char) (cl : List Char) : Option (List Char) :=
  let ds := t.takeWhile isDigitCh
  if 1 ≤ ds.length && ds.length ≤ 3 then
    match t.drop ds.length with
    | c :: rest => if c ∈ cl then some rest else none
    | [] => none
  else none

/-- One application of `_LEADING_MARKER_RE.sub("", ·, count=1)`:
`^\s*(?:[*\-•●#]+|\d{1,3}[.)、]|[(（]\d{1,3}[)）]|[A-Za-z][.)])\s*`
removed if it matches, `none` otherwise. -/
def leadMarkerStrip1 (cs : List Char) : Option (List Char) :=
  let t := cs.dropWhile isPySpace
  let core : Option (List Char) :=
    (if !(t.takeWhile isMarkerCh).isEmpty then some (t.dropWhile isMarkerCh) else none) <|>
    digitsThenCloser t ['.', ')', '、'] <|>
    (match t with
     | c :: rest =>
         if c = '(' || c.toNat = 65288 then digitsThenCloser rest [')', Char.ofNat 65289]
         else none
     | [] => none) <|>
    (match t with
     | c :: d :: rest =>
         if isAsciiLetter c && (d = '.' || d = ')') then some rest else none
     | _ => none)
  match core with
  | some r => some (r.dropWhile isPySpace)
  | none => none

/-- `_strip_leading_markers`: strip one marker and `.strip()` until the
text stops changing; the fuel covers every possible iteration because
each continuing step strictly shortens the text. -/
def stripLeadingMarkersAux : Nat → List Char → List Char
  | 0, cs => cs
  | fuel + 1, cs =>
      let stripped := stripChars
        (match leadMarkerStrip1 cs with
         | some r => r
         | none => cs)
      if stripped = cs then cs else stripLeadingMarkersAux fuel stripped

def stripLeadingMarkers (cs : List Char) : List Char :=
  stripLeadingMarkersAux (cs.length + 1) cs

/-- The keyword alternation of `_NOTE_RE` and `_STANDALONE_NOTE_RE`. -/
def NOTE_KEYWORDS : List (List Char) :=
  ["備註".data, "註記".data, "附註".data, "备注".data]

/-- After a note keyword, `\s*(?::\s*|\s+)(.+)$`: the note group,
already stripped (group backtracking only moves whitespace that the
final `.strip()` removes anyway).  `none` when no separator or nothing at
all follows. -/
def noteAfterKw (rest : List Char) : Option (List Char) :=
  let sp := rest.takeWhile isPySpace
  let r1 := rest.drop sp.length
  match r1 with
  | ':' :: r2 =>
      if !r2.isEmpty then some (stripChars r2)
      else if 1 ≤ sp.length then some (stripChars r1)
      else none
  | _ :: _ => if 1 ≤ sp.length then some (stripChars r1) else none
  | [] => if 2 ≤ sp.length then some [] else none

/-- `_NOTE_RE` anchored at this position: a note keyword then
`noteAfterKw`. -/
def noteKwAt (cs : List Char) : Option (List Char) :=
  NOTE_KEYWORDS.foldl
    (fun acc kw =>
      match acc with
      | some r => some r
      | none =>
          if cs.take kw.length = kw then noteAfterKw (cs.drop kw.length) else none)
    none

/-- `_NOTE_RE.search`: leftmost keyword position whose tail matches;
returns `(text-before-the-match, note)`. -/
def inlineNoteScan : List Char → List Char → Option (List Char × List Char)
  | _, [] => none
  | before, c :: rest =>
      match noteKwAt (c :: rest) with
      | some note => some (before.reverse, note)
      | none => inlineNoteScan (c :: before) rest

/-- `_extract_inline_note`. -/
def extractInlineNote (cs : List Char) : List Char × Option (List Char) :=
  match inlineNoteScan [] cs with
  | some (before, note) => (stripChars before, some note)
  | none => (stripChars cs, none)

/-- One application of `_TRAILING_PAREN_RE`
`^(?P<base>.+?)\s*\((?P<note>[^()]+)\)\s*$`: the lazy base forces the
last parenthesis group, read off deterministically from the right. -/
def parenSplit1 (cs : List Char) : Option (List Char × List Char) :=
  match cs.reverse.dropWhile isPySpace with
  | ')' :: r2 =>
      let content := r2.takeWhile (fun c => c ≠ '(' && c ≠ ')')
      match r2.drop content.length with
      | '(' :: r3 =>
          if content.isEmpty then none
          else
            let baseR := r3.dropWhile isPySpace
            if baseR.isEmpty then none
            else some (baseR.reverse, content.reverse)
      | _ => none
  | _ => none

/-- `_extract_parenthetical_note`: peel trailing parentheses, collecting
the notes front-first. -/
def extractParenNotesAux : Nat → List Char → List (List Char) →
    List Char × List (List Char)
  | 0, cur, notes => (cur, notes)
  | fuel + 1, cur, notes =>
      match parenSplit1 cur with
      | none => (cur, notes)
      | some (base, note) =>
          extractParenNotesAux fuel (stripChars base) (stripChars note :: notes)

def extractParenNotes (cs : List Char) : List Char × List (List Char) :=
  extractParenNotesAux (cs.length + 1) (stripChars cs) []

/-- `-?\d+` read from the right of a reversed list: the reversed digit
run and the optional sign; returns the signed value and the remainder
(still reversed). -/
def intFromRight (r : List Char) : Option (Int × List Char) :=
  let dsR := r.takeWhile isDigitCh
  if dsR.isEmpty then none
  else
    let r2 := r.drop dsR.length
    match r2 with
    | '-' :: r3 => some (-(Cache.digitsVal dsR.reverse : Int), r3)
    | _ => some ((Cache.digitsVal dsR.reverse : Int), r2)

/-- `_QTY_X_OR_STAR_RE` `^(?P<name>.+?)\s*[x*]\s*(?P<qty>-?\d+)\s*$`
(case-insensitive): the anchored tail pins the final digit run and the
marker next to it, so the lazy name is everything before the marker. -/
def qtyXStar (cs : List Char) : Option (List Char × Int) :=
  let r := cs.reverse.dropWhile isPySpace
  match intFromRight r with
  | none => none
  | some (q, r3) =>
      match r3.dropWhile isPySpace with
      | m :: r5 =>
          if m = 'x' || m = 'X' || m = '*' then
            let nameR := r5.dropWhile isPySpace
            if nameR.isEmpty then none else some (stripChars nameR.reverse, q)
          else none
      | [] => none

/-- `_QTY_FEN_RE` `^(?P<name>.+?)\s+(?P<qty>-?\d+)\s*份\s*$`. -/
def qtyFen (cs : List Char) : Option (List Char × Int) :=
  match cs.reverse.dropWhile isPySpace with
  | '份' :: r2 =>
      match intFromRight (r2.dropWhile isPySpace) with
      | none => none
      | some (q, r4) =>
          let spn := r4.takeWhile isPySpace
          if spn.isEmpty then none
          else
            let nameR := r4.drop spn.length
            if nameR.isEmpty then none else some (stripChars nameR.reverse, q)
  | _ => none

/-- The tail `\s*[x*]\s*(?P<qty_text>\S*)\s*$` of
`_QTY_MARKER_ANY_RE`, checked at a candidate name boundary. -/
def markerAnyTail (r : List Char) : Option (List Char) :=
  match r.dropWhile isPySpace with
  | m :: r2 =>
      if m = 'x' || m = 'X' || m = '*' then
        let r3 := r2.dropWhile isPySpace
        let t := r3.takeWhile (fun c => !isPySpace c)
        if ((r3.drop t.length).dropWhile isPySpace).isEmpty then some t else none
      else none
  | [] => none

/-- `_QTY_MARKER_ANY_RE` `^(?P<name>.+?)\s*[x*]\s*(?P<qty_text>\S*)\s*$`:
the lazy name takes the leftmost marker whose tail fits. -/
def qtyMarkerAnyAux : List Char → List Char → Option (List Char × List Char)
  | _, [] => none
  | nameRev, c :: rest =>
      match markerAnyTail rest with
      | some t => some ((c :: nameRev).reverse, t)
      | none => qtyMarkerAnyAux (c :: nameRev) rest

def qtyMarkerAny (cs : List Char) : Option (List Char × List Char) :=
  match qtyMarkerAnyAux [] cs with
  | some (n, t) => some (stripChars n, t)
  | none => none

/-- `_QTY_FEN_ANY_RE` `^(?P<name>.+?)\s+(?P<qty_text>\S+)\s*份\s*$`,
read from the right: the greedy `\S+` is the non-space run before the
final `份`. -/
def qtyFenAny (cs : List Char) : Option (List Char × List Char) :=
  match cs.reverse.dropWhile isPySpace with
  | '份' :: r2 =>
      let r3 := r2.dropWhile isPySpace
      let tR := r3.takeWhile (fun c => !isPySpace c)
      if tR.isEmpty then none
      else
        let r4 := r3.drop tR.length
        let spn := r4.takeWhile isPySpace
        if spn.isEmpty then none
        else
          let nameR := r4.drop spn.length
          if nameR.isEmpty then none
          else some (stripChars nameR.reverse, tR.reverse)
  | _ => none

/-- `_HAS_QTY_MARKER_RE.search` `(?:^|\s)[x*]\s*\S+`. -/
def hasQtyMarkerSearch (cs : List Char) : Bool :=
  xStarHintAt cs ||
    suffixAny
      (fun suf =>
        match suf with
        | c :: rest => isPySpace c && xStarHintAt rest
        | [] => false)
      cs

/-- `_HAS_FEN_MARKER_RE.search` `\d+\s*份`. -/
def hasFenMarkerSearch (cs : List Char) : Bool :=
  suffixAny fenHintAt cs

/-- `_extract_name_and_qty_once`: the regex cascade of lines 112–138. -/
def extractNameAndQtyOnce (cs : List Char) : List Char × Option Int × String :=
  match qtyXStar cs with
  | some (n, q) => (n, some q, "ok")
  | none =>
  match qtyFen cs with
  | some (n, q) => (n, some q, "ok")
  | none =>
  match qtyMarkerAny cs with
  | some (n, t) => (n, none, if t.isEmpty then "missing" else "invalid")
  | none =>
  match qtyFenAny cs with
  | some (n, _t) => (n, none, "invalid")
  | none =>
  if hasQtyMarkerSearch cs || hasFenMarkerSearch cs then (cs, none, "invalid")
  else
  match intFromRight (cs.reverse.dropWhile isPySpace) with
  | some (q, r2) =>
      let spn := r2.takeWhile isPySpace
      if spn.isEmpty then (cs, none, "missing")
      else
        let nameR := r2.drop spn.length
        if nameR.isEmpty then (cs, none, "missing")
        else (stripChars nameR.reverse, some q, "ok")
  | none => (cs, none, "missing")

/-- `\d+(?:\.\d{1,2})?` as a nondeterministic tail: the greedy integer
part, then the optional fraction with one or two digits. -/
def amountRems : MSet := fun cs =>
  let ds := cs.takeWhile isDigitCh
  if ds.isEmpty then []
  else
    let r := cs.drop ds.length
    match r with
    | '.' :: r2 =>
        let fs := r2.takeWhile isDigitCh
        r :: ((if 1 ≤ fs.length then [r2.drop 1] else []) ++
          (if 2 ≤ fs.length then [r2.drop 2] else []))
    | _ => [r]

/-- The currency token `(?:ntd?\$?|twd|\$)`, case-insensitive. -/
def currencyRems : MSet := fun cs =>
  (match cs with
   | a :: b :: r =>
       if Candidates.asciiLower a = 'n' && Candidates.asciiLower b = 't' then
         (match r with
          | d :: r2 =>
              if Candidates.asciiLower d = 'd' then
                (match r2 with
                 | '$' :: r3 => [r3, r2]
                 | _ => [r2]) ++
                (match r with
                 | '$' :: r4 => [r4]
                 | _ => [])
              else
                match r with
                | '$' :: r4 => [r4, r]
                | _ => [r]
          | [] => [r])
       else []
   | _ => []) ++
  (match cs with
   | a :: b :: c :: r =>
       if Candidates.asciiLower a = 't' && Candidates.asciiLower b = 'w' &&
           Candidates.asciiLower c = 'd' then [r] else []
   | _ => []) ++
  (match cs with
   | '$' :: r => [r]
   | _ => [])

/-- The tail of `_TRAILING_CURRENCY_AMOUNT_RE` after the lazy body:
`\s*(?:ntd?\$?|twd|\$)\s*(?P<amount>\d+(?:\.\d{1,2})?)\s*$`. -/
def currencyTailOk (r : List Char) : Bool :=
  ((((mStarCls isPySpace r).flatMap currencyRems).flatMap
    (fun r2 => mStarCls isPySpace r2)).flatMap amountRems).any
    (fun r3 => (r3.dropWhile isPySpace).isEmpty)

/-- The tail of `_TRAILING_AMOUNT_UNIT_RE` after the lazy body:
`\s*(?P<amount>\d+(?:\.\d{1,2})?)\s*元\s*$`. -/
def unitTailOk (r : List Char) : Bool :=
  (((mStarCls isPySpace r).flatMap amountRems).any
    (fun r2 =>
      match r2.dropWhile isPySpace with
      | c :: r3 => c = '元' && (r3.dropWhile isPySpace).isEmpty
      | [] => false))

/-- The tail of `_TRAILING_PLAIN_AMOUNT_RE` after the lazy body:
`\s+(?P<amount>\d+(?:\.\d{1,2})?)\s*$`. -/
def plainTailOk (r : List Char) : Bool :=
  match r with
  | c :: _ =>
      isPySpace c &&
        (amountRems (r.dropWhile isPySpace)).any
          (fun r2 => (r2.dropWhile isPySpace).isEmpty)
  | [] => false

/-- Leftmost body split (the lazy `(?P<body>.+?)`): the shortest
non-empty prefix whose remainder satisfies the tail. -/
def scanBodyAux (check : List Char → Bool) : List Char → List Char →
    Option (List Char)
  | _, [] => none
  | acc, c :: rest =>
      if check rest then some (c :: acc).reverse else scanBodyAux check (c :: acc) rest

def scanBody (check : List Char → Bool) (cs : List Char) : Option (List Char) :=
  scanBodyAux check [] cs

/-- `_strip_trailing_amount`. -/
def stripTrailingAmount (cs : List Char) : List Char :=
  let cur := stripChars cs
  match scanBody currencyTailOk cur with
  | some body => stripChars body
  | none =>
  match scanBody unitTailOk cur with
  | some body => stripChars body
  | none =>
  match scanBody plainTailOk cur with
  | some body =>
      let b := stripChars body
      if hasQtyHint b then b else cur
  | none => cur

/-- `_extract_name_and_qty`. -/
def extractNameAndQty (prepared : List Char) : List Char × Option Int × String :=
  let r := extractNameAndQtyOnce prepared
  match r.2.1 with
  | some _ => r
  | none =>
      let trimmed := stripTrailingAmount prepared
      if trimmed ≠ prepared then
        let r2 := extractNameAndQtyOnce trimmed
        if r2.2.1.isSome || r2.2.2 = "invalid" then r2 else r
      else r

/-- The tail `[x*]\s*-?\d+\s*$` of the first `_fallback_name`
substitution, checked at a candidate position. -/
def fbTail1 (r : List Char) : Bool :=
  match r with
  | m :: r2 =>
      (m = 'x' || m = 'X' || m = '*') &&
        (let r3 := r2.dropWhile isPySpace
         let r4 := match r3 with
           | '-' :: rr => rr
           | _ => r3
         let ds := r4.takeWhile isDigitCh
         !ds.isEmpty && ((r4.drop ds.length).dropWhile isPySpace).isEmpty)
  | [] => false

/-- The tail `\s*-?\d+\s*份?\s*$` of the second `_fallback_name`
substitution, checked at a candidate position. -/
def fbTail2 (r : List Char) : Bool :=
  let r1 := r.dropWhile isPySpace
  let r2 := match r1 with
    | '-' :: rr => rr
    | _ => r1
  let ds := r2.takeWhile isDigitCh
  !ds.isEmpty &&
    (let r3 := (r2.drop ds.length).dropWhile isPySpace
     let r4 := match r3 with
       | '份' :: rr => rr
       | _ => r3
     (r4.dropWhile isPySpace).isEmpty)

/-- Remove the leftmost match of an end-anchored tail (a `re.sub` whose
pattern ends in `$` has at most one match). -/
def removeTailAux (check : List Char → Bool) : List Char → List Char → List Char
  | acc, [] => acc.reverse
  | acc, c :: rest =>
      if check (c :: rest) then acc.reverse else removeTailAux check (c :: acc) rest

def removeTail (check : List Char → Bool) (cs : List Char) : List Char :=
  removeTailAux check [] cs

/-- `_fallback_name`. -/
def fallbackName (cs : List Char) : List Char :=
  let n1 := stripChars (removeTail fbTail1 cs)
  let n2 := stripChars (removeTail fbTail2 n1)
  if n2.isEmpty then stripChars cs else n2

/-- Decimal rendering of the line index inside warning strings. -/
def natStr (n : Nat) : String := String.mk (Cache.natDigits n)

/-- `_parse_line` (the defensive `except` branch of the caller cannot
trigger in this model and is not represented). -/
def parseLine (rawLine : String) (lineIndex : Nat) : RawLine × List String :=
  let normalized := (normalizeForParse rawLine).data
  let prepared0 := stripLeadingMarkers normalized
  let inl := extractInlineNote prepared0
  let prepared := inl.1
  let r := extractNameAndQty prepared
  let nameToken := r.1
  let qtyState := r.2.2
  let qr : Int × Bool × List String × List Char :=
    match r.2.1 with
    | none =>
        (1, true,
         [if qtyState = "invalid" then
            "line " ++ natStr lineIndex ++ ": qty invalid, defaulted to 1"
          else
            "line " ++ natStr lineIndex ++ ": qty missing, defaulted to 1"],
         fallbackName nameToken)
    | some q =>
        if q ≤ 0 then
          (1, true, ["line " ++ natStr lineIndex ++ ": qty must be positive, defaulted to 1"],
           nameToken)
        else (q, false, [], nameToken)
  let pn := extractParenNotes qr.2.2.2
  let noteParts := pn.2 ++
    (match inl.2 with
     | some n => if n.isEmpty then [] else [n]
     | none => [])
  let joined := noteParts.filter (fun p => !p.isEmpty)
  let noteRaw : Option String :=
    match joined with
    | [] => none
    | p :: ps => some (ps.foldl (fun acc q => acc ++ "; " ++ String.mk q) (String.mk p))
  let nr : String × Bool × List String :=
    if pn.1.isEmpty then
      (let f := fallbackName prepared
       String.mk (if !f.isEmpty then f else if !normalized.isEmpty then normalized
         else stripChars rawLine.data),
       true, ["line " ++ natStr lineIndex ++ ": unable to confidently parse item name"])
    else (String.mk pn.1, false, [])
  ({ line_index := (lineIndex : Int)
     raw_line := rawLine
     name_raw := nr.1
     qty := qr.1
     note_raw := noteRaw
     needs_review := qr.2.1 || nr.2.1 },
   qr.2.2.1 ++ nr.2.2)

/-- `_is_standalone_note`. -/
def standaloneNote (rawLine : String) : Option (List Char) :=
  let n := (normalizeForParse rawLine).data
  match noteKwAt (n.dropWhile isPySpace) with
  | some note => if note.isEmpty then none else some note
  | none => none

/-- The loop of `parse_receipt_text` (lines 231–272), with the lines and
warnings accumulators passed explicitly; a standalone note rebuilds the
last collected line with the note merged in. -/
def parseAux : List String → Nat → List RawLine → List String →
    List RawLine × List String
  | [], _, lines, ws => (lines, ws)
  | src :: rest, idx, lines, ws =>
      let rawLine := rstripCR src
      let normalized := (normalizeForParse rawLine).data
      if normalized.isEmpty || isNoiseLine normalized then
        parseAux rest (idx + 1) lines ws
      else
        match standaloneNote rawLine with
        | some note =>
            match lines.getLast? with
            | some prev =>
                let merged :=
                  match prev.note_raw with
                  | some ex => ex ++ "; " ++ String.mk note
                  | none => String.mk note
                parseAux rest (idx + 1)
                  (lines.dropLast ++ [{ prev with note_raw := some merged }]) ws
            | none =>
                parseAux rest (idx + 1) lines
                  (ws ++ ["line " ++ natStr idx ++ ": standalone note with no preceding item"])
        | none =>
            let p := parseLine rawLine idx
            parseAux rest (idx + 1) (lines ++ [p.1]) (ws ++ p.2)

/-- `parse_receipt_text` (the `parse_errors` list stays empty: the
defensive `except` branch cannot trigger). -/
def parseReceiptText (text : String) : OrderRawParsed :=
  let r := parseAux (splitLines text) 0 [] []
  { source_text := text
    lines := r.1
    order_id := none
    parse_warnings := r.2
    needs_review := !r.2.isEmpty || r.1.any (·.needs_review)
    metadata := [("parse_errors", vlist [])] }

end Parser

namespace Audit

open PyVal

/-- `value is None`. -/
def isNull : PyVal → Bool
  | vnull => true
  | _ => false

/-- The `sensitive_keys` set of `_mask_value`. -/
def sensitiveKeys : List String :=
  ["password", "token", "api_key", "authorization", "cookie", "phone",
   "mobile", "email"]

/-- `str.lower` on a whole string (ASCII fragment, see
`Candidates.asciiLower`). -/
def lowerStr (s : String) : String :=
  String.mk (s.data.map Candidates.asciiLower)

/-- The key test of `_mask_value`: lowercased key in `sensitive_keys`, or
containing `token` or `secret`. -/
def sensitiveKey (key : String) : Bool :=
  let keyL := lowerStr key
  sensitiveKeys.contains keyL ||
    Candidates.isSubstr "token".data keyL.data ||
    Candidates.isSubstr "secret".data keyL.data

/-- The string test of `_mask_value`: an email-looking string, or a 16+
character string holding both a digit and a letter (`isdigit`/`isalpha`
modelled on the ASCII fragment). -/
def maskedString (s : String) : Bool :=
  (s.data.contains '@' && s.data.contains '.') ||
    (decide (16 ≤ s.length) && s.data.any Cache.isDigitCh &&
      s.data.any Parser.isAsciiLetter)

mutual

/-- `_mask_value` with its default `mask_text="***"`. -/
def maskValue : PyVal → PyVal
  | vobj kvs => vobj (maskFields kvs)
  | vlist xs => vlist (maskList xs)
  | vstr s => if maskedString s then vstr "***" else vstr s
  | v => v

/-- The mapping branch of `_mask_value`: sensitive keys get `***`, other
values are masked recursively. -/
def maskFields : List (String × PyVal) → List (String × PyVal)
  | [] => []
  | (k, inner) :: rest =>
      (k, if sensitiveKey k then vstr "***" else maskValue inner) :: maskFields rest

/-- The list branch of `_mask_value`. -/
def maskList : List PyVal → List PyVal
  | [] => []
  | x :: xs => maskValue x :: maskList xs

end

/-- `dict.setdefault`: keep the stored value if the key exists, append the
default otherwise. -/
def objSetdefault (kvs : List (String × PyVal)) (k : String) (v : PyVal) :
    List (String × PyVal) :=
  match lookup kvs k with
  | some _ => kvs
  | none => kvs ++ [(k, v)]

/-- `isinstance(x, str) and x.strip()`: the required-field test of
`_to_event_payload`. -/
def requiredStr (v : PyVal) : Bool :=
  match v with
  | vstr s => isNonBlank s
  | _ => false

/-- `AuditLogger._normalize_human_correction`; `_utc_now_iso()` is passed
in as `now`. -/
def normalizeHumanCorrection (payload : List (String × PyVal)) (now : String) :
    Except String PyVal :=
  let correction0 := (lookup payload "human_correction").getD vnull
  let legacyBefore := (lookup payload "before").getD vnull
  let legacyAfter := (lookup payload "after").getD vnull
  let legacyOperator := (lookup payload "operator").getD vnull
  let legacyTimestamp := (lookup payload "correction_timestamp").getD vnull
  let correction :=
    if isNull correction0 &&
        (!isNull legacyBefore || !isNull legacyAfter || !isNull legacyOperator ||
          !isNull legacyTimestamp) then
      vobj [("before", legacyBefore), ("after", legacyAfter),
            ("operator", legacyOperator), ("timestamp", legacyTimestamp)]
    else correction0
  if isNull correction then Except.ok vnull
  else
    match correction with
    | vobj kvs =>
        let cp1 := if isNull ((lookup kvs "before").getD vnull) then
            objSet kvs "before" legacyBefore else kvs
        let cp2 := if isNull ((lookup cp1 "after").getD vnull) then
            objSet cp1 "after" legacyAfter else cp1
        let cp3 :=
          match (lookup cp2 "operator").getD vnull with
          | vstr s =>
              if isNonBlank s then objSet cp2 "operator" (vstr (pyStrip s))
              else objSet cp2 "operator" (vstr "unknown")
          | _ => objSet cp2 "operator" (vstr "unknown")
        let cp4 :=
          match (lookup cp3 "timestamp").getD vnull with
          | vstr s => if isNonBlank s then cp3 else objSet cp3 "timestamp" (vstr now)
          | _ => objSet cp3 "timestamp" (vstr now)
        Except.ok (vobj cp4)
    | _ => Except.error "human_correction must be an object"

/-- `AuditLogger._to_event_payload` on a mapping event (an
`AuditEventRecord` reaches this code as the same dict via `as_dict`);
`_utc_now_iso()` is passed in as `now`. -/
def toEventPayload (event : List (String × PyVal)) (now : String) :
    Except String (List (String × PyVal)) :=
  if !requiredStr ((lookup event "order_id").getD vnull) then
    Except.error "audit event missing required field: order_id"
  else if !requiredStr ((lookup event "event_type").getD vnull) then
    Except.error "audit event missing required field: event_type"
  else
    let p1 := objSetdefault event "timestamp" (vstr now)
    let p2 := objSetdefault p1 "raw_text" vnull
    let p3 := objSetdefault p2 "parse_result" vnull
    let p4 := objSetdefault p3 "candidates" vnull
    let p5 := objSetdefault p4 "llm_request" vnull
    let p6 := objSetdefault p5 "llm_response" vnull
    let p7 := objSetdefault p6 "fallback_reason" vnull
    let p8 := objSetdefault p7 "merge_result" vnull
    let p9 := objSetdefault p8 "final_output" vnull
    let p10 := objSetdefault p9 "human_correction" vnull
    let p11 := objSetdefault p10 "metadata" (vobj [])
    let p12 := objSetdefault p11 "needs_review" (vbool false)
    match normalizeHumanCorrection p12 now with
    | Except.error e => Except.error e
    | Except.ok hc => Except.ok (objSet p12 "human_correction" hc)

/-- `AuditLogger._mask_llm_fields`. -/
def maskLlmFields (payload : List (String × PyVal)) : List (String × PyVal) :=
  let m1 := objSet payload "llm_request"
    (maskValue ((lookup payload "llm_request").getD vnull))
  objSet m1 "llm_response" (maskValue ((lookup m1 "llm_response").getD vnull))

/-- The payload pipeline of `AuditLogger.write_event`: build the event
payload and mask the LLM fields when `mask_sensitive` is set; the JSONL
append is I/O and is not modelled. -/
def writeEventPayload (event : List (String × PyVal)) (maskSensitive : Bool)
    (now : String) : Except String (List (String × PyVal)) :=
  match toEventPayload event now with
  | Except.error e => Except.error e
  | Except.ok payload =>
      Except.ok (if maskSensitive then maskLlmFields payload else payload)

/-- A concrete audit event: a sensitive key and an email-looking string
inside `llm_request`, and the same email-looking string outside it. -/
def exAuditEvent : List (String × PyVal) :=
  [("order_id", vstr "o-1"), ("event_type", vstr "llm_parse"),
   ("raw_text", vstr "user@example.com"),
   ("llm_request", vobj [("api_key", vstr "k"), ("prompt", vstr "user@example.com")]),
   ("llm_response", vstr "ok")]

/-- The masked payload `write_event` persists for `exAuditEvent`. -/
def exAuditOut : List (String × PyVal) :=
  [("order_id", vstr "o-1"), ("event_type", vstr "llm_parse"),
   ("raw_text", vstr "user@example.com"),
   ("llm_request", vobj [("api_key", vstr "***"), ("prompt", vstr "***")]),
   ("llm_response", vstr "ok"),
   ("timestamp", vstr "2026-01-01T00:00:00+00:00"), ("parse_result", vnull),
   ("candidates", vnull), ("fallback_reason", vnull), ("merge_result", vnull),
   ("final_output", vnull), ("human_correction", vnull), ("metadata", vobj []),
   ("needs_review", vbool false)]

end Audit

/-- A concrete receipt text exercising item lines, a separator, a phone
line, a standalone note, a datetime line, quantities, parenthetical and
keyword notes, a blank line, and a total line. -/
def exReceiptText : String :=
  "招牌奶茶 x2\r\n-----\n電話: 02-12345678\n備註: 少冰\n12:30\n* 漢堡 (加蛋) 2份 120元\n備註:辣\n\n總計 240"

-- ===================== THEOREMS =====================

namespace MergeValidate

theorem copyRawLine_eq (line : RawLine) : copyRawLine line = line := rfl

theorem findCandidateByCode_spec (cands : List CandidateItem) (oc : Option String)
    (cand : CandidateItem) (h : findCandidateByCode cands oc = some cand) :
    cand ∈ cands ∧ cand.candidate_code = oc := by
  match oc with
  | none => simp [findCandidateByCode] at h
  | some code =>
      simp only [findCandidateByCode] at h
      split at h
      · exact absurd h (by simp)
      · refine ⟨List.mem_of_find?_eq_some h, ?_⟩
        have := List.find?_some h
        simpa using this

theorem claimIndices_occ (cleaned : List Int) : ∀ occupied : List Int,
    (claimIndices occupied cleaned).1 = occupied ++ (claimIndices occupied cleaned).2.1 := by
  induction cleaned with
  | nil => intro occ; simp [claimIndices]
  | cons li rest ih =>
      intro occ
      by_cases h : li ∈ occ
      · simp only [claimIndices, if_pos h]
        simpa using ih occ
      · simp only [claimIndices, if_neg h]
        have := ih (occ ++ [li])
        simpa using this

theorem claimIndices_disjoint (cleaned : List Int) : ∀ occupied : List Int,
    ∀ li ∈ (claimIndices occupied cleaned).2.1, li ∉ occupied := by
  induction cleaned with
  | nil => intro occ li h; simp [claimIndices] at h
  | cons x rest ih =>
      intro occ li h
      by_cases hx : x ∈ occ
      · simp only [claimIndices, if_pos hx] at h
        exact ih occ li h
      · simp only [claimIndices, if_neg hx] at h
        rcases List.mem_cons.mp h with rfl | h'
        · exact hx
        · intro hmem
          exact ih (occ ++ [x]) li h' (List.mem_append_left _ hmem)

theorem claimIndices_nodup (cleaned : List Int) : ∀ occupied : List Int,
    (claimIndices occupied cleaned).2.1.Nodup := by
  induction cleaned with
  | nil => intro occ; simp [claimIndices]
  | cons x rest ih =>
      intro occ
      by_cases hx : x ∈ occ
      · simp only [claimIndices, if_pos hx]
        exact ih occ
      · simp only [claimIndices, if_neg hx]
        refine List.nodup_cons.mpr ⟨?_, ih (occ ++ [x])⟩
        intro hmem
        exact claimIndices_disjoint rest (occ ++ [x]) x hmem
          (List.mem_append_right _ (List.mem_singleton.mpr rfl))

theorem claimIndices_sublist (cleaned : List Int) : ∀ occupied : List Int,
    (claimIndices occupied cleaned).2.1.Sublist cleaned := by
  induction cleaned with
  | nil => intro occ; simp [claimIndices]
  | cons x rest ih =>
      intro occ
      by_cases hx : x ∈ occ
      · simp only [claimIndices, if_pos hx]
        exact (ih occ).cons x
      · simp only [claimIndices, if_neg hx]
        exact (ih (occ ++ [x])).cons₂ x

theorem cleanIndicesAux_sublist (v : List Int) :
    ∀ (rest : List PyVal) (cleaned : List Int),
      ∃ s, (cleanIndicesAux v cleaned rest).1 = cleaned ++ s ∧
        s.Sublist (rest.filterMap PyVal.pyAsInt?) := by
  intro rest
  induction rest with
  | nil =>
      intro cleaned
      exact ⟨[], by simp [cleanIndicesAux], List.Sublist.refl _⟩
  | cons rawIdx rest ih =>
      intro cleaned
      cases hpi : rawIdx.pyAsInt? with
      | none =>
          obtain ⟨s, hs, hsub⟩ := ih cleaned
          refine ⟨s, ?_, ?_⟩
          · simp only [cleanIndicesAux, hpi]
            exact hs
          · rw [List.filterMap_cons_none hpi]
            exact hsub
      | some li =>
          by_cases hval : li ∈ v
          · by_cases hcl : li ∈ cleaned
            · obtain ⟨s, hs, hsub⟩ := ih cleaned
              refine ⟨s, ?_, ?_⟩
              · simp only [cleanIndicesAux, hpi, if_neg (not_not_intro hval), if_pos hcl]
                exact hs
              · rw [List.filterMap_cons_some hpi]
                exact hsub.cons li
            · obtain ⟨s, hs, hsub⟩ := ih (cleaned ++ [li])
              refine ⟨li :: s, ?_, ?_⟩
              · simp only [cleanIndicesAux, hpi, if_neg (not_not_intro hval), if_neg hcl]
                rw [hs, List.append_assoc, List.singleton_append]
              · rw [List.filterMap_cons_some hpi]
                exact hsub.cons₂ li
          · obtain ⟨s, hs, hsub⟩ := ih cleaned
            refine ⟨s, ?_, ?_⟩
            · simp only [cleanIndicesAux, hpi, if_pos hval]
              exact hs
            · rw [List.filterMap_cons_some hpi]
              exact hsub.cons li

theorem cleanIndices_sublist (v : List Int) (raws : List PyVal) :
    (cleanIndices v raws).1.Sublist (raws.filterMap PyVal.pyAsInt?) := by
  obtain ⟨s, hs, hsub⟩ := cleanIndicesAux_sublist v raws []
  simp only [cleanIndices]
  rw [hs]
  simpa using hsub

theorem mergeOneGroup_line_indices (v : List Int) (t : ℚ) (occ : List Int)
    (idx : Nat) (raw : PyVal) :
    (mergeOneGroup v t occ idx raw).1.line_indices =
      (claimIndices occ (cleanIndices v (match PyVal.read raw "line_indices" (vlist []) with
        | vlist xs => xs
        | _ => ([] : List PyVal))).1).2.1 := rfl

theorem mergeOneGroup_occ (v : List Int) (t : ℚ) (occ : List Int) (idx : Nat) (raw : PyVal) :
    (mergeOneGroup v t occ idx raw).2.1 = occ ++ (mergeOneGroup v t occ idx raw).1.line_indices := by
  have h1 : (mergeOneGroup v t occ idx raw).2.1 =
      (claimIndices occ (cleanIndices v (match PyVal.read raw "line_indices" (vlist []) with
        | vlist xs => xs
        | _ => ([] : List PyVal))).1).1 := rfl
  rw [h1, mergeOneGroup_line_indices, claimIndices_occ]

theorem mergeOneGroup_disjoint (v : List Int) (t : ℚ) (occ : List Int) (idx : Nat) (raw : PyVal) :
    ∀ li ∈ (mergeOneGroup v t occ idx raw).1.line_indices, li ∉ occ := by
  rw [mergeOneGroup_line_indices]
  exact claimIndices_disjoint _ occ

theorem mergeOneGroup_nodup (v : List Int) (t : ℚ) (occ : List Int) (idx : Nat) (raw : PyVal) :
    (mergeOneGroup v t occ idx raw).1.line_indices.Nodup := by
  rw [mergeOneGroup_line_indices]
  exact claimIndices_nodup _ occ

theorem mergeOneGroup_too_few (v : List Int) (t : ℚ) (occ : List Int) (idx : Nat) (raw : PyVal)
    (h : (mergeOneGroup v t occ idx raw).1.line_indices.length < 2) :
    (mergeOneGroup v t occ idx raw).1.needs_review = true := by
  have hrev : (mergeOneGroup v t occ idx raw).1.needs_review =
      ((PyVal.read raw "needs_review" (vbool false)).truthy ||
        _ || _ || _ || _ ||
        decide ((mergeOneGroup v t occ idx raw).1.line_indices.length < 2) || _ || _) := rfl
  rw [hrev, decide_eq_true h]
  simp

end MergeValidate

namespace MergeValidate

theorem mergeOneGroup_sublist (v : List Int) (t : ℚ) (occ : List Int)
    (idx : Nat) (raw : PyVal) :
    (mergeOneGroup v t occ idx raw).1.line_indices.Sublist (rawIndexInts raw) := by
  rw [mergeOneGroup_line_indices]
  exact (claimIndices_sublist _ occ).trans (cleanIndices_sublist v _)

theorem mergeGroupsAux_forall₂ (v : List Int) (t : ℚ) :
    ∀ (raws : List PyVal) (idx : Nat) (occ : List Int),
      List.Forall₂ (fun g raw =>
        g.line_indices.Sublist (rawIndexInts raw) ∧
        g.line_indices.Nodup ∧
        (g.line_indices.length < 2 → g.needs_review = true))
        (mergeGroupsAux v t raws idx occ).1 raws := by
  intro raws
  induction raws with
  | nil => intro idx occ; exact List.Forall₂.nil
  | cons raw rest ih =>
      intro idx occ
      exact List.Forall₂.cons
        ⟨mergeOneGroup_sublist v t occ idx raw, mergeOneGroup_nodup v t occ idx raw,
          mergeOneGroup_too_few v t occ idx raw⟩
        (ih (idx + 1) _)

theorem mergeGroups_forall₂ (rawGroups : PyVal) (v : List Int) (t : ℚ) :
    List.Forall₂ (fun g raw =>
      g.line_indices.Sublist (rawIndexInts raw) ∧
      g.line_indices.Nodup ∧
      (g.line_indices.length < 2 → g.needs_review = true))
      (mergeGroups rawGroups v t).1
      (match rawGroups with | vlist raws => raws | _ => []) := by
  match rawGroups with
  | vlist raws => exact mergeGroupsAux_forall₂ v t raws 0 []
  | vnull => exact List.Forall₂.nil
  | vbool b => exact List.Forall₂.nil
  | vint n => exact List.Forall₂.nil
  | vrat q => exact List.Forall₂.nil
  | vstr str => exact List.Forall₂.nil
  | vobj kvs => exact List.Forall₂.nil

theorem mergeGroupsAux_disjoint (v : List Int) (t : ℚ) :
    ∀ (raws : List PyVal) (idx : Nat) (occ : List Int),
      ∀ g ∈ (mergeGroupsAux v t raws idx occ).1, ∀ li ∈ g.line_indices, li ∉ occ := by
  intro raws
  induction raws with
  | nil => intro idx occ g hg; simp [mergeGroupsAux] at hg
  | cons raw rest ih =>
      intro idx occ g hg li hli
      simp only [mergeGroupsAux, List.mem_cons] at hg
      rcases hg with rfl | hg
      · exact mergeOneGroup_disjoint v t occ idx raw li hli
      · intro hmem
        have hocc := ih (idx + 1) (mergeOneGroup v t occ idx raw).2.1 g hg li hli
        rw [mergeOneGroup_occ] at hocc
        exact hocc (List.mem_append_left _ hmem)

theorem mergeGroupsAux_pairwise (v : List Int) (t : ℚ) :
    ∀ (raws : List PyVal) (idx : Nat) (occ : List Int),
      ((mergeGroupsAux v t raws idx occ).1).Pairwise
        (fun g1 g2 => ∀ li ∈ g1.line_indices, li ∉ g2.line_indices) := by
  intro raws
  induction raws with
  | nil => intro idx occ; simp [mergeGroupsAux]
  | cons raw rest ih =>
      intro idx occ
      simp only [mergeGroupsAux]
      refine List.pairwise_cons.mpr ⟨?_, ih (idx + 1) _⟩
      intro g2 hg2 li hli hli2
      have hocc := mergeGroupsAux_disjoint v t rest (idx + 1)
        (mergeOneGroup v t occ idx raw).2.1 g2 hg2 li hli2
      rw [mergeOneGroup_occ] at hocc
      exact hocc (List.mem_append_right _ hli)

theorem mergeGroupsAux_nodup (v : List Int) (t : ℚ) :
    ∀ (raws : List PyVal) (idx : Nat) (occ : List Int),
      ∀ g ∈ (mergeGroupsAux v t raws idx occ).1, g.line_indices.Nodup := by
  intro raws
  induction raws with
  | nil => intro idx occ g hg; simp [mergeGroupsAux] at hg
  | cons raw rest ih =>
      intro idx occ g hg
      simp only [mergeGroupsAux, List.mem_cons] at hg
      rcases hg with rfl | hg
      · exact mergeOneGroup_nodup v t occ idx raw
      · exact ih (idx + 1) _ g hg

theorem mergeGroupsAux_too_few (v : List Int) (t : ℚ) :
    ∀ (raws : List PyVal) (idx : Nat) (occ : List Int),
      ∀ g ∈ (mergeGroupsAux v t raws idx occ).1,
        g.line_indices.length < 2 → g.needs_review = true := by
  intro raws
  induction raws with
  | nil => intro idx occ g hg; simp [mergeGroupsAux] at hg
  | cons raw rest ih =>
      intro idx occ g hg hlen
      simp only [mergeGroupsAux, List.mem_cons] at hg
      rcases hg with rfl | hg
      · exact mergeOneGroup_too_few v t occ idx raw hlen
      · exact ih (idx + 1) _ g hg hlen

theorem mergeAndValidate_groups (orderRaw : OrderRawParsed) (candidates : CandidatesByLine)
    (structuredResult : PyVal) (menuCatalog : Option MenuCatalog)
    (allowedMods : Option (List PyVal)) (it mt gt : ℚ) :
    (mergeAndValidate orderRaw candidates structuredResult menuCatalog allowedMods it mt gt).groups =
      (mergeGroups ((PyVal.lookup (match structuredResult with
          | vobj kvs => kvs
          | _ => []) "groups").getD vnull)
        ((orderRaw.lines.map copyRawLine).foldl (fun acc line => addInt acc line.line_index) [])
        (normalizeThreshold gt)).1 := rfl

theorem mergeGroups_pairwise (rawGroups : PyVal) (v : List Int) (t : ℚ) :
    ((mergeGroups rawGroups v t).1).Pairwise
      (fun g1 g2 => ∀ li ∈ g1.line_indices, li ∉ g2.line_indices) := by
  match rawGroups with
  | vlist raws => exact mergeGroupsAux_pairwise v t raws 0 []
  | vnull => simp [mergeGroups]
  | vbool b => simp [mergeGroups]
  | vint n => simp [mergeGroups]
  | vrat q => simp [mergeGroups]
  | vstr s => simp [mergeGroups]
  | vobj kvs => simp [mergeGroups]

end MergeValidate

open MergeValidate

/-- C2: no two groups returned by `merge_and_validate` share a line
index (first-wins conflict resolution). -/
theorem C2_no_two_groups_share_line_index (orderRaw : OrderRawParsed)
    (candidates : CandidatesByLine) (structuredResult : PyVal)
    (menuCatalog : Option MenuCatalog) (allowedMods : Option (List PyVal))
    (it mt gt : ℚ) (i j : Fin (mergeAndValidate orderRaw candidates structuredResult
      menuCatalog allowedMods it mt gt).groups.length)
    (hne : i.val ≠ j.val) (li : Int)
    (hmem : li ∈ ((mergeAndValidate orderRaw candidates structuredResult
      menuCatalog allowedMods it mt gt).groups.get i).line_indices) :
    li ∉ ((mergeAndValidate orderRaw candidates structuredResult
      menuCatalog allowedMods it mt gt).groups.get j).line_indices := by
  have hpw : ((mergeAndValidate orderRaw candidates structuredResult menuCatalog
      allowedMods it mt gt).groups).Pairwise
      (fun g1 g2 => ∀ li ∈ g1.line_indices, li ∉ g2.line_indices) :=
    mergeGroups_pairwise _ _ _
  rw [List.pairwise_iff_get] at hpw
  rcases lt_or_gt_of_ne hne with hlt | hgt
  · exact hpw i j hlt li hmem
  · intro hmem2
    exact hpw j i hgt li hmem2 hmem

namespace MergeValidate

theorem mergeGroups_nodup (rawGroups : PyVal) (v : List Int) (t : ℚ) :
    ∀ g ∈ (mergeGroups rawGroups v t).1, g.line_indices.Nodup := by
  match rawGroups with
  | vlist raws => exact mergeGroupsAux_nodup v t raws 0 []
  | vnull => simp [mergeGroups]
  | vbool b => simp [mergeGroups]
  | vint n => simp [mergeGroups]
  | vrat q => simp [mergeGroups]
  | vstr s => simp [mergeGroups]
  | vobj kvs => simp [mergeGroups]

theorem mergeGroups_too_few (rawGroups : PyVal) (v : List Int) (t : ℚ) :
    ∀ g ∈ (mergeGroups rawGroups v t).1,
      g.line_indices.length < 2 → g.needs_review = true := by
  match rawGroups with
  | vlist raws => exact mergeGroupsAux_too_few v t raws 0 []
  | vnull => simp [mergeGroups]
  | vbool b => simp [mergeGroups]
  | vint n => simp [mergeGroups]
  | vrat q => simp [mergeGroups]
  | vstr s => simp [mergeGroups]
  | vobj kvs => simp [mergeGroups]

end MergeValidate

/-- C3 (amended): `merge_and_validate` emits exactly one group per LLM
payload group — a group left with fewer than two indices is kept in the
output, flagged `needs_review`, not dropped — and every group's
`line_indices` is a duplicate-free subsequence of the integer indices of
that payload group, in the order the payload listed them (never
re-sorted). -/
theorem C3_group_line_indices_shape (orderRaw : OrderRawParsed)
    (candidates : CandidatesByLine) (structuredResult : PyVal)
    (menuCatalog : Option MenuCatalog) (allowedMods : Option (List PyVal))
    (it mt gt : ℚ) :
    (mergeAndValidate orderRaw candidates structuredResult
        menuCatalog allowedMods it mt gt).groups.length =
      (groupsList structuredResult).length ∧
    List.Forall₂ (fun g raw =>
      g.line_indices.Sublist (rawIndexInts raw) ∧
      g.line_indices.Nodup ∧
      (g.line_indices.length < 2 → g.needs_review = true))
      (mergeAndValidate orderRaw candidates structuredResult
        menuCatalog allowedMods it mt gt).groups
      (groupsList structuredResult) := by
  have h : List.Forall₂ (fun g raw =>
      g.line_indices.Sublist (rawIndexInts raw) ∧
      g.line_indices.Nodup ∧
      (g.line_indices.length < 2 → g.needs_review = true))
      (mergeAndValidate orderRaw candidates structuredResult
        menuCatalog allowedMods it mt gt).groups
      (groupsList structuredResult) := by
    rw [mergeAndValidate_groups]
    exact mergeGroups_forall₂ _ _ _
  exact ⟨h.length_eq, h⟩

/-- C4: `overall_needs_review` is exactly the disjunction of the raw
order's flag, any item flag, and any group flag. -/
theorem C4_overall_needs_review (orderRaw : OrderRawParsed)
    (candidates : CandidatesByLine) (structuredResult : PyVal)
    (menuCatalog : Option MenuCatalog) (allowedMods : Option (List PyVal))
    (it mt gt : ℚ) :
    (mergeAndValidate orderRaw candidates structuredResult
      menuCatalog allowedMods it mt gt).overall_needs_review =
      (orderRaw.needs_review ||
        (mergeAndValidate orderRaw candidates structuredResult
          menuCatalog allowedMods it mt gt).items.any (·.needs_review) ||
        (mergeAndValidate orderRaw candidates structuredResult
          menuCatalog allowedMods it mt gt).groups.any (·.needs_review)) := rfl

namespace MergeValidate

theorem codeStageCatalog_some (ids : List String) (li : Int) (st : CodeStep) (code : String)
    (h : (codeStageCatalog ids li st).itemCode = some code) :
    st.itemCode = some code ∧ code ∈ ids := by
  obtain ⟨ic, sel, rev, fr, ev⟩ := st
  cases ic with
  | none =>
      simp only [codeStageCatalog] at h
      exact Option.noConfusion h
  | some c =>
      simp only [codeStageCatalog] at h
      split at h
      next hmem =>
        simp only at h
        exact ⟨h, by cases h; exact hmem⟩
      next =>
        simp only at h
        exact Option.noConfusion h

theorem codeStageLine_some (cands : List CandidateItem) (li : Int) (st : CodeStep)
    (code : String) (h : (codeStageLine cands li st).itemCode = some code) :
    st.itemCode = some code ∧
      ∃ cand ∈ cands, cand.candidate_code = some code := by
  obtain ⟨ic, sel, rev, fr, ev⟩ := st
  cases ic with
  | none =>
      simp only [codeStageLine] at h
      exact Option.noConfusion h
  | some c =>
      simp only [codeStageLine] at h
      split at h
      next cand hf =>
        simp only at h
        have hspec := findCandidateByCode_spec cands (some c) cand hf
        cases h
        exact ⟨rfl, cand, hspec.1, hspec.2⟩
      next hf =>
        simp only at h
        exact Option.noConfusion h

theorem codeStageFallback_some (primary : Option CandidateItem) (ids : List String)
    (li : Int) (st : CodeStep) (code : String)
    (h : (codeStageFallback primary ids li st).itemCode = some code) :
    st.itemCode = some code ∨
      (∃ cand, primary = some cand ∧ cand.candidate_code = some code ∧ code ∈ ids) := by
  obtain ⟨ic, sel, rev, fr, ev⟩ := st
  cases ic with
  | some c =>
      cases primary with
      | none => exact Or.inl (by simpa [codeStageFallback] using h)
      | some cand => exact Or.inl (by simpa [codeStageFallback] using h)
  | none =>
      cases primary with
      | none =>
          simp only [codeStageFallback] at h
          exact Option.noConfusion h
      | some cand =>
          simp only [codeStageFallback] at h
          split at h
          next ccode hcc =>
              split at h
              next hif =>
                have h2 : some ccode = some code := h
                have hcode : ccode = code := by injection h2
                subst hcode
                exact Or.inr ⟨cand, rfl, hcc, hif.2⟩
              next hif => exact Option.noConfusion h
          next hcc => exact Option.noConfusion h

theorem codeStep_some (llmItem : Option PyVal) (cands : List CandidateItem)
    (ids : List String) (li : Int) (code : String)
    (h : (codeStep llmItem cands ids li).itemCode = some code) :
    code ∈ ids ∧ ∃ cand ∈ cands, cand.candidate_code = some code := by
  unfold codeStep at h
  rcases codeStageFallback_some _ _ _ _ _ h with h2 | ⟨cand, hp, hcode, hin⟩
  · obtain ⟨h3, cand, hmem, hcc⟩ := codeStageLine_some _ _ _ _ h2
    obtain ⟨_, hids⟩ := codeStageCatalog_some _ _ _ _ h3
    exact ⟨hids, cand, hmem, hcc⟩
  · refine ⟨hin, cand, ?_, hcode⟩
    match cands, hp with
    | c :: rest, hp => exact (by injection hp : c = cand) ▸ List.mem_cons_self c rest

theorem mergeOneItem_item_code (line : RawLine) (llmItem : Option PyVal)
    (cands : List CandidateItem) (ids : List String) (it mt : ℚ) :
    (mergeOneItem line llmItem cands ids it mt).1.item_code =
      (codeStep llmItem cands ids line.line_index).itemCode := rfl

theorem mergeOneItem_line_index (line : RawLine) (llmItem : Option PyVal)
    (cands : List CandidateItem) (ids : List String) (it mt : ℚ) :
    (mergeOneItem line llmItem cands ids it mt).1.line_index = line.line_index := rfl

theorem mergeItemsAux_mem (candidates : CandidatesByLine) (ids : List String)
    (llmItems : List (Int × PyVal)) (it mt : ℚ) :
    ∀ (lines : List RawLine) (item : NormalizedItem),
      item ∈ (mergeItemsAux candidates ids llmItems it mt lines).1 →
      ∃ line ∈ lines,
        item = (mergeOneItem line (llmItems.lookup line.line_index)
          (candidatesGet candidates line.line_index) ids it mt).1 := by
  intro lines
  induction lines with
  | nil => intro item h; simp [mergeItemsAux] at h
  | cons line rest ih =>
      intro item h
      simp only [mergeItemsAux, List.mem_cons] at h
      rcases h with rfl | h
      · exact ⟨line, List.mem_cons_self line rest, rfl⟩
      · obtain ⟨l, hl, heq⟩ := ih item h
        exact ⟨l, List.mem_cons_of_mem line hl, heq⟩

end MergeValidate

/-- C1: every normalized item's `item_code` is either null or a catalog
id matching the `candidate_code` of one of that line's candidates. -/
theorem C1_item_code_valid (orderRaw : OrderRawParsed)
    (candidates : CandidatesByLine) (structuredResult : PyVal)
    (menuCatalog : Option MenuCatalog) (allowedMods : Option (List PyVal))
    (it mt gt : ℚ) (item : NormalizedItem)
    (hitem : item ∈ (mergeAndValidate orderRaw candidates structuredResult
      menuCatalog allowedMods it mt gt).items) :
    item.item_code = none ∨
      ∃ code, item.item_code = some code ∧
        code ∈ MergeValidate.catalogIds menuCatalog candidates ∧
        ∃ cand ∈ candidatesGet candidates item.line_index,
          cand.candidate_code = some code := by
  obtain ⟨line, hline, heq⟩ := MergeValidate.mergeItemsAux_mem _ _ _ _ _ _ item hitem
  rw [heq, MergeValidate.mergeOneItem_line_index, MergeValidate.mergeOneItem_item_code]
  match hcode : (MergeValidate.codeStep _ (candidatesGet candidates line.line_index)
      (MergeValidate.catalogIds menuCatalog candidates) line.line_index).itemCode with
  | none => exact Or.inl rfl
  | some code =>
      obtain ⟨hids, cand, hc, hcc⟩ := MergeValidate.codeStep_some _ _ _ _ _ hcode
      exact Or.inr ⟨code, rfl, hids, cand, hc, hcc⟩

namespace MergeValidate

theorem strictInt?_some (v : PyVal) (n : Int) (h : v.strictInt? = some n) : v = vint n := by
  cases v <;> simp [PyVal.strictInt?] at h
  exact congrArg vint h

theorem qtyStep_bool (line : RawLine) (item : PyVal) (b : Bool)
    (hq : PyVal.read item "qty" vnull = vbool b) :
    (qtyStep line (some item)).qty = line.qty ∧
      (qtyStep line (some item)).review = true ∧
      ∃ e ∈ (qtyStep line (some item)).events,
        e.event_type = "qty_invalid" ∧ e.line_index = some line.line_index := by
  refine ⟨?_, ?_, ?_⟩
  · simp only [qtyStep, hq, PyVal.strictInt?]
    split <;> rfl
  · simp only [qtyStep, hq, PyVal.strictInt?]
    split <;> rfl
  · simp only [qtyStep, hq, PyVal.strictInt?]
    split
    · refine ⟨audit "qty_invalid" "LLM qty is not an integer; raw qty is kept"
        (some line.line_index) [("qty", vbool b)], ?_, rfl, rfl⟩
      exact List.mem_append_left _ (by simp)
    · refine ⟨audit "qty_invalid" "LLM qty is not an integer; raw qty is kept"
        (some line.line_index) [("qty", vbool b)], ?_, rfl, rfl⟩
      simp

theorem qtyStep_changed (line : RawLine) (llmItem : Option PyVal)
    (h : (qtyStep line llmItem).qty ≠ line.qty) :
    ∃ item, llmItem = some item ∧
      ∃ n : Int, PyVal.read item "qty" vnull = vint n ∧ 0 < n ∧
        (qtyStep line llmItem).qty = n := by
  match llmItem with
  | none =>
      exfalso
      apply h
      simp only [qtyStep]
      split <;> rfl
  | some item =>
      refine ⟨item, rfl, ?_⟩
      cases hs : (PyVal.read item "qty" vnull).strictInt? with
      | some n =>
          by_cases hpos : n > 0
          · refine ⟨n, strictInt?_some _ _ hs, hpos, ?_⟩
            simp only [qtyStep, hs, if_pos hpos]
            split
            next hle => exact absurd hle (by omega)
            next => rfl
          · exfalso
            apply h
            simp only [qtyStep, hs, if_neg hpos]
            split <;> rfl
      | none =>
          exfalso
          apply h
          simp only [qtyStep, hs]
          split <;> split <;> rfl

end MergeValidate

namespace MergeValidate

theorem mergeOneItem_qty (line : RawLine) (llmItem : Option PyVal)
    (cands : List CandidateItem) (ids : List String) (it mt : ℚ) :
    (mergeOneItem line llmItem cands ids it mt).1.qty = (qtyStep line llmItem).qty := rfl

theorem mergeOneItem_needs_review_of_qty (line : RawLine) (llmItem : Option PyVal)
    (cands : List CandidateItem) (ids : List String) (it mt : ℚ)
    (h : (qtyStep line llmItem).review = true) :
    (mergeOneItem line llmItem cands ids it mt).1.needs_review = true := by
  have hrev : (mergeOneItem line llmItem cands ids it mt).1.needs_review =
      (line.needs_review || (qtyStep line llmItem).review || _ || _ || _ || _ || _ || _ || _) := rfl
  rw [hrev, h]
  simp

theorem mergeOneItem_qty_events (line : RawLine) (llmItem : Option PyVal)
    (cands : List CandidateItem) (ids : List String) (it mt : ℚ)
    (e : AuditEvent) (h : e ∈ (qtyStep line llmItem).events) :
    e ∈ (mergeOneItem line llmItem cands ids it mt).2 := by
  have hev : (mergeOneItem line llmItem cands ids it mt).2 =
      (qtyStep line llmItem).events ++ _ ++ _ ++ _ := rfl
  rw [hev]
  exact List.mem_append_left _ (List.mem_append_left _ (List.mem_append_left _ h))

end MergeValidate

/-- C10: a boolean LLM `qty` (a Python `bool` is an `int`) is never
accepted: the raw qty is kept, the item is flagged for review with a
`qty_invalid` audit event, and only a genuine positive integer ever
replaces the parser's raw qty. -/
theorem C10_bool_qty_rejected (line : RawLine) (llmItem : Option PyVal)
    (cands : List CandidateItem) (ids : List String) (it mt : ℚ) :
    (∀ item b, llmItem = some item →
      PyVal.read item "qty" PyVal.vnull = PyVal.vbool b →
      ((MergeValidate.mergeOneItem line llmItem cands ids it mt).1.qty = line.qty ∧
       (MergeValidate.mergeOneItem line llmItem cands ids it mt).1.needs_review = true ∧
       ∃ e ∈ (MergeValidate.mergeOneItem line llmItem cands ids it mt).2,
         e.event_type = "qty_invalid" ∧ e.line_index = some line.line_index)) ∧
    ((MergeValidate.mergeOneItem line llmItem cands ids it mt).1.qty ≠ line.qty →
      ∃ item, llmItem = some item ∧
        ∃ n : Int, PyVal.read item "qty" PyVal.vnull = PyVal.vint n ∧ 0 < n ∧
          (MergeValidate.mergeOneItem line llmItem cands ids it mt).1.qty = n) := by
  constructor
  · intro item b hitem hq
    subst hitem
    obtain ⟨hqty, hrev, e, hmem, he⟩ := MergeValidate.qtyStep_bool line item b hq
    refine ⟨?_, ?_, ?_⟩
    · rw [MergeValidate.mergeOneItem_qty]; exact hqty
    · exact MergeValidate.mergeOneItem_needs_review_of_qty _ _ _ _ _ _ hrev
    · exact ⟨e, MergeValidate.mergeOneItem_qty_events _ _ _ _ _ _ e hmem, he⟩
  · intro hne
    rw [MergeValidate.mergeOneItem_qty] at hne
    obtain ⟨item, hitem, n, hn, hpos, hqty⟩ := MergeValidate.qtyStep_changed line llmItem hne
    exact ⟨item, hitem, n, hn, hpos, by rw [MergeValidate.mergeOneItem_qty]; exact hqty⟩

/-- Witness for C1 at a concrete call (the first item's code fell back to
the top candidate `I001`, which is in the derived catalog set). -/
theorem C1_item_code_valid_witness :
    (exMerged.items.get ⟨0, by decide⟩).item_code = none ∨
      ∃ code, (exMerged.items.get ⟨0, by decide⟩).item_code = some code ∧
        code ∈ MergeValidate.catalogIds none exCands ∧
        ∃ cand ∈ candidatesGet exCands (exMerged.items.get ⟨0, by decide⟩).line_index,
          cand.candidate_code = some code :=
  C1_item_code_valid exOrderRaw exCands exStructured none none
    ((85 : ℚ) / 100) ((85 : ℚ) / 100) ((85 : ℚ) / 100) _ (List.get_mem _ _ _)

/-- Witness for C2 at a concrete call: line 1 belongs to the first group,
so it is absent from the second. -/
theorem C2_no_two_groups_share_line_index_witness :
    (1 : Int) ∉ (exMerged.groups.get ⟨1, by decide⟩).line_indices :=
  C2_no_two_groups_share_line_index exOrderRaw exCands exStructured none none
    ((85 : ℚ) / 100) ((85 : ℚ) / 100) ((85 : ℚ) / 100) ⟨0, by decide⟩ ⟨1, by decide⟩
    (by decide) 1 (by decide)

/-- Counterexample for C3 as stated: at this concrete call the first
emitted group's `line_indices` is `[1, 0]` (not sorted ascending) and the
second group is kept with no indices at all (length 0 < 2). -/
theorem C3_group_line_indices_counterexample :
    ¬ (∀ g ∈ exMerged.groups,
      g.line_indices.Sorted (· ≤ ·) ∧ g.line_indices.Nodup ∧
        2 ≤ g.line_indices.length) := by
  intro h
  have h0 := h (exMerged.groups.get ⟨0, by decide⟩) (List.get_mem _ _ _)
  have heq : (exMerged.groups.get ⟨0, by decide⟩).line_indices = [1, 0] := by decide
  have hs := h0.1
  rw [heq] at hs
  exact (by decide : ¬ ([1, 0] : List Int).Sorted (· ≤ ·)) hs

/-- Witness for C10 at a concrete call: the boolean qty is rejected, the
raw qty 1 is kept and a `qty_invalid` event is appended. -/
theorem C10_bool_qty_rejected_witness :
    ((MergeValidate.mergeOneItem exLine0 (some exBoolQtyItem) [] []
        ((85 : ℚ) / 100) ((85 : ℚ) / 100)).1.qty = exLine0.qty ∧
     (MergeValidate.mergeOneItem exLine0 (some exBoolQtyItem) [] []
        ((85 : ℚ) / 100) ((85 : ℚ) / 100)).1.needs_review = true ∧
     ∃ e ∈ (MergeValidate.mergeOneItem exLine0 (some exBoolQtyItem) [] []
        ((85 : ℚ) / 100) ((85 : ℚ) / 100)).2,
       e.event_type = "qty_invalid" ∧ e.line_index = some exLine0.line_index) :=
  (C10_bool_qty_rejected exLine0 (some exBoolQtyItem) [] []
    ((85 : ℚ) / 100) ((85 : ℚ) / 100)).1 exBoolQtyItem true rfl rfl
namespace Cache

theorem insertLe_perm {α : Type} (le : α → α → Bool) (x : α) :
    ∀ l : List α, List.Perm (insertLe le x l) (x :: l) := by
  intro l
  induction l with
  | nil => simp [insertLe]
  | cons y ys ih =>
      simp only [insertLe]
      split
      · exact List.Perm.refl _
      · exact (ih.cons y).trans (List.Perm.swap x y ys)

theorem sortByBool_perm {α : Type} (le : α → α → Bool) :
    ∀ l : List α, List.Perm (sortByBool le l) l := by
  intro l
  induction l with
  | nil => exact List.Perm.refl _
  | cons x xs ih => exact (insertLe_perm le x (sortByBool le xs)).trans (ih.cons x)

theorem insertLe_sorted {α : Type} (le : α → α → Bool)
    (htot : ∀ a b, le a b = true ∨ le b a = true)
    (htrans : ∀ a b c, le a b = true → le b c = true → le a c = true)
    (x : α) : ∀ l : List α, List.Pairwise (fun a b => le a b = true) l →
      List.Pairwise (fun a b => le a b = true) (insertLe le x l) := by
  intro l
  induction l with
  | nil => intro _; simp [insertLe]
  | cons y ys ih =>
      intro hp
      rw [List.pairwise_cons] at hp
      simp only [insertLe]
      split
      next hxy =>
        refine List.pairwise_cons.mpr ⟨?_, List.pairwise_cons.mpr hp⟩
        intro z hz
        rcases List.mem_cons.mp hz with rfl | hz
        · exact hxy
        · exact htrans x y z hxy (hp.1 z hz)
      next hxy =>
        have hyx : le y x = true := by
          rcases htot x y with h | h
          · exact absurd h hxy
          · exact h
        refine List.pairwise_cons.mpr ⟨?_, ih hp.2⟩
        intro z hz
        have := (insertLe_perm le x ys).mem_iff.mp hz
        rcases List.mem_cons.mp this with rfl | hz'
        · exact hyx
        · exact hp.1 z hz'

theorem sortByBool_sorted {α : Type} (le : α → α → Bool)
    (htot : ∀ a b, le a b = true ∨ le b a = true)
    (htrans : ∀ a b c, le a b = true → le b c = true → le a c = true) :
    ∀ l : List α, List.Pairwise (fun a b => le a b = true) (sortByBool le l) := by
  intro l
  induction l with
  | nil => simp [sortByBool]
  | cons x xs ih => exact insertLe_sorted le htot htrans x _ ih

theorem sortByBool_of_sorted {α : Type} (le : α → α → Bool) :
    ∀ l : List α, List.Pairwise (fun a b => le a b = true) l → sortByBool le l = l := by
  intro l
  induction l with
  | nil => intro _; rfl
  | cons x xs ih =>
      intro hp
      rw [List.pairwise_cons] at hp
      simp only [sortByBool, ih hp.2]
      cases xs with
      | nil => rfl
      | cons y ys =>
          simp only [insertLe]
          rw [if_pos (hp.1 y (List.mem_cons_self y ys))]

theorem sorted_perm_eq {α : Type} (le : α → α → Bool) :
    ∀ l1 l2 : List α, List.Perm l1 l2 →
      List.Pairwise (fun a b => le a b = true) l1 →
      List.Pairwise (fun a b => le a b = true) l2 →
      (∀ a ∈ l1, ∀ b ∈ l1, le a b = true → le b a = true → a = b) →
      l1 = l2 := by
  intro l1
  induction l1 with
  | nil => intro l2 hperm _ _ _; exact (hperm.nil_eq).symm ▸ rfl
  | cons a t1 ih =>
      intro l2 hperm hp1 hp2 hties
      cases l2 with
      | nil => exact absurd hperm.symm.nil_eq (by simp)
      | cons b t2 =>
          have hab : a = b := by
            have ha2 : a ∈ b :: t2 := hperm.mem_iff.mp (List.mem_cons_self a t1)
            rcases List.mem_cons.mp ha2 with h | ha2'
            · exact h
            · have hb1 : b ∈ a :: t1 := hperm.symm.mem_iff.mp (List.mem_cons_self b t2)
              rcases List.mem_cons.mp hb1 with h | hb1'
              · exact h.symm
              · have h1 : le a b = true := (List.pairwise_cons.mp hp1).1 b hb1'
                have h2 : le b a = true := (List.pairwise_cons.mp hp2).1 a ha2'
                exact hties a (List.mem_cons_self a t1) b (List.mem_cons_of_mem a hb1') h1 h2
          subst hab
          have hperm' : List.Perm t1 t2 := hperm.cons_inv
          have ht : t1 = t2 := by
            refine ih t2 hperm' (List.pairwise_cons.mp hp1).2 (List.pairwise_cons.mp hp2).2 ?_
            intro x hx y hy
            exact hties x (List.mem_cons_of_mem a hx) y (List.mem_cons_of_mem a hy)
          rw [ht]

theorem sortByBool_perm_eq {α : Type} (le : α → α → Bool)
    (htot : ∀ a b, le a b = true ∨ le b a = true)
    (htrans : ∀ a b c, le a b = true → le b c = true → le a c = true)
    (l1 l2 : List α) (hperm : List.Perm l1 l2)
    (hties : ∀ a ∈ l1, ∀ b ∈ l1, le a b = true → le b a = true → a = b) :
    sortByBool le l1 = sortByBool le l2 := by
  refine sorted_perm_eq le _ _ ?_ (sortByBool_sorted le htot htrans l1)
    (sortByBool_sorted le htot htrans l2) ?_
  · exact (sortByBool_perm le l1).trans (hperm.trans (sortByBool_perm le l2).symm)
  · intro a ha b hb
    exact hties a ((sortByBool_perm le l1).mem_iff.mp ha)
      b ((sortByBool_perm le l1).mem_iff.mp hb)

end Cache
namespace Cache

theorem head_dropWhile_false {p : Char → Bool} {l : List Char} {c : Char} {rest : List Char}
    (h : List.dropWhile p l = c :: rest) : p c = false := by
  induction l with
  | nil => simp [List.dropWhile] at h
  | cons d ds ih =>
      rw [List.dropWhile_cons] at h
      split at h
      · exact ih h
      · cases h
        simp_all

theorem stripChars_idem (cs : List Char) : stripChars (stripChars cs) = stripChars cs := by
  have hsufC : List.dropWhile isPySpace (List.dropWhile isPySpace cs).reverse <:+
      (List.dropWhile isPySpace cs).reverse := List.dropWhile_suffix _
  set A := List.dropWhile isPySpace cs with hA
  set C := List.dropWhile isPySpace A.reverse with hC
  have hBA : C.reverse <+: A := by
    obtain ⟨t, ht⟩ := hsufC
    exact ⟨t.reverse, by rw [← List.reverse_append, ht, List.reverse_reverse]⟩
  have h1 : List.dropWhile isPySpace C.reverse = C.reverse := by
    cases hc : C.reverse with
    | nil => rfl
    | cons c rest =>
        obtain ⟨t, ht⟩ := hBA
        rw [hc] at ht
        have hhead : A = c :: (rest ++ t) := by rw [← ht]; rfl
        have hcf : isPySpace c = false := head_dropWhile_false (hA ▸ hhead)
        rw [List.dropWhile_cons, hcf]
        simp
  have h2 : List.dropWhile isPySpace C = C := by
    cases hc : C with
    | nil => rfl
    | cons c rest =>
        have hcf : isPySpace c = false := head_dropWhile_false (hC ▸ hc)
        rw [List.dropWhile_cons, hcf]
        simp
  show ((List.dropWhile isPySpace C.reverse).reverse.dropWhile isPySpace).reverse = C.reverse
  rw [h1, List.reverse_reverse, h2]

theorem pyStrip_idem (s : String) : pyStrip (pyStrip s) = pyStrip s := by
  unfold pyStrip
  rw [stripChars_idem]

end Cache

namespace Cache

theorem char_toNat_inj {c d : Char} (h : c.toNat = d.toNat) : c = d := by
  have h2 : Char.ofNat c.toNat = Char.ofNat d.toNat := by rw [h]
  rwa [Char.ofNat_toNat, Char.ofNat_toNat] at h2

theorem charsLe_total : ∀ x y : List Char, charsLe x y = true ∨ charsLe y x = true := by
  intro x
  induction x with
  | nil => intro y; exact Or.inl rfl
  | cons a as ih =>
      intro y
      cases y with
      | nil => exact Or.inr rfl
      | cons b bs =>
          simp only [charsLe]
          rcases Nat.lt_trichotomy a.toNat b.toNat with h | h | h
          · left; rw [if_pos h]
          · rw [if_neg (by omega), if_neg (by omega), if_neg (by omega), if_neg (by omega)]
            exact ih bs
          · right; rw [if_pos h]

theorem charsLe_trans : ∀ x y z : List Char, charsLe x y = true → charsLe y z = true →
    charsLe x z = true := by
  intro x
  induction x with
  | nil => intro y z _ _; rfl
  | cons a as ih =>
      intro y z hxy hyz
      cases y with
      | nil => exact Bool.noConfusion hxy
      | cons b bs =>
          cases z with
          | nil => exact Bool.noConfusion hyz
          | cons c cs =>
              simp only [charsLe] at hxy hyz ⊢
              split_ifs at hxy hyz ⊢ <;>
                first
                  | rfl
                  | (exfalso; omega)
                  | (exact Bool.noConfusion hxy)
                  | (exact Bool.noConfusion hyz)
                  | (exact ih bs cs hxy hyz)

theorem charsLe_antisymm : ∀ x y : List Char, charsLe x y = true → charsLe y x = true →
    x = y := by
  intro x
  induction x with
  | nil =>
      intro y _ hyx
      cases y with
      | nil => rfl
      | cons b bs => exact Bool.noConfusion hyx
  | cons a as ih =>
      intro y hxy hyx
      cases y with
      | nil => exact Bool.noConfusion hxy
      | cons b bs =>
          simp only [charsLe] at hxy hyx
          split_ifs at hxy hyx <;>
            first
              | (exfalso; omega)
              | (exact Bool.noConfusion hxy)
              | (exact Bool.noConfusion hyx)
              | (rw [char_toNat_inj (show a.toNat = b.toNat by omega), ih bs hxy hyx])

theorem keyLe_total (a b : String × CVal) : keyLe a b = true ∨ keyLe b a = true :=
  charsLe_total a.1.data b.1.data

theorem keyLe_trans (a b c : String × CVal) (h1 : keyLe a b = true) (h2 : keyLe b c = true) :
    keyLe a c = true :=
  charsLe_trans a.1.data b.1.data c.1.data h1 h2

theorem setKeyLe_total (a b : CVal) : setKeyLe a b = true ∨ setKeyLe b a = true :=
  charsLe_total _ _

theorem setKeyLe_trans (a b c : CVal) (h1 : setKeyLe a b = true) (h2 : setKeyLe b c = true) :
    setKeyLe a c = true :=
  charsLe_trans _ _ _ h1 h2

theorem normalizeList_eq_self (L : List CVal) (h : ∀ x ∈ L, normalizeValue x = x) :
    normalizeList L = L := by
  induction L with
  | nil => rfl
  | cons x xs ih =>
      simp only [normalizeList]
      rw [h x (List.mem_cons_self x xs), ih (fun y hy => h y (List.mem_cons_of_mem x hy))]

theorem normalizeFields_eq_self (L : List (String × CVal))
    (h : ∀ p ∈ L, normalizeValue p.2 = p.2) : normalizeFields L = L := by
  induction L with
  | nil => rfl
  | cons p ps ih =>
      obtain ⟨k, v⟩ := p
      simp only [normalizeFields]
      rw [show normalizeValue v = v from h (k, v) (List.mem_cons_self _ ps),
        ih (fun q hq => h q (List.mem_cons_of_mem _ hq))]

mutual
theorem normalizeValue_idem : ∀ v, normalizeValue (normalizeValue v) = normalizeValue v
  | CVal.cnull => rfl
  | CVal.cbool b => rfl
  | CVal.cint n => rfl
  | CVal.cstr s => by simp [normalizeValue, pyStrip_idem]
  | CVal.clist xs => by
      simp only [normalizeValue]
      rw [normalizeList_eq_self _ (normalizeList_idem_mem xs)]
  | CVal.ctup xs => by
      simp only [normalizeValue]
      rw [normalizeList_eq_self _ (normalizeList_idem_mem xs)]
  | CVal.cset xs => by
      simp only [normalizeValue]
      rw [normalizeList_eq_self]
      intro x hx
      exact normalizeList_idem_mem xs x ((sortByBool_perm setKeyLe _).mem_iff.mp hx)
  | CVal.cobj kvs => by
      simp only [normalizeValue]
      rw [normalizeFields_eq_self, sortByBool_of_sorted keyLe _
        (sortByBool_sorted keyLe keyLe_total keyLe_trans _)]
      intro p hp
      exact normalizeFields_idem_mem kvs p ((sortByBool_perm keyLe _).mem_iff.mp hp)

theorem normalizeList_idem_mem : ∀ xs, ∀ x ∈ normalizeList xs, normalizeValue x = x
  | [] => by intro x hx; simp [normalizeList] at hx
  | y :: ys => by
      intro x hx
      rcases List.mem_cons.mp (by simpa [normalizeList] using hx) with rfl | hx'
      · exact normalizeValue_idem y
      · exact normalizeList_idem_mem ys x hx'

theorem normalizeFields_idem_mem : ∀ kvs, ∀ p ∈ normalizeFields kvs, normalizeValue p.2 = p.2
  | [] => by intro p hp; simp [normalizeFields] at hp
  | (k, v) :: kvs => by
      intro p hp
      rcases List.mem_cons.mp (by simpa [normalizeFields] using hp) with rfl | hp'
      · exact normalizeValue_idem v
      · exact normalizeFields_idem_mem kvs p hp'
end

theorem normalizePayload_idem (p : List (String × CVal)) :
    normalizePayload (normalizePayload p) = normalizePayload p := by
  unfold normalizePayload
  rw [normalizeFields_eq_self, sortByBool_of_sorted keyLe _
    (sortByBool_sorted keyLe keyLe_total keyLe_trans _)]
  intro q hq
  exact normalizeFields_idem_mem p q ((sortByBool_perm keyLe _).mem_iff.mp hq)

end Cache

namespace Cache

theorem toNat_ofNat_small (n : Nat) (h : n < 55296) : (Char.ofNat n).toNat = n := by
  have hv : n.isValidChar := Or.inl h
  unfold Char.ofNat
  rw [dif_pos hv]
  rfl

theorem hexDigit_toNat (n : Nat) (h : n < 16) :
    (hexDigit n).toNat = if n < 10 then 48 + n else 87 + n := by
  unfold hexDigit
  split
  · exact toNat_ofNat_small _ (by omega)
  · exact toNat_ofNat_small _ (by omega)

theorem hexDigit_inj (a b : Nat) (ha : a < 16) (hb : b < 16)
    (h : hexDigit a = hexDigit b) : a = b := by
  have := congrArg Char.toNat h
  rw [hexDigit_toNat a ha, hexDigit_toNat b hb] at this
  split at this <;> split at this <;> omega

theorem natDigitsAux_all_digits :
    ∀ (fuel n : Nat), n < fuel → ∀ c ∈ natDigitsAux fuel n, isDigitCh c = true := by
  intro fuel
  induction fuel with
  | zero => intro n h; omega
  | succ fuel ih =>
      intro n hn c hc
      rw [natDigitsAux] at hc
      split at hc
      next h10 =>
        rcases List.mem_singleton.mp hc with rfl
        simp only [isDigitCh, toNat_ofNat_small (48 + n) (by omega)]
        simp only [Bool.and_eq_true, decide_eq_true_eq]
        omega
      next h10 =>
        rcases List.mem_append.mp hc with hc' | hc'
        · have hdiv : n / 10 < fuel := by
            have h1 : n / 10 < n := Nat.div_lt_self (by omega) (by omega)
            omega
          exact ih (n / 10) hdiv c hc'
        · rcases List.mem_singleton.mp hc' with rfl
          simp only [isDigitCh, toNat_ofNat_small (48 + n % 10) (by omega)]
          simp only [Bool.and_eq_true, decide_eq_true_eq]
          have := Nat.mod_lt n (show 0 < 10 by omega)
          omega

theorem natDigitsAux_ne_nil (fuel n : Nat) (h : 0 < fuel) : natDigitsAux fuel n ≠ [] := by
  cases fuel with
  | zero => omega
  | succ fuel =>
      rw [natDigitsAux]
      split
      · simp
      · simp

theorem digitsVal_append_singleton (A : List Char) (c : Char) :
    digitsVal (A ++ [c]) = 10 * digitsVal A + (c.toNat - 48) := by
  unfold digitsVal
  rw [List.foldl_append]
  rfl

theorem natDigitsAux_val : ∀ (fuel n : Nat), n < fuel → digitsVal (natDigitsAux fuel n) = n := by
  intro fuel
  induction fuel with
  | zero => intro n h; omega
  | succ fuel ih =>
      intro n hn
      rw [natDigitsAux]
      split
      next h10 =>
        show digitsVal [Char.ofNat (48 + n)] = n
        simp [digitsVal, toNat_ofNat_small (48 + n) (by omega)]
      next h10 =>
        rw [digitsVal_append_singleton]
        have hdiv : n / 10 < fuel := by
          have h1 : n / 10 < n := Nat.div_lt_self (by omega) (by omega)
          omega
        rw [ih (n / 10) hdiv, toNat_ofNat_small (48 + n % 10) (by omega)]
        omega

theorem natDigits_val (n : Nat) : digitsVal (natDigits n) = n :=
  natDigitsAux_val (n + 1) n (by omega)

theorem natDigits_inj (a b : Nat) (h : natDigits a = natDigits b) : a = b := by
  have := congrArg digitsVal h
  rwa [natDigits_val, natDigits_val] at this

theorem digits_split : ∀ (ds1 : List Char) (ds2 : List Char) (r1 r2 : List Char),
    (∀ c ∈ ds1, isDigitCh c = true) → (∀ c ∈ ds2, isDigitCh c = true) →
    (∀ c cs, r1 = c :: cs → isDigitCh c = false) →
    (∀ c cs, r2 = c :: cs → isDigitCh c = false) →
    ds1 ++ r1 = ds2 ++ r2 → ds1 = ds2 ∧ r1 = r2 := by
  intro ds1
  induction ds1 with
  | nil =>
      intro ds2 r1 r2 _ hd2 hb1 _ heq
      cases ds2 with
      | nil => exact ⟨rfl, heq⟩
      | cons d ds =>
          exfalso
          simp only [List.nil_append] at heq
          have hdig : isDigitCh d = true := hd2 d (List.mem_cons_self d ds)
          have hnd : isDigitCh d = false := hb1 d (ds ++ r2) heq
          rw [hdig] at hnd
          exact Bool.noConfusion hnd
  | cons c cs ih =>
      intro ds2 r1 r2 hd1 hd2 hb1 hb2 heq
      cases ds2 with
      | nil =>
          exfalso
          simp only [List.nil_append] at heq
          have hdig : isDigitCh c = true := hd1 c (List.mem_cons_self c cs)
          have hnd : isDigitCh c = false := hb2 c (cs ++ r1) heq.symm
          rw [hdig] at hnd
          exact Bool.noConfusion hnd
      | cons d ds =>
          simp only [List.cons_append, List.cons.injEq] at heq
          obtain ⟨rfl, heq'⟩ := heq
          obtain ⟨h1, h2⟩ := ih ds r1 r2
            (fun x hx => hd1 x (List.mem_cons_of_mem _ hx))
            (fun x hx => hd2 x (List.mem_cons_of_mem _ hx)) hb1 hb2 heq'
          exact ⟨by rw [h1], h2⟩

end Cache

namespace Cache

theorem natDigits_all_digits (n : Nat) : ∀ c ∈ natDigits n, isDigitCh c = true :=
  natDigitsAux_all_digits (n + 1) n (by omega)

theorem natDigits_ne_nil (n : Nat) : natDigits n ≠ [] :=
  natDigitsAux_ne_nil (n + 1) n (by omega)

theorem dumpBnd_not_digit {r : List Char} (h : DumpBnd r) :
    ∀ c cs, r = c :: cs → isDigitCh c = false := by
  intro c cs hr
  subst hr
  rcases h with h | h <;> subst h <;> rfl

theorem natDigits_split {n1 n2 : Nat} {r1 r2 : List Char}
    (heq : natDigits n1 ++ r1 = natDigits n2 ++ r2)
    (h1 : DumpBnd r1) (h2 : DumpBnd r2) : n1 = n2 ∧ r1 = r2 := by
  obtain ⟨hd, hr⟩ := digits_split (natDigits n1) (natDigits n2) r1 r2
    (natDigits_all_digits n1) (natDigits_all_digits n2)
    (dumpBnd_not_digit h1) (dumpBnd_not_digit h2) heq
  exact ⟨natDigits_inj _ _ hd, hr⟩

theorem intDigits_split {n1 n2 : Int} {r1 r2 : List Char}
    (heq : intDigits n1 ++ r1 = intDigits n2 ++ r2)
    (h1 : DumpBnd r1) (h2 : DumpBnd r2) : n1 = n2 ∧ r1 = r2 := by
  match n1, n2 with
  | Int.ofNat a, Int.ofNat b =>
      obtain ⟨hd, hr⟩ := @natDigits_split a b _ _ heq h1 h2
      exact ⟨by rw [hd], hr⟩
  | Int.ofNat a, Int.negSucc b =>
      exfalso
      simp only [intDigits] at heq
      rcases hna : natDigits a with _ | ⟨c, cs⟩
      · exact natDigits_ne_nil a hna
      · rw [hna] at heq
        have hc : isDigitCh c = true := natDigits_all_digits a c (by rw [hna]; exact List.mem_cons_self _ _)
        have : c = '-' := by
          have := congrArg (fun l => l.head?) heq
          simpa using this
        rw [this] at hc
        exact Bool.noConfusion hc
  | Int.negSucc a, Int.ofNat b =>
      exfalso
      simp only [intDigits] at heq
      rcases hnb : natDigits b with _ | ⟨c, cs⟩
      · exact natDigits_ne_nil b hnb
      · rw [hnb] at heq
        have hc : isDigitCh c = true := natDigits_all_digits b c (by rw [hnb]; exact List.mem_cons_self _ _)
        have : c = '-' := by
          have := congrArg (fun l => l.head?) heq
          simpa using this.symm
        rw [this] at hc
        exact Bool.noConfusion hc
  | Int.negSucc a, Int.negSucc b =>
      simp only [intDigits, List.cons_append, List.cons.injEq, true_and] at heq
      obtain ⟨hd, hr⟩ := @natDigits_split (a + 1) (b + 1) _ _ heq h1 h2
      exact ⟨by rw [show a = b by omega], hr⟩

end Cache

namespace Cache

set_option maxHeartbeats 2000000 in
theorem escapeChar_append_inj {c d : Char} {x y : List Char}
    (h : escapeChar c ++ x = escapeChar d ++ y) : c = d ∧ x = y := by
  unfold escapeChar at h
  split_ifs at h <;> simp_all
  all_goals try exact absurd h.1.symm (by assumption)
  all_goals
    (have e1 := hexDigit_inj _ _ (by omega) (by omega) h.1
     have e2 := hexDigit_inj _ _ (by omega) (by omega) h.2.1
     exact char_toNat_inj (by omega))

theorem escapeChar_head_ne_quote (d : Char) :
    ∃ h t, escapeChar d = h :: t ∧ ¬ h = '"' := by
  unfold escapeChar
  split_ifs with h1 h2 h3 h4 h5 h6 h7 h8
  · exact ⟨'\\', _, rfl, by decide⟩
  · exact ⟨'\\', _, rfl, by decide⟩
  · exact ⟨'\\', _, rfl, by decide⟩
  · exact ⟨'\\', _, rfl, by decide⟩
  · exact ⟨'\\', _, rfl, by decide⟩
  · exact ⟨'\\', _, rfl, by decide⟩
  · exact ⟨'\\', _, rfl, by decide⟩
  · exact ⟨'\\', _, rfl, by decide⟩
  · exact ⟨d, [], rfl, h1⟩

theorem escapeList_split : ∀ (s1 s2 x y : List Char),
    escapeList s1 ++ '"' :: x = escapeList s2 ++ '"' :: y → s1 = s2 ∧ x = y := by
  intro s1
  induction s1 with
  | nil =>
      intro s2 x y heq
      cases s2 with
      | nil =>
          simp only [escapeList, List.nil_append, List.cons.injEq] at heq
          exact ⟨rfl, heq.2⟩
      | cons d ds =>
          exfalso
          obtain ⟨hh, ht, hesc, hne⟩ := escapeChar_head_ne_quote d
          simp only [escapeList, List.nil_append, hesc, List.cons_append,
            List.append_assoc, List.cons.injEq] at heq
          exact hne heq.1.symm
  | cons c cs ih =>
      intro s2 x y heq
      cases s2 with
      | nil =>
          exfalso
          obtain ⟨hh, ht, hesc, hne⟩ := escapeChar_head_ne_quote c
          simp only [escapeList, List.nil_append, hesc, List.cons_append,
            List.append_assoc, List.cons.injEq] at heq
          exact hne heq.1
      | cons d ds =>
          simp only [escapeList, List.append_assoc] at heq
          obtain ⟨rfl, heq'⟩ := escapeChar_append_inj heq
          obtain ⟨h1, h2⟩ := ih ds x y heq'
          exact ⟨by rw [h1], h2⟩

theorem quoteStr_split {s1 s2 : String} {x y : List Char}
    (h : quoteStr s1 ++ x = quoteStr s2 ++ y) : s1 = s2 ∧ x = y := by
  simp only [quoteStr, List.cons_append, List.append_assoc, List.singleton_append,
    List.cons.injEq, true_and] at h
  obtain ⟨h1, h2⟩ := escapeList_split s1.data s2.data x y h
  refine ⟨?_, h2⟩
  cases s1
  cases s2
  exact congrArg String.mk h1

end Cache

namespace Cache

theorem dumpVal_head {v : CVal} {d : List Char} (hn : hashNorm v = true)
    (hd : dumpVal false v = some d) :
    ∃ c t, d = c :: t ∧ headKind c = kindOf v := by
  match v with
  | CVal.cnull =>
      cases hd
      exact ⟨'n', _, rfl, by decide⟩
  | CVal.cbool b =>
      cases b <;> cases hd
      · exact ⟨'f', _, rfl, by decide⟩
      · exact ⟨'t', _, rfl, by decide⟩
  | CVal.cint n =>
      cases hd
      match n with
      | Int.ofNat a =>
          rcases hna : natDigits a with _ | ⟨c, cs⟩
          · exact absurd hna (natDigits_ne_nil a)
          · refine ⟨c, cs, hna, ?_⟩
            have hc : isDigitCh c = true :=
              natDigits_all_digits a c (by rw [hna]; exact List.mem_cons_self _ _)
            have hcn : 48 ≤ c.toNat ∧ c.toNat ≤ 57 := by
              simpa [isDigitCh, Bool.and_eq_true, decide_eq_true_eq] using hc
            simp only [headKind, kindOf]
            rw [if_neg, if_neg, if_pos (Or.inr hc)]
            · rintro (h | h) <;> (subst h; revert hcn; decide)
            · intro h; subst h; revert hcn; decide
      | Int.negSucc a => exact ⟨'-', _, rfl, rfl⟩
  | CVal.cstr s =>
      cases hd
      exact ⟨'"', _, rfl, rfl⟩
  | CVal.clist xs =>
      simp only [dumpVal] at hd
      split at hd
      next ds hds =>
        cases hd
        exact ⟨'[', _, rfl, rfl⟩
      next => exact Option.noConfusion hd
  | CVal.cobj kvs => simp [hashNorm] at hn
  | CVal.cset xs => simp [hashNorm] at hn
  | CVal.ctup xs => simp [hashNorm] at hn

theorem dumpItems_head {y : CVal} {ys : List CVal} {d : List Char}
    (hn : hashNorm y = true)
    (hd : dumpItems false (y :: ys) = some d) :
    ∃ c t, d = c :: t ∧ headKind c = kindOf y := by
  cases ys with
  | nil =>
      exact dumpVal_head hn hd
  | cons y2 ys2 =>
      simp only [dumpItems] at hd
      split at hd
      next dy ds hdy hds =>
        cases hd
        obtain ⟨c, t, hct, hk⟩ := dumpVal_head hn hdy
        exact ⟨c, t ++ [',', ' '] ++ ds, by rw [hct]; simp, hk⟩
      next => exact Option.noConfusion hd

theorem headKind_ne_rbracket {v : CVal} {c : Char} (h : headKind c = kindOf v)
    (hn : hashNorm v = true) : ¬ (c = ']' ∨ c = ',') := by
  rintro (rfl | rfl) <;>
    (cases v <;> simp_all [headKind, kindOf, hashNorm, isDigitCh] <;> omega)

end Cache

namespace Cache

mutual
/-- Unique readability: on the normal forms a set element can take, the
pretty dump determines the value, even with a residue bounded by a
separator or closing bracket. -/
theorem dumpInjV (v w : CVal) (d1 d2 r1 r2 : List Char)
    (hv : hashNorm v = true) (hw : hashNorm w = true)
    (hd1 : dumpVal false v = some d1) (hd2 : dumpVal false w = some d2)
    (heq : d1 ++ r1 = d2 ++ r2) (hb1 : DumpBnd r1) (hb2 : DumpBnd r2) :
    v = w ∧ r1 = r2 := by
  obtain ⟨c1, t1, hds1, hk1⟩ := dumpVal_head hv hd1
  obtain ⟨c2, t2, hds2, hk2⟩ := dumpVal_head hw hd2
  have hkk : kindOf v = kindOf w := by
    have h := heq
    rw [hds1, hds2, List.cons_append, List.cons_append] at h
    injection h with hc _
    rw [← hk1, hc, hk2]
  clear hds1 hds2 hk1 hk2
  cases v with
  | cobj kvs => exact absurd hv (by simp [hashNorm])
  | cset zs => exact absurd hv (by simp [hashNorm])
  | ctup zs => exact absurd hv (by simp [hashNorm])
  | cnull =>
      cases w with
      | cnull =>
          cases hd1; cases hd2
          exact ⟨rfl, by simpa using heq⟩
      | cbool b => exact absurd hkk (by simp [kindOf])
      | cint n => exact absurd hkk (by simp [kindOf])
      | cstr s => exact absurd hkk (by simp [kindOf])
      | clist ys => exact absurd hkk (by simp [kindOf])
      | cobj kvs => exact absurd hw (by simp [hashNorm])
      | cset zs => exact absurd hw (by simp [hashNorm])
      | ctup zs => exact absurd hw (by simp [hashNorm])
  | cbool b =>
      cases w with
      | cbool b' =>
          cases hd1; cases hd2
          cases b <;> cases b' <;>
            first
              | exact ⟨rfl, by simpa using heq⟩
              | (exfalso; simp at heq)
      | cnull => exact absurd hkk (by simp [kindOf])
      | cint n => exact absurd hkk (by simp [kindOf])
      | cstr s => exact absurd hkk (by simp [kindOf])
      | clist ys => exact absurd hkk (by simp [kindOf])
      | cobj kvs => exact absurd hw (by simp [hashNorm])
      | cset zs => exact absurd hw (by simp [hashNorm])
      | ctup zs => exact absurd hw (by simp [hashNorm])
  | cint n =>
      cases w with
      | cint m =>
          cases hd1; cases hd2
          obtain ⟨hn, hr⟩ := intDigits_split heq hb1 hb2
          exact ⟨by rw [hn], hr⟩
      | cnull => exact absurd hkk (by simp [kindOf])
      | cbool b => exact absurd hkk (by simp [kindOf])
      | cstr s => exact absurd hkk (by simp [kindOf])
      | clist ys => exact absurd hkk (by simp [kindOf])
      | cobj kvs => exact absurd hw (by simp [hashNorm])
      | cset zs => exact absurd hw (by simp [hashNorm])
      | ctup zs => exact absurd hw (by simp [hashNorm])
  | cstr s =>
      cases w with
      | cstr s' =>
          cases hd1; cases hd2
          obtain ⟨hs, hr⟩ := quoteStr_split heq
          exact ⟨by rw [hs], hr⟩
      | cnull => exact absurd hkk (by simp [kindOf])
      | cbool b => exact absurd hkk (by simp [kindOf])
      | cint n => exact absurd hkk (by simp [kindOf])
      | clist ys => exact absurd hkk (by simp [kindOf])
      | cobj kvs => exact absurd hw (by simp [hashNorm])
      | cset zs => exact absurd hw (by simp [hashNorm])
      | ctup zs => exact absurd hw (by simp [hashNorm])
  | clist xs =>
      cases w with
      | clist ys =>
          simp only [dumpVal] at hd1 hd2
          split at hd1
          next ds1 hitems1 =>
            cases hd1
            split at hd2
            next ds2 hitems2 =>
              cases hd2
              have heqi : ds1 ++ ']' :: r1 = ds2 ++ ']' :: r2 := by
                simpa only [List.cons_append, List.append_assoc,
                  List.singleton_append, List.cons.injEq, true_and] using heq
              have hx : hashNormList xs = true := by simpa [hashNorm] using hv
              have hy : hashNormList ys = true := by simpa [hashNorm] using hw
              obtain ⟨hxy, hr⟩ := dumpInjL xs ys ds1 ds2 r1 r2 hx hy hitems1 hitems2 heqi
              exact ⟨by rw [hxy], hr⟩
            next => exact Option.noConfusion hd2
          next => exact Option.noConfusion hd1
      | cnull => exact absurd hkk (by simp [kindOf])
      | cbool b => exact absurd hkk (by simp [kindOf])
      | cint n => exact absurd hkk (by simp [kindOf])
      | cstr s => exact absurd hkk (by simp [kindOf])
      | cobj kvs => exact absurd hw (by simp [hashNorm])
      | cset zs => exact absurd hw (by simp [hashNorm])
      | ctup zs => exact absurd hw (by simp [hashNorm])
termination_by sizeOf v

/-- Unique readability of serialized item lists, delimited on the right
by the closing bracket. -/
theorem dumpInjL (xs ys : List CVal) (d1 d2 r1 r2 : List Char)
    (hx : hashNormList xs = true) (hy : hashNormList ys = true)
    (hd1 : dumpItems false xs = some d1) (hd2 : dumpItems false ys = some d2)
    (heq : d1 ++ ']' :: r1 = d2 ++ ']' :: r2) :
    xs = ys ∧ r1 = r2 := by
  cases xs with
  | nil =>
      cases hd1
      cases ys with
      | nil =>
          cases hd2
          exact ⟨rfl, by simpa using heq⟩
      | cons y ys2 =>
          have hny : hashNorm y = true := by
            simp only [hashNormList, Bool.and_eq_true] at hy; exact hy.1
          obtain ⟨c, t, hct, hk⟩ := dumpItems_head hny hd2
          rw [hct, List.cons_append, List.nil_append] at heq
          injection heq with hc _
          exact absurd (Or.inl hc.symm) (headKind_ne_rbracket hk hny)
  | cons x xs2 =>
      have hnx : hashNorm x = true := by
        simp only [hashNormList, Bool.and_eq_true] at hx; exact hx.1
      cases xs2 with
      | nil =>
          have hdx : dumpVal false x = some d1 := hd1
          cases ys with
          | nil =>
              cases hd2
              obtain ⟨c, t, hct, hk⟩ := dumpVal_head hnx hdx
              rw [hct, List.cons_append, List.nil_append] at heq
              injection heq with hc _
              exact absurd (Or.inl hc) (headKind_ne_rbracket hk hnx)
          | cons y ys2 =>
              have hny : hashNorm y = true := by
                simp only [hashNormList, Bool.and_eq_true] at hy; exact hy.1
              cases ys2 with
              | nil =>
                  have hdy : dumpVal false y = some d2 := hd2
                  obtain ⟨hxy, hr⟩ := dumpInjV x y d1 d2 (']' :: r1) (']' :: r2)
                    hnx hny hdx hdy heq (Or.inr rfl) (Or.inr rfl)
                  injection hr with _ hr2
                  exact ⟨by rw [hxy], hr2⟩
              | cons y2 ys3 =>
                  simp only [dumpItems] at hd2
                  split at hd2
                  next dy ds2 hdy hds2 =>
                    cases hd2
                    have heqv : d1 ++ ']' :: r1 =
                        dy ++ ',' :: ' ' :: (ds2 ++ ']' :: r2) := by
                      simpa only [List.append_assoc, List.cons_append,
                        List.nil_append] using heq
                    obtain ⟨_, hr⟩ := dumpInjV x y d1 dy (']' :: r1)
                      (',' :: ' ' :: (ds2 ++ ']' :: r2))
                      hnx hny hdx hdy heqv (Or.inr rfl) (Or.inl rfl)
                    exact absurd hr (by simp)
                  next => exact Option.noConfusion hd2
      | cons x2 xs3 =>
          simp only [dumpItems] at hd1
          split at hd1
          next dx ds1 hdx hds1 =>
            cases hd1
            have hx2 : hashNormList (x2 :: xs3) = true := by
              simp only [hashNormList, Bool.and_eq_true] at hx ⊢; exact hx.2
            cases ys with
            | nil =>
                cases hd2
                obtain ⟨c, t, hct, hk⟩ := dumpVal_head hnx hdx
                rw [hct] at heq
                simp only [List.cons_append, List.append_assoc, List.nil_append] at heq
                injection heq with hc _
                exact absurd (Or.inl hc) (headKind_ne_rbracket hk hnx)
            | cons y ys2 =>
                have hny : hashNorm y = true := by
                  simp only [hashNormList, Bool.and_eq_true] at hy; exact hy.1
                cases ys2 with
                | nil =>
                    have hdy : dumpVal false y = some d2 := hd2
                    have heqv : dx ++ ',' :: ' ' :: (ds1 ++ ']' :: r1) =
                        d2 ++ ']' :: r2 := by
                      simpa only [List.append_assoc, List.cons_append,
                        List.nil_append] using heq
                    obtain ⟨_, hr⟩ := dumpInjV x y dx d2
                      (',' :: ' ' :: (ds1 ++ ']' :: r1)) (']' :: r2)
                      hnx hny hdx hdy heqv (Or.inl rfl) (Or.inr rfl)
                    exact absurd hr (by simp)
                | cons y2 ys3 =>
                    simp only [dumpItems] at hd2
                    split at hd2
                    next dy ds2 hdy hds2 =>
                      cases hd2
                      have hy2 : hashNormList (y2 :: ys3) = true := by
                        simp only [hashNormList, Bool.and_eq_true] at hy ⊢; exact hy.2
                      have heqv : dx ++ ',' :: ' ' :: (ds1 ++ ']' :: r1) =
                          dy ++ ',' :: ' ' :: (ds2 ++ ']' :: r2) := by
                        simpa only [List.append_assoc, List.cons_append,
                          List.nil_append] using heq
                      obtain ⟨hxy, hr⟩ := dumpInjV x y dx dy
                        (',' :: ' ' :: (ds1 ++ ']' :: r1))
                        (',' :: ' ' :: (ds2 ++ ']' :: r2))
                        hnx hny hdx hdy heqv (Or.inl rfl) (Or.inl rfl)
                      injection hr with _ hr
                      injection hr with _ hr
                      obtain ⟨htl, hrr⟩ := dumpInjL (x2 :: xs3) (y2 :: ys3)
                        ds1 ds2 r1 r2 hx2 hy2 hds1 hds2 hr
                      exact ⟨by rw [hxy, htl], hrr⟩
                    next => exact Option.noConfusion hd2
          next => exact Option.noConfusion hd1
termination_by sizeOf xs
end

end Cache

namespace Cache

theorem wfList_iff : ∀ xs : List CVal, wfList xs = true ↔ ∀ x ∈ xs, wfVal x = true := by
  intro xs
  induction xs with
  | nil => simp [wfList]
  | cons x xs ih =>
      rw [wfList, Bool.and_eq_true, ih]
      simp

theorem wfFields_iff : ∀ kvs : List (String × CVal),
    wfFields kvs = true ↔ ∀ p ∈ kvs, wfVal p.2 = true := by
  intro kvs
  induction kvs with
  | nil => simp [wfFields]
  | cons p kvs ih =>
      obtain ⟨k, v⟩ := p
      rw [wfFields, Bool.and_eq_true, ih]
      simp

theorem hashableList_iff : ∀ xs : List CVal,
    hashableList xs = true ↔ ∀ x ∈ xs, hashable x = true := by
  intro xs
  induction xs with
  | nil => simp [hashableList]
  | cons x xs ih =>
      rw [hashableList, Bool.and_eq_true, ih]
      simp

theorem hashNormList_iff : ∀ xs : List CVal,
    hashNormList xs = true ↔ ∀ x ∈ xs, hashNorm x = true := by
  intro xs
  induction xs with
  | nil => simp [hashNormList]
  | cons x xs ih =>
      rw [hashNormList, Bool.and_eq_true, ih]
      simp

theorem normalizeList_eq_map : ∀ xs : List CVal,
    normalizeList xs = xs.map normalizeValue := by
  intro xs
  induction xs with
  | nil => rfl
  | cons x xs ih => rw [normalizeList, ih, List.map_cons]

theorem normalizeFields_eq_map : ∀ kvs : List (String × CVal),
    normalizeFields kvs = kvs.map (fun p => (p.1, normalizeValue p.2)) := by
  intro kvs
  induction kvs with
  | nil => rfl
  | cons p kvs ih =>
      obtain ⟨k, v⟩ := p
      rw [normalizeFields, ih, List.map_cons]

theorem feq_keys : ∀ {kvs zs : List (String × CVal)}, FEquiv kvs zs →
    kvs.map Prod.fst = zs.map Prod.fst := by
  intro kvs
  induction kvs with
  | nil => intro zs h; cases h; rfl
  | cons p kvs ih =>
      intro zs h
      cases h with
      | cons k hv hf => simpa using ih hf

theorem nodup_keys_eq {l : List (String × CVal)} (hnd : (l.map Prod.fst).Nodup)
    {a b : String × CVal} (ha : a ∈ l) (hb : b ∈ l) (hk : a.1 = b.1) : a = b := by
  induction l with
  | nil => cases ha
  | cons p l ih =>
      rw [List.map_cons, List.nodup_cons] at hnd
      rcases List.mem_cons.mp ha with rfl | ha2
      · rcases List.mem_cons.mp hb with rfl | hb2
        · rfl
        · exact absurd (hk ▸ List.mem_map_of_mem Prod.fst hb2) hnd.1
      · rcases List.mem_cons.mp hb with rfl | hb2
        · exact absurd (hk ▸ List.mem_map_of_mem Prod.fst ha2) hnd.1
        · exact ih hnd.2 ha2 hb2

end Cache

namespace Cache

mutual
theorem sortKeysRec_hashNorm : ∀ v : CVal, hashNorm v = true → sortKeysRec v = v
  | CVal.cnull, _ => rfl
  | CVal.cbool b, _ => rfl
  | CVal.cint n, _ => rfl
  | CVal.cstr s, _ => rfl
  | CVal.clist xs, h => by
      simp only [sortKeysRec]
      rw [sortKeysList_hashNorm xs (by simpa [hashNorm] using h)]
  | CVal.cobj kvs, h => by simp [hashNorm] at h
  | CVal.cset xs, h => by simp [hashNorm] at h
  | CVal.ctup xs, h => by simp [hashNorm] at h

theorem sortKeysList_hashNorm : ∀ xs : List CVal, hashNormList xs = true →
    sortKeysList xs = xs
  | [], _ => rfl
  | x :: xs, h => by
      rw [hashNormList, Bool.and_eq_true] at h
      rw [sortKeysList, sortKeysRec_hashNorm x h.1, sortKeysList_hashNorm xs h.2]
end

mutual
theorem dumpVal_total : ∀ v : CVal, hashNorm v = true →
    ∃ d, dumpVal false v = some d
  | CVal.cnull, _ => ⟨_, rfl⟩
  | CVal.cbool b, _ => ⟨_, rfl⟩
  | CVal.cint n, _ => ⟨_, rfl⟩
  | CVal.cstr s, _ => ⟨_, rfl⟩
  | CVal.clist xs, h => by
      obtain ⟨ds, hds⟩ := dumpItems_total xs (by simpa [hashNorm] using h)
      exact ⟨_, by rw [dumpVal, hds]⟩
  | CVal.cobj kvs, h => by simp [hashNorm] at h
  | CVal.cset xs, h => by simp [hashNorm] at h
  | CVal.ctup xs, h => by simp [hashNorm] at h

theorem dumpItems_total : ∀ xs : List CVal, hashNormList xs = true →
    ∃ d, dumpItems false xs = some d
  | [], _ => ⟨[], rfl⟩
  | [x], h => by
      rw [hashNormList, Bool.and_eq_true] at h
      obtain ⟨d, hd⟩ := dumpVal_total x h.1
      exact ⟨d, hd⟩
  | x :: x2 :: xs, h => by
      rw [hashNormList, Bool.and_eq_true] at h
      obtain ⟨d, hd⟩ := dumpVal_total x h.1
      obtain ⟨ds, hds⟩ := dumpItems_total (x2 :: xs) h.2
      refine ⟨_, by rw [dumpItems, hd, hds]; intro hh; exact List.noConfusion hh⟩
end

theorem setSortKey_inj {a b : CVal} (ha : hashNorm a = true) (hb : hashNorm b = true)
    (h : setSortKey a = setSortKey b) : a = b := by
  obtain ⟨da, hda⟩ := dumpVal_total a ha
  obtain ⟨db, hdb⟩ := dumpVal_total b hb
  have hka : setSortKey a = da := by
    simp [setSortKey, jsonDumps, sortKeysRec_hashNorm a ha, hda]
  have hkb : setSortKey b = db := by
    simp [setSortKey, jsonDumps, sortKeysRec_hashNorm b hb, hdb]
  have hdd : da ++ ([] : List Char) = db ++ [] := by
    simp [← hka, ← hkb, h]
  exact (dumpInjV a b da db [] [] ha hb hda hdb hdd trivial trivial).1

mutual
theorem normalize_hashable : ∀ v : CVal, hashable v = true →
    hashNorm (normalizeValue v) = true
  | CVal.cnull, _ => rfl
  | CVal.cbool b, _ => rfl
  | CVal.cint n, _ => rfl
  | CVal.cstr s, _ => rfl
  | CVal.ctup xs, h => by
      simp only [normalizeValue, hashNorm]
      exact normalizeList_hashable xs (by simpa [hashable] using h)
  | CVal.cset xs, h => by
      simp only [normalizeValue, hashNorm]
      rw [hashNormList_iff]
      intro y hy
      have hy2 : y ∈ normalizeList xs := (sortByBool_perm setKeyLe _).mem_iff.mp hy
      exact (hashNormList_iff (normalizeList xs)).mp
        (normalizeList_hashable xs (by simpa [hashable] using h)) y hy2
  | CVal.clist xs, h => by simp [hashable] at h
  | CVal.cobj kvs, h => by simp [hashable] at h

theorem normalizeList_hashable : ∀ xs : List CVal, hashableList xs = true →
    hashNormList (normalizeList xs) = true
  | [], _ => rfl
  | x :: xs, h => by
      rw [hashableList, Bool.and_eq_true] at h
      rw [normalizeList, hashNormList, Bool.and_eq_true]
      exact ⟨normalize_hashable x h.1, normalizeList_hashable xs h.2⟩
end

end Cache

namespace Cache

theorem normalizeFields_keys (kvs : List (String × CVal)) :
    (normalizeFields kvs).map Prod.fst = kvs.map Prod.fst := by
  rw [normalizeFields_eq_map, List.map_map]
  rfl

theorem string_mk_inj {a b : List Char} (h : String.mk a = String.mk b) : a = b := by
  cases h
  rfl

theorem string_data_inj {s t : String} (h : s.data = t.data) : s = t := by
  cases s
  cases t
  exact congrArg String.mk h

mutual
/-- Reordering mapping entries or set elements anywhere in a
well-formed value does not change its `_normalize_value` normal form. -/
theorem veq_normalize : ∀ {v w : CVal}, VEquiv v w → wfVal v = true → wfVal w = true →
    normalizeValue v = normalizeValue w
  | _, _, VEquiv.null, _, _ => rfl
  | _, _, VEquiv.bool b, _, _ => rfl
  | _, _, VEquiv.int n, _, _ => rfl
  | _, _, VEquiv.str s, _, _ => rfl
  | _, _, @VEquiv.list xs ys hl, hv, hw => by
      simp only [normalizeValue]
      rw [leq_normalize hl (by simpa [wfVal] using hv) (by simpa [wfVal] using hw)]
  | _, _, @VEquiv.tup xs ys hl, hv, hw => by
      simp only [normalizeValue]
      rw [leq_normalize hl (by simpa [wfVal] using hv) (by simpa [wfVal] using hw)]
  | _, _, @VEquiv.set xs zs ys hl hperm, hv, hw => by
      simp only [normalizeValue]
      rw [wfVal, Bool.and_eq_true] at hv hw
      have hwz : wfList zs = true := by
        rw [wfList_iff]
        intro z hz
        exact (wfList_iff ys).mp hw.2 z (hperm.mem_iff.mp hz)
      have hxz : normalizeList xs = normalizeList zs :=
        leq_normalize hl hv.2 hwz
      have hpm : List.Perm (normalizeList xs) (normalizeList ys) := by
        rw [hxz, normalizeList_eq_map, normalizeList_eq_map]
        exact hperm.map _
      have hnx : hashNormList (normalizeList xs) = true :=
        normalizeList_hashable xs hv.1
      have hties : ∀ a ∈ normalizeList xs, ∀ b ∈ normalizeList xs,
          setKeyLe a b = true → setKeyLe b a = true → a = b := by
        intro a ha b hb h1 h2
        simp only [setKeyLe] at h1 h2
        have hk : setSortKey a = setSortKey b := charsLe_antisymm _ _ h1 h2
        exact setSortKey_inj ((hashNormList_iff _).mp hnx a ha)
          ((hashNormList_iff _).mp hnx b hb) hk
      rw [sortByBool_perm_eq setKeyLe setKeyLe_total setKeyLe_trans _ _ hpm hties]
  | _, _, @VEquiv.obj kvs zs kvs2 hf hperm, hv, hw => by
      simp only [normalizeValue]
      rw [wfVal, Bool.and_eq_true, decide_eq_true_eq] at hv hw
      have hwz : wfFields zs = true := by
        rw [wfFields_iff]
        intro p hp
        exact (wfFields_iff kvs2).mp hw.2 p (hperm.mem_iff.mp hp)
      have hkz : normalizeFields kvs = normalizeFields zs :=
        feq_normalize hf hv.2 hwz
      have hpm : List.Perm (normalizeFields kvs) (normalizeFields kvs2) := by
        rw [hkz, normalizeFields_eq_map, normalizeFields_eq_map]
        exact hperm.map _
      have hnd : ((normalizeFields kvs).map Prod.fst).Nodup := by
        rw [normalizeFields_keys]
        exact hv.1
      have hties : ∀ a ∈ normalizeFields kvs, ∀ b ∈ normalizeFields kvs,
          keyLe a b = true → keyLe b a = true → a = b := by
        intro a ha b hb h1 h2
        simp only [keyLe] at h1 h2
        exact nodup_keys_eq hnd ha hb (string_data_inj (charsLe_antisymm _ _ h1 h2))
      rw [sortByBool_perm_eq keyLe keyLe_total keyLe_trans _ _ hpm hties]

theorem leq_normalize : ∀ {xs ys : List CVal}, LEquiv xs ys →
    wfList xs = true → wfList ys = true → normalizeList xs = normalizeList ys
  | _, _, LEquiv.nil, _, _ => rfl
  | _, _, @LEquiv.cons x y xs ys hv hl, hx, hy => by
      rw [wfList, Bool.and_eq_true] at hx hy
      rw [normalizeList, normalizeList, veq_normalize hv hx.1 hy.1,
        leq_normalize hl hx.2 hy.2]

theorem feq_normalize : ∀ {kvs kws : List (String × CVal)}, FEquiv kvs kws →
    wfFields kvs = true → wfFields kws = true → normalizeFields kvs = normalizeFields kws
  | _, _, FEquiv.nil, _, _ => rfl
  | _, _, @FEquiv.cons k v w kvs kws hv hf, hx, hy => by
      rw [wfFields, Bool.and_eq_true] at hx hy
      rw [normalizeFields, normalizeFields, veq_normalize hv hx.1 hy.1,
        feq_normalize hf hx.2 hy.2]
end

end Cache

namespace Cache

theorem payloadGet_perm : ∀ {l1 l2 : List (String × CVal)}, List.Perm l1 l2 →
    (l1.map Prod.fst).Nodup → ∀ k, payloadGet l1 k = payloadGet l2 k := by
  intro l1 l2 hperm
  induction hperm with
  | nil => intro _ k; rfl
  | cons p _ ih =>
      intro hnd k
      obtain ⟨k', v⟩ := p
      rw [List.map_cons, List.nodup_cons] at hnd
      simp only [payloadGet]
      split
      · rfl
      · exact ih hnd.2 k
  | swap p q l =>
      intro hnd k
      obtain ⟨k1, v1⟩ := q
      obtain ⟨k2, v2⟩ := p
      simp only [List.map_cons, List.nodup_cons, List.mem_cons] at hnd
      simp only [payloadGet]
      split
      next h1 =>
        split
        next h2 => exact absurd (h2.trans h1.symm) (fun hh => hnd.1 (Or.inl hh.symm))
        next => rfl
      next h1 =>
        split
        next h2 => rfl
        next h2 => rfl
  | trans h12 h23 ih12 ih23 =>
      intro hnd k
      have hnd2 : _ := ((h12.map Prod.fst).nodup_iff).mp hnd
      rw [ih12 hnd k, ih23 hnd2 k]

theorem payloadGet_map_normalize : ∀ (p : List (String × CVal)) (k : String),
    payloadGet (normalizeFields p) k = Option.map normalizeValue (payloadGet p k) := by
  intro p
  induction p with
  | nil => intro k; rfl
  | cons q rest ih =>
      intro k
      obtain ⟨k', v⟩ := q
      simp only [normalizeFields, payloadGet]
      split
      · rfl
      · exact ih k

theorem feq_missing : ∀ {p z : List (String × CVal)}, FEquiv p z → ∀ f,
    isMissingRequired (payloadGet p f) = isMissingRequired (payloadGet z f) := by
  intro p
  induction p with
  | nil => intro z h f; cases h; rfl
  | cons q rest ih =>
      intro z h f
      cases h with
      | cons k hv hf =>
          simp only [payloadGet]
          split
          · cases hv <;> rfl
          · exact ih hf f

theorem normalize_missing (o : Option CVal) :
    isMissingRequired (Option.map normalizeValue o) = isMissingRequired o := by
  cases o with
  | none => rfl
  | some v => cases v <;> simp [normalizeValue, isMissingRequired, pyStrip_idem]

end Cache

namespace Cache

/-- `_make_key` is invariant under `VEquiv` reorderings of a well-formed
payload and under pre-normalizing the payload. -/
theorem makeKeyWith_invariant (digest : List Char → String) (ns : String)
    (p q : List (String × CVal))
    (hns : ns ∈ CACHE_NAMESPACES)
    (hpq : VEquiv (CVal.cobj p) (CVal.cobj q))
    (hwp : wfVal (CVal.cobj p) = true) (hwq : wfVal (CVal.cobj q) = true) :
    makeKeyWith digest ns p = makeKeyWith digest ns q ∧
    makeKeyWith digest ns p = makeKeyWith digest ns (normalizePayload p) := by
  have hnorm : normalizePayload p = normalizePayload q := by
    have h := veq_normalize hpq hwp hwq
    simp only [normalizeValue] at h
    exact CVal.cobj.inj h
  have hmiss : ∀ f, isMissingRequired (payloadGet p f) =
      isMissingRequired (payloadGet q f) := by
    cases hpq with
    | obj hf hperm =>
        rename_i zs
        intro f
        have hndz : (zs.map Prod.fst).Nodup := by
          rw [← feq_keys hf]
          rw [wfVal, Bool.and_eq_true, decide_eq_true_eq] at hwp
          exact hwp.1
        rw [feq_missing hf f, payloadGet_perm hperm hndz f]
  have hfilter : (namespaceKeyRequirements ns).filter
      (fun f => isMissingRequired (payloadGet p f)) =
      (namespaceKeyRequirements ns).filter
      (fun f => isMissingRequired (payloadGet q f)) :=
    List.filter_congr (fun f _ => hmiss f)
  constructor
  · unfold makeKeyWith
    rw [hfilter, hnorm]
  · have hmiss2 : ∀ f, isMissingRequired (payloadGet (normalizePayload p) f) =
        isMissingRequired (payloadGet p f) := by
      intro f
      have hnd : ((normalizeFields p).map Prod.fst).Nodup := by
        rw [normalizeFields_keys]
        rw [wfVal, Bool.and_eq_true, decide_eq_true_eq] at hwp
        exact hwp.1
      have hperm2 : List.Perm (normalizeFields p) (normalizePayload p) :=
        (sortByBool_perm keyLe _).symm
      rw [← payloadGet_perm hperm2 hnd f, payloadGet_map_normalize, normalize_missing]
    have hfilter2 : (namespaceKeyRequirements ns).filter
        (fun f => isMissingRequired (payloadGet (normalizePayload p) f)) =
        (namespaceKeyRequirements ns).filter
        (fun f => isMissingRequired (payloadGet p f)) :=
      List.filter_congr (fun f _ => hmiss2 f)
    unfold makeKeyWith
    rw [hfilter2, normalizePayload_idem]

/-- `exPayloadA` and `exPayloadB` differ by a top-level key swap and by the
listed order of the set field. -/
theorem exPayload_equiv : VEquiv (CVal.cobj exPayloadA) (CVal.cobj exPayloadB) :=
  VEquiv.obj
    (FEquiv.cons _ (VEquiv.str _)
      (FEquiv.cons _ (VEquiv.str _)
        (FEquiv.cons _
          (VEquiv.set
            (LEquiv.cons (VEquiv.int 2) (LEquiv.cons (VEquiv.int 1) LEquiv.nil))
            (List.Perm.swap (CVal.cint 1) (CVal.cint 2) []))
          FEquiv.nil)))
    (List.Perm.swap _ _ _)

/-- C5: for a valid cache namespace and a well-formed key payload, the derived
cache key is invariant under any permutation of mapping keys at any nesting
depth and under any ordering of set elements (`VEquiv`), and key derivation is
idempotent: `make_key(ns, p) = make_key(ns, canonicalize(p))` where
`canonicalize` is the payload normalization `_normalize_payload` itself. -/
theorem C5_make_key_canonical (digest : List Char → String) (ns : String)
    (p q : List (String × CVal))
    (hns : ns ∈ CACHE_NAMESPACES)
    (hpq : VEquiv (CVal.cobj p) (CVal.cobj q))
    (hwp : wfVal (CVal.cobj p) = true) (hwq : wfVal (CVal.cobj q) = true) :
    makeKeyWith digest ns p = makeKeyWith digest ns q ∧
    makeKeyWith digest ns p = makeKeyWith digest ns (normalizePayload p) :=
  makeKeyWith_invariant digest ns p q hns hpq hwp hwq

/-- Witness for C5: a concrete payload whose keys are permuted and whose
set-valued field is listed in two different orders yields the same key. -/
theorem C5_make_key_canonical_witness :
    ITEM_MAPPING_CACHE ∈ CACHE_NAMESPACES ∧
    VEquiv (CVal.cobj exPayloadA) (CVal.cobj exPayloadB) ∧
    wfVal (CVal.cobj exPayloadA) = true ∧ wfVal (CVal.cobj exPayloadB) = true ∧
    (makeKeyWith exDigest ITEM_MAPPING_CACHE exPayloadA =
        makeKeyWith exDigest ITEM_MAPPING_CACHE exPayloadB ∧
     makeKeyWith exDigest ITEM_MAPPING_CACHE exPayloadA =
        makeKeyWith exDigest ITEM_MAPPING_CACHE (normalizePayload exPayloadA)) := by
  exact ⟨by decide, exPayload_equiv, by decide, by decide,
    C5_make_key_canonical exDigest ITEM_MAPPING_CACHE exPayloadA exPayloadB
      (by decide) exPayload_equiv (by decide) (by decide)⟩

end Cache

namespace Cache

theorem storePut_same {A : Type} (s : Store A) (ns key : String) (e : CacheEntry A) :
    storePut s ns key e ns key = some e := by
  simp [storePut]

theorem storeDelete_same {A : Type} (s : Store A) (ns key : String) :
    storeDelete s ns key ns key = none := by
  simp [storeDelete]

/-- C6: after a `set`, a `get` in the same namespace with an equivalent
well-formed key payload hits the same entry: strictly before `expires_at` it
returns the stored entry and leaves the backend unchanged; at or after
`expires_at` it returns `None` and deletes the entry from the backend; and a
namespace TTL that is zero or negative makes `expires_at = None`, so the entry
never expires. -/
theorem C6_cache_ttl {A : Type} (digest : List Char → String) (store : Store A)
    (ttls : String → Option Int) (ns : String)
    (p q : List (String × CVal)) (value : A) (conf : ℚ)
    (meta : List (String × CVal)) (t0 t1 : ℚ)
    (entry : CacheEntry A) (store1 : Store A)
    (hns : ns ∈ CACHE_NAMESPACES)
    (hpq : VEquiv (CVal.cobj p) (CVal.cobj q))
    (hwp : wfVal (CVal.cobj p) = true) (hwq : wfVal (CVal.cobj q) = true)
    (hset : cacheSet digest store ttls ns p value conf meta t0 =
      Except.ok (entry, store1)) :
    (∀ texp : ℚ, entry.expires_at = some texp → t1 < texp →
      cacheGet digest store1 ns q t1 = Except.ok (some entry, store1)) ∧
    (∀ texp : ℚ, entry.expires_at = some texp → texp ≤ t1 →
      ∃ key : String, makeKeyWith digest ns q = Except.ok key ∧
        cacheGet digest store1 ns q t1 =
          Except.ok (none, storeDelete store1 ns key) ∧
        storeDelete store1 ns key ns key = none) ∧
    (∀ ttl : Int, ttls ns = some ttl → ttl ≤ 0 →
      entry.expires_at = none ∧
      ∀ t : ℚ, cacheGet digest store1 ns q t = Except.ok (some entry, store1)) := by
  have hinv := (makeKeyWith_invariant digest ns p q hns hpq hwp hwq).1
  simp only [cacheSet] at hset
  split at hset
  next e herr => exact Except.noConfusion hset
  next key hkey =>
    rw [Except.ok.injEq, Prod.mk.injEq] at hset
    obtain ⟨hent, hst⟩ := hset
    have hkq : makeKeyWith digest ns q = Except.ok key := by rw [← hinv, hkey]
    rw [hent] at hst
    subst hst
    refine ⟨?_, ?_, ?_⟩
    · intro texp hexp hlt
      have hexpired : entry.isExpired t1 = false := by
        simp only [CacheEntry.isExpired, hexp]
        exact decide_eq_false (not_le.mpr hlt)
      simp [cacheGet, hkq, storePut_same, hexpired]
    · intro texp hexp hle
      refine ⟨key, hkq, ?_, storeDelete_same _ ns key⟩
      have hexpired : entry.isExpired t1 = true := by
        simp only [CacheEntry.isExpired, hexp]
        exact decide_eq_true hle
      simp [cacheGet, hkq, storePut_same, hexpired]
    · intro ttl httl hle
      have hexp : entry.expires_at =
          (match ttls ns with
           | some t => if t > 0 then some (t0 + (t : ℚ)) else none
           | none => none) := by
        rw [← hent]
      simp only [httl] at hexp
      rw [if_neg (by omega)] at hexp
      refine ⟨hexp, ?_⟩
      intro t
      have hexpired : entry.isExpired t = false := by
        simp only [CacheEntry.isExpired, hexp]
      simp [cacheGet, hkq, storePut_same, hexpired]

end Cache

namespace Cache

/-- Storing under `exPayloadA` at time 100 yields `exEntry` and `exStore1`. -/
theorem exHset : cacheSet exDigest (fun _ _ => none) defaultNamespaceTtls
    ITEM_MAPPING_CACHE exPayloadA "mapped" (1/2) [] 100 =
    Except.ok (exEntry, exStore1) := rfl

/-- Witness for C6: a concrete set followed by gets with the permuted
payload. -/
theorem C6_cache_ttl_witness :
    ITEM_MAPPING_CACHE ∈ CACHE_NAMESPACES ∧
    VEquiv (CVal.cobj exPayloadA) (CVal.cobj exPayloadB) ∧
    wfVal (CVal.cobj exPayloadA) = true ∧ wfVal (CVal.cobj exPayloadB) = true ∧
    cacheSet exDigest (fun _ _ => none) defaultNamespaceTtls ITEM_MAPPING_CACHE
      exPayloadA "mapped" (1/2) [] 100 = Except.ok (exEntry, exStore1) ∧
    ((∀ texp : ℚ, exEntry.expires_at = some texp → (200 : ℚ) < texp →
        cacheGet exDigest exStore1 ITEM_MAPPING_CACHE exPayloadB 200 =
          Except.ok (some exEntry, exStore1)) ∧
     (∀ texp : ℚ, exEntry.expires_at = some texp → texp ≤ (200 : ℚ) →
        ∃ key : String,
          makeKeyWith exDigest ITEM_MAPPING_CACHE exPayloadB = Except.ok key ∧
          cacheGet exDigest exStore1 ITEM_MAPPING_CACHE exPayloadB 200 =
            Except.ok (none, storeDelete exStore1 ITEM_MAPPING_CACHE key) ∧
          storeDelete exStore1 ITEM_MAPPING_CACHE key ITEM_MAPPING_CACHE key = none) ∧
     (∀ ttl : Int, defaultNamespaceTtls ITEM_MAPPING_CACHE = some ttl → ttl ≤ 0 →
        exEntry.expires_at = none ∧
        ∀ t : ℚ, cacheGet exDigest exStore1 ITEM_MAPPING_CACHE exPayloadB t =
          Except.ok (some exEntry, exStore1))) :=
  ⟨by decide, exPayload_equiv, by decide, by decide, exHset,
    C6_cache_ttl exDigest (fun _ _ => none) defaultNamespaceTtls ITEM_MAPPING_CACHE
      exPayloadA exPayloadB "mapped" (1/2) [] 100 200 exEntry exStore1
      (by decide) exPayload_equiv (by decide) (by decide) exHset⟩

end Cache

namespace Candidates

theorem pyMax_zero_le (x : ℚ) : 0 ≤ pyMax 0 x := by
  unfold pyMax
  split
  next h => exact le_refl 0
  next h => exact le_of_lt (not_le.mp h)

theorem scoreMatch_fst_nonneg (q c : String) : 0 ≤ (scoreMatch q c).1 := by
  simp only [scoreMatch]
  exact pyMax_zero_le _

theorem scoreMatch_basis_iff (q c : String) :
    (scoreMatch q c).2 = "token" ↔
      tokenScoreOf q c ≥ pyMax (charScoreOf q c) (partialScoreOf q c) + 5 := by
  simp only [scoreMatch]
  split
  next h => exact iff_of_true rfl h
  next h => exact iff_of_false (by decide) h

theorem aliasStep_inv (q : String) (e : CatEntry) (best : ℚ × String × String)
    (al : String) (hal : al ∈ e.aliases) (hinv : EntryInv q e best) :
    EntryInv q e (aliasStep q best al) := by
  simp only [aliasStep]
  split
  next h =>
    by_cases hb : (scoreMatch q al).2 = "token"
    · rw [if_pos hb]
      refine ⟨fun _ => hb, ?_, ?_⟩
      · intro h2; simp at h2
      · intro h2; simp at h2
    · rw [if_neg hb]
      refine ⟨?_, ?_, fun _ => ⟨hal, hb⟩⟩
      · intro h2; simp at h2
      · intro h2; simp at h2
  next h => exact hinv

theorem foldl_aliasStep_inv (q : String) (e : CatEntry) :
    ∀ (als : List String) (best : ℚ × String × String),
      (∀ a ∈ als, a ∈ e.aliases) → EntryInv q e best →
      EntryInv q e (als.foldl (aliasStep q) best) := by
  intro als
  induction als with
  | nil => intro best _ hinv; exact hinv
  | cons a rest ih =>
      intro best hmem hinv
      rw [List.foldl_cons]
      exact ih _ (fun x hx => hmem x (List.mem_cons_of_mem a hx))
        (aliasStep_inv q e best a (hmem a (List.mem_cons_self a rest)) hinv)

theorem scoreEntry_inv (q : String) (e : CatEntry) :
    EntryInv q e (scoreEntry q e) := by
  simp only [scoreEntry]
  rw [if_pos (show (scoreMatch q e.canonical_name).1 > (-1 : ℚ) from
    lt_of_lt_of_le (by norm_num) (scoreMatch_fst_nonneg q e.canonical_name))]
  refine foldl_aliasStep_inv q e e.aliases _ (fun a ha => ha) ?_
  by_cases hb : (scoreMatch q e.canonical_name).2 = "token"
  · rw [if_pos hb]
    refine ⟨fun _ => hb, ?_, ?_⟩
    · intro h2; simp at h2
    · intro h2; simp at h2
  · rw [if_neg hb]
    refine ⟨?_, fun _ => ⟨rfl, hb⟩, ?_⟩
    · intro h2; simp at h2
    · intro h2; simp at h2

/-- C7 (corrected): `_score_match` reports basis `token` exactly when the
token-similarity score is at least — not strictly above — the larger of the
character and partial ratios plus 5; and in `generate_candidates` an
entry's basis is `token` when the winning name's `_score_match` said
`token`, otherwise `canonical` or `alias` according to whether the winning
text was the canonical name or one of the aliases. -/
theorem C7_match_basis (q c : String) (e : CatEntry) :
    ((scoreMatch q c).2 = "token" ↔
      tokenScoreOf q c ≥ pyMax (charScoreOf q c) (partialScoreOf q c) + 5) ∧
    ((scoreEntry q e).2.1 = "token" →
      (scoreMatch q (scoreEntry q e).2.2).2 = "token") ∧
    ((scoreEntry q e).2.1 = "canonical" →
      (scoreEntry q e).2.2 = e.canonical_name ∧
      (scoreMatch q (scoreEntry q e).2.2).2 ≠ "token") ∧
    ((scoreEntry q e).2.1 = "alias" →
      (scoreEntry q e).2.2 ∈ e.aliases ∧
      (scoreMatch q (scoreEntry q e).2.2).2 ≠ "token") :=
  ⟨scoreMatch_basis_iff q c, scoreEntry_inv q e⟩

theorem cxChar : charScoreOf "a aab" "aab a" = 75 := by
  have hq : (compactText (normalizeText "a aab")).data = ['a', 'a', 'a', 'b'] := rfl
  have hc : (compactText (normalizeText "aab a")).data = ['a', 'a', 'b', 'a'] := rfl
  simp only [charScoreOf, hq, hc, ratio]
  rw [show matchTotal ['a', 'a', 'a', 'b'] ['a', 'a', 'b', 'a'] = 3 from rfl]
  norm_num

theorem cxPartial : partialScoreOf "a aab" "aab a" = 75 := by
  have hq : (compactText (normalizeText "a aab")).data = ['a', 'a', 'a', 'b'] := rfl
  have hc : (compactText (normalizeText "aab a")).data = ['a', 'a', 'b', 'a'] := rfl
  simp only [partialScoreOf, hq, hc, partialRatio]
  norm_num
  rw [show isSubstr ['a', 'a', 'a', 'b'] ['a', 'a', 'b', 'a'] = false from rfl]
  simp only [ratio]
  rw [show matchTotal ['a', 'a', 'a', 'b'] ['a', 'a', 'b', 'a'] = 3 from rfl]
  norm_num

theorem cxToken : tokenScoreOf "a aab" "aab a" = 80 := by
  have hA : tokenize (normalizeText "a aab") =
      [['a'], ['a', 'a', 'b'], ['a', 'a'], ['a', 'b']] := rfl
  have hB : tokenize (normalizeText "aab a") =
      [['a', 'a', 'b'], ['a'], ['a', 'a'], ['a', 'b'], ['b', 'a']] := rfl
  simp only [tokenScoreOf, hA, hB, tokenSim]
  norm_num

/-- Counterexample to the claimed strict inequality: on the query `a aab`
and the catalog name `aab a` the token score (80) equals
`max(char, partial) + 5 = max(75, 75) + 5` exactly — it does not exceed
it — yet the reported basis is `token`. -/
theorem C7_match_basis_counterexample :
    (scoreMatch "a aab" "aab a").2 = "token" ∧
    tokenScoreOf "a aab" "aab a" =
      pyMax (charScoreOf "a aab" "aab a") (partialScoreOf "a aab" "aab a") + 5 ∧
    ¬ tokenScoreOf "a aab" "aab a" >
      pyMax (charScoreOf "a aab" "aab a") (partialScoreOf "a aab" "aab a") + 5 := by
  have hmax : pyMax (charScoreOf "a aab" "aab a") (partialScoreOf "a aab" "aab a") = 75 := by
    rw [cxChar, cxPartial, pyMax]
    norm_num
  refine ⟨?_, ?_, ?_⟩
  · simp only [scoreMatch]
    rw [if_pos]
    rw [cxToken, hmax]
    norm_num
  · rw [cxToken, hmax]
    norm_num
  · rw [cxToken, hmax]
    norm_num

end Candidates

namespace Parser

theorem parseLine_line_index (raw : String) (idx : Nat) :
    (parseLine raw idx).1.line_index = (idx : Int) := rfl

theorem parseLine_raw_line (raw : String) (idx : Nat) :
    (parseLine raw idx).1.raw_line = raw := rfl

theorem parseAux_preserve :
    ∀ (srcs : List String) (idx : Nat) (lines : List RawLine) (ws : List String)
      (rl0 : RawLine), rl0 ∈ lines →
      ∃ rl ∈ (parseAux srcs idx lines ws).1,
        rl.line_index = rl0.line_index ∧ rl.raw_line = rl0.raw_line := by
  intro srcs
  induction srcs with
  | nil => intro idx lines ws rl0 h0; exact ⟨rl0, h0, rfl, rfl⟩
  | cons src rest ih =>
      intro idx lines ws rl0 h0
      simp only [parseAux]
      split
      · exact ih _ lines ws rl0 h0
      · split
        next note hnote =>
          split
          next prev hlast =>
            have hne : lines ≠ [] := by
              intro he; rw [he] at hlast; exact Option.noConfusion hlast
            have hgl : lines.getLast hne = prev := by
              rw [List.getLast?_eq_getLast _ hne, Option.some.injEq] at hlast
              exact hlast
            have hsplit : lines.dropLast ++ [prev] = lines := by
              rw [← hgl]; exact List.dropLast_append_getLast hne
            rw [← hsplit] at h0
            rcases List.mem_append.mp h0 with hdl | hsg
            · exact ih _ _ _ rl0 (List.mem_append_left _ hdl)
            · have heq : rl0 = prev := List.mem_singleton.mp hsg
              obtain ⟨rl, hmem, hidx, hraw⟩ :=
                ih (idx + 1)
                  (lines.dropLast ++
                    [{ prev with note_raw := some (match prev.note_raw with
                        | some ex => ex ++ "; " ++ String.mk note
                        | none => String.mk note) }]) ws
                  { prev with note_raw := some (match prev.note_raw with
                      | some ex => ex ++ "; " ++ String.mk note
                      | none => String.mk note) }
                  (List.mem_append_right _ (List.mem_singleton.mpr rfl))
              exact ⟨rl, hmem, by rw [hidx, heq], by rw [hraw, heq]⟩
          next hlast => exact ih _ lines _ rl0 h0
        next hnote =>
          exact ih _ _ _ rl0 (List.mem_append_left _ h0)


theorem isNoiseLine_nil : isNoiseLine [] = true := rfl

theorem noise_false_nonempty (cs : List Char) (h : isNoiseLine cs = false) :
    cs.isEmpty = false := by
  cases cs with
  | nil => exact absurd h (by simp [isNoiseLine_nil])
  | cons c t => rfl

theorem parseAux_mem :
    ∀ (srcs : List String) (idx : Nat) (lines : List RawLine) (ws : List String)
      (rl : RawLine), rl ∈ (parseAux srcs idx lines ws).1 →
      (∃ rl0 ∈ lines, rl.line_index = rl0.line_index ∧ rl.raw_line = rl0.raw_line) ∨
      (∃ j : Fin srcs.length,
        rl.line_index = ((idx + j.val : Nat) : Int) ∧
        rl.raw_line = rstripCR (srcs.get j) ∧
        isNoiseLine (normalizeForParse (rstripCR (srcs.get j))).data = false) := by
  intro srcs
  induction srcs with
  | nil =>
      intro idx lines ws rl h
      exact Or.inl ⟨rl, h, rfl, rfl⟩
  | cons src rest ih =>
      intro idx lines ws rl h
      simp only [parseAux] at h
      have lift : (∃ j : Fin rest.length,
            rl.line_index = ((idx + 1 + j.val : Nat) : Int) ∧
            rl.raw_line = rstripCR (rest.get j) ∧
            isNoiseLine (normalizeForParse (rstripCR (rest.get j))).data = false) →
          (∃ j : Fin (src :: rest).length,
            rl.line_index = ((idx + j.val : Nat) : Int) ∧
            rl.raw_line = rstripCR ((src :: rest).get j) ∧
            isNoiseLine (normalizeForParse (rstripCR ((src :: rest).get j))).data = false) := by
        rintro ⟨j, h1, h2, h3⟩
        refine ⟨j.succ, ?_, ?_, ?_⟩
        · rw [h1, Fin.val_succ]; congr 1; omega
        · exact h2
        · exact h3
      split at h
      · rcases ih _ lines ws rl h with hl | hr
        · exact Or.inl hl
        · exact Or.inr (lift hr)
      next hcond =>
        split at h
        next note hnote =>
          split at h
          next prev hlast =>
            have hne : lines ≠ [] := by
              intro he; rw [he] at hlast; exact Option.noConfusion hlast
            have hgl : lines.getLast hne = prev := by
              rw [List.getLast?_eq_getLast _ hne, Option.some.injEq] at hlast
              exact hlast
            have hprevmem : prev ∈ lines := by
              rw [← hgl]; exact List.getLast_mem hne
            rcases ih _ _ ws rl h with ⟨rl0, h0mem, h0i, h0r⟩ | hr
            · rcases List.mem_append.mp h0mem with hdl | hsg
              · exact Or.inl ⟨rl0, List.dropLast_subset _ hdl, h0i, h0r⟩
              · have heq := List.mem_singleton.mp hsg
                refine Or.inl ⟨prev, hprevmem, ?_, ?_⟩
                · rw [h0i, heq]
                · rw [h0r, heq]
            · exact Or.inr (lift hr)
          next hlast =>
            rcases ih _ lines _ rl h with hl | hr
            · exact Or.inl hl
            · exact Or.inr (lift hr)
        next hnote =>
          rcases ih _ _ _ rl h with ⟨rl0, h0mem, h0i, h0r⟩ | hr
          · rcases List.mem_append.mp h0mem with hdl | hsg
            · exact Or.inl ⟨rl0, hdl, h0i, h0r⟩
            · have heq := List.mem_singleton.mp hsg
              have hb : ((normalizeForParse (rstripCR src)).data.isEmpty ||
                  isNoiseLine (normalizeForParse (rstripCR src)).data) = false :=
                Bool.eq_false_iff.mpr hcond
              refine Or.inr ⟨⟨0, Nat.succ_pos _⟩, ?_, ?_, ?_⟩
              · rw [h0i, heq, parseLine_line_index]; norm_num
              · rw [h0r, heq]; exact parseLine_raw_line _ _
              · exact (Bool.or_eq_false_iff.mp hb).2
          · exact Or.inr (lift hr)

theorem parseAux_complete :
    ∀ (srcs : List String) (idx : Nat) (lines : List RawLine) (ws : List String)
      (j : Fin srcs.length),
      isNoiseLine (normalizeForParse (rstripCR (srcs.get j))).data = false →
      standaloneNote (rstripCR (srcs.get j)) = none →
      ∃ rl ∈ (parseAux srcs idx lines ws).1,
        rl.line_index = ((idx + j.val : Nat) : Int) ∧
        rl.raw_line = rstripCR (srcs.get j) := by
  intro srcs
  induction srcs with
  | nil => intro idx lines ws j; exact absurd j.isLt (by simp)
  | cons src rest ih =>
      intro idx lines ws j hnoise hsa
      rcases Fin.eq_zero_or_eq_succ j with hj0 | ⟨j', hjs⟩
      · subst hj0
        have hget : (src :: rest).get (0 : Fin (rest.length + 1)) = src := rfl
        rw [hget] at hnoise hsa
        have hcond : ((normalizeForParse (rstripCR src)).data.isEmpty ||
            isNoiseLine (normalizeForParse (rstripCR src)).data) = false := by
          rw [noise_false_nonempty _ hnoise, hnoise]; rfl
        simp only [parseAux]
        rw [if_neg (by rw [hcond]; exact Bool.false_ne_true), hsa]
        obtain ⟨rl, hmem, hidx, hraw⟩ :=
          parseAux_preserve rest (idx + 1) (lines ++ [(parseLine (rstripCR src) idx).1])
            (ws ++ (parseLine (rstripCR src) idx).2)
            (parseLine (rstripCR src) idx).1
            (List.mem_append_right _ (List.mem_singleton.mpr rfl))
        refine ⟨rl, hmem, ?_, ?_⟩
        · rw [hidx, parseLine_line_index]; norm_num
        · rw [hraw]; exact parseLine_raw_line _ _
      · subst hjs
        have hget : (src :: rest).get j'.succ = rest.get j' := rfl
        rw [hget] at hnoise hsa
        have key : ∀ (lines2 : List RawLine) (ws2 : List String),
            ∃ rl ∈ (parseAux rest (idx + 1) lines2 ws2).1,
              rl.line_index = ((idx + j'.succ.val : Nat) : Int) ∧
              rl.raw_line = rstripCR (rest.get j') := by
          intro lines2 ws2
          obtain ⟨rl, hmem, hidx, hraw⟩ := ih (idx + 1) lines2 ws2 j' hnoise hsa
          refine ⟨rl, hmem, ?_, hraw⟩
          rw [hidx, Fin.val_succ]; congr 1; omega
        simp only [parseAux]
        split
        · exact key lines ws
        · split
          next note hnote =>
            split
            next prev hlast => exact key _ ws
            next hlast => exact key lines _
          next hnote => exact key _ _

theorem sepChar_mem (c : Char) (h : isSepChar c = true) :
    c ∈ ['-', '=', '~', '_', '*', '#', ' ', '\t', '\n', '\r', '\x0b', '\x0c', '\x1c', '\x1d', '\x1e', '\x1f', '\x85', '\xa0', '\u2000', '\u2001', '\u2002', '\u2003', '\u2004', '\u2005', '\u2006', '\u2007', '\u2008', '\u2009', '\u200A', '\u2028', '\u2029', '\u202F', '\u205F', '\u3000'] := by
  simp only [isSepChar, isPySpace, Bool.or_eq_true, decide_eq_true_eq] at h
  simp only [List.mem_cons, List.not_mem_nil, or_false]
  simp only [or_assoc] at h
  exact h

theorem sepChar_not_kwHead (c : Char) (h : isSepChar c = true) :
    NOISE_KEYWORDS.all
      (fun kw => decide (Candidates.asciiLower c ≠ kw.headD 'A')) = true := by
  have hm := sepChar_mem c h
  fin_cases hm <;> decide

theorem noisePrefix_nonempty (norm : List Char) (h : noisePrefixMatch norm = true) :
    norm.isEmpty = false := by
  cases norm with
  | nil => exact absurd h (by decide)
  | cons c t => rfl

theorem noisePrefix_not_sep (norm : List Char) (h : noisePrefixMatch norm = true) :
    separatorMatch norm = false := by
  cases hs : separatorMatch norm with
  | false => rfl
  | true =>
      exfalso
      simp only [separatorMatch, Bool.and_eq_true] at hs
      have hall : norm.all isSepChar = true := hs.2
      simp only [noisePrefixMatch, List.any_eq_true] at h
      obtain ⟨kw, hkw, hpm⟩ := h
      simp only [kwPrefixMatch, Bool.and_eq_true, decide_eq_true_eq] at hpm
      have hhead := hpm.1
      cases ht : norm.dropWhile isPySpace with
      | nil =>
          rw [ht] at hhead
          fin_cases hkw <;> simp at hhead
      | cons c t2 =>
          rw [ht] at hhead
          have hcmem : c ∈ norm := by
            have h1 : c ∈ norm.dropWhile isPySpace := by
              rw [ht]; exact List.mem_cons_self _ _
            exact (List.dropWhile_sublist isPySpace).subset h1
          have hsepc : isSepChar c = true := List.all_eq_true.mp hall c hcmem
          have hne : Candidates.asciiLower c ≠ kw.headD 'A' :=
            decide_eq_true_eq.mp
              (List.all_eq_true.mp (sepChar_not_kwHead c hsepc) kw hkw)
          fin_cases hkw <;>
            (simp only [List.headD_cons] at hne; simp at hhead; exact hne hhead.1)

theorem parseReceiptText_lines (text : String) :
    (parseReceiptText text).lines = (parseAux (splitLines text) 0 [] []).1 := rfl

end Parser

/-- **C8.** In `parse_receipt_text`, a line whose normalized form is noise
(separator run, metadata-keyword prefix without a quantity hint, phone-only,
or datetime-only) produces no `RawLine`; every surviving `RawLine` carries
`line_index` equal to the line's position in `text.splitlines()` and the
`\r`-stripped original text of that line, which is not noise; every non-noise,
non-standalone-note line survives at its original index; and a
metadata-keyword-prefixed line with a quantity hint is never classified as
noise, hence kept as an item line. -/
theorem C8_noise_line_filtering (text : String) :
    (∀ (i : Nat) (src : String), (Parser.splitLines text).get? i = some src →
       Parser.isNoiseLine (Parser.normalizeForParse (Parser.rstripCR src)).data = true →
       ∀ rl ∈ (Parser.parseReceiptText text).lines, rl.line_index ≠ (i : Int)) ∧
    (∀ rl ∈ (Parser.parseReceiptText text).lines, ∃ src : String,
       (Parser.splitLines text).get? rl.line_index.toNat = some src ∧
       rl.line_index = (rl.line_index.toNat : Int) ∧
       rl.raw_line = Parser.rstripCR src ∧
       Parser.isNoiseLine (Parser.normalizeForParse (Parser.rstripCR src)).data = false) ∧
    (∀ (i : Nat) (src : String), (Parser.splitLines text).get? i = some src →
       Parser.isNoiseLine (Parser.normalizeForParse (Parser.rstripCR src)).data = false →
       Parser.standaloneNote (Parser.rstripCR src) = none →
       ∃ rl ∈ (Parser.parseReceiptText text).lines, rl.line_index = (i : Int)) ∧
    (∀ norm : List Char, Parser.noisePrefixMatch norm = true →
       Parser.hasQtyHint norm = true → Parser.isNoiseLine norm = false) := by
  refine ⟨?_, ?_, ?_, ?_⟩
  · intro i src hget hnoise rl hmem hcontra
    rw [Parser.parseReceiptText_lines] at hmem
    rcases Parser.parseAux_mem _ 0 [] [] rl hmem with ⟨rl0, h0, _, _⟩ | ⟨j, hji, hjr, hjn⟩
    · exact absurd h0 (List.not_mem_nil _)
    · have hj : j.val = i := by
        rw [hcontra] at hji
        omega
      have hgetj : (Parser.splitLines text).get? j.val =
          some ((Parser.splitLines text).get j) := by
        rw [List.get?_eq_get j.isLt]
      rw [hj, hget, Option.some.injEq] at hgetj
      rw [← hgetj] at hjn
      rw [hnoise] at hjn
      exact Bool.noConfusion hjn
  · intro rl hmem
    rw [Parser.parseReceiptText_lines] at hmem
    rcases Parser.parseAux_mem _ 0 [] [] rl hmem with ⟨rl0, h0, _, _⟩ | ⟨j, hji, hjr, hjn⟩
    · exact absurd h0 (List.not_mem_nil _)
    · have hji2 : rl.line_index = (j.val : Int) := by rw [hji]; norm_num
      have htn : rl.line_index.toNat = j.val := by rw [hji2]; exact Int.toNat_ofNat _
      refine ⟨(Parser.splitLines text).get j, ?_, ?_, hjr, hjn⟩
      · rw [htn, List.get?_eq_get j.isLt]
      · rw [htn, hji2]
  · intro i src hget hnoise hsa
    obtain ⟨hlt, hsrc⟩ := List.get?_eq_some.mp hget
    subst hsrc
    obtain ⟨rl, hmem, hidx, _⟩ :=
      Parser.parseAux_complete (Parser.splitLines text) 0 [] [] ⟨i, hlt⟩ hnoise hsa
    refine ⟨rl, ?_, ?_⟩
    · rw [Parser.parseReceiptText_lines]; exact hmem
    · rw [hidx]; norm_num
  · intro norm h1 h2
    have hne := Parser.noisePrefix_nonempty norm h1
    have hsep := Parser.noisePrefix_not_sep norm h1
    simp [Parser.isNoiseLine, hne, hsep, h1, h2]

theorem exReceipt_parse :
    ((Parser.parseReceiptText exReceiptText).lines.map
        (fun rl => (rl.line_index, rl.name_raw, rl.qty, rl.note_raw)) =
      [((0 : Int), "招牌奶茶", (2 : Int), some "少冰"),
       ((5 : Int), "漢堡", (2 : Int), some "加蛋; 辣")]) ∧
    (Parser.parseReceiptText exReceiptText).parse_warnings = [] ∧
    (Parser.parseReceiptText exReceiptText).needs_review = false := by
  decide

namespace PyVal

theorem lookup_objSet_same (kvs : List (String × PyVal)) (k : String) (v : PyVal) :
    lookup (objSet kvs k v) k = some v := by
  induction kvs with
  | nil => simp [objSet, lookup]
  | cons kv rest ih =>
      obtain ⟨k', v'⟩ := kv
      simp only [objSet]
      split
      next h => simp [lookup, h]
      next h => simp [lookup, h, ih]

theorem lookup_objSet_other (kvs : List (String × PyVal)) (k : String) (v : PyVal)
    (k' : String) (h : k' ≠ k) :
    lookup (objSet kvs k v) k' = lookup kvs k' := by
  induction kvs with
  | nil =>
      simp only [objSet, lookup]
      rw [if_neg (fun he => h he.symm)]
  | cons kv rest ih =>
      obtain ⟨k0, v0⟩ := kv
      simp only [objSet]
      split
      next he =>
          subst he
          simp only [lookup]
          rw [if_neg (fun hc => h hc.symm), if_neg (fun hc => h hc.symm)]
      next he =>
          simp only [lookup]
          split
          · rfl
          · exact ih

end PyVal

/-- **C9.** In `AuditLogger.write_event` with `mask_sensitive` set, the
persisted payload is the event payload with `_mask_value` applied to
exactly the `llm_request` and `llm_response` entries: those two entries
hold the masked transforms of their pre-mask values, and the value at
every other key is left unchanged by the masking step. -/
theorem C9_audit_mask_frame (event : List (String × PyVal)) (now : String)
    (out : List (String × PyVal))
    (h : Audit.writeEventPayload event true now = Except.ok out) :
    ∃ p, Audit.toEventPayload event now = Except.ok p ∧
      Audit.writeEventPayload event false now = Except.ok p ∧
      out = Audit.maskLlmFields p ∧
      PyVal.lookup out "llm_request" =
        some (Audit.maskValue ((PyVal.lookup p "llm_request").getD PyVal.vnull)) ∧
      PyVal.lookup out "llm_response" =
        some (Audit.maskValue ((PyVal.lookup p "llm_response").getD PyVal.vnull)) ∧
      ∀ k, k ≠ "llm_request" → k ≠ "llm_response" →
        PyVal.lookup out k = PyVal.lookup p k := by
  unfold Audit.writeEventPayload at h ⊢
  cases htep : Audit.toEventPayload event now with
  | error e => rw [htep] at h; exact Except.noConfusion h
  | ok p =>
      rw [htep] at h
      simp only [if_true] at h
      have hout : out = Audit.maskLlmFields p := (Except.ok.inj h).symm
      refine ⟨p, rfl, by simp, hout, ?_, ?_, ?_⟩
      · rw [hout]
        unfold Audit.maskLlmFields
        rw [PyVal.lookup_objSet_other _ _ _ _ (by decide),
          PyVal.lookup_objSet_same]
      · rw [hout]
        unfold Audit.maskLlmFields
        rw [PyVal.lookup_objSet_same,
          PyVal.lookup_objSet_other _ _ _ _ (by decide)]
      · intro k hk1 hk2
        rw [hout]
        unfold Audit.maskLlmFields
        rw [PyVal.lookup_objSet_other _ _ _ _ hk2,
          PyVal.lookup_objSet_other _ _ _ _ hk1]

theorem C9_audit_mask_frame_witness :
    ∃ p, Audit.toEventPayload Audit.exAuditEvent "2026-01-01T00:00:00+00:00" =
        Except.ok p ∧
      Audit.writeEventPayload Audit.exAuditEvent false "2026-01-01T00:00:00+00:00" =
        Except.ok p ∧
      Audit.exAuditOut = Audit.maskLlmFields p ∧
      PyVal.lookup Audit.exAuditOut "llm_request" =
        some (Audit.maskValue ((PyVal.lookup p "llm_request").getD PyVal.vnull)) ∧
      PyVal.lookup Audit.exAuditOut "llm_response" =
        some (Audit.maskValue ((PyVal.lookup p "llm_response").getD PyVal.vnull)) ∧
      ∀ k, k ≠ "llm_request" → k ≠ "llm_response" →
        PyVal.lookup Audit.exAuditOut k = PyVal.lookup p k :=
  C9_audit_mask_frame Audit.exAuditEvent "2026-01-01T00:00:00+00:00"
    Audit.exAuditOut rfl
